import Mathlib

/-
Verification of the bytecode-driven value-witness interpreter
(stdlib/public/runtime/BytecodeLayouts.cpp).

The embedding is a shallow one:

* Value storage is a single byte-addressed memory `Mem := Nat → Nat`
  (each cell holds one byte).  `memcpy` copies cell ranges; `readLE` /
  `writeLE` are the little-endian multi-byte load/store used by
  `readTagBytes` and the enum-element helpers.
* The layout string is modelled structurally: `Op` is the catalogue of
  `RefCountingKind` instructions of the source, and an instruction is a
  pair of its 56-bit in-value offset (the "gap") and its `Op`.  A
  single-payload enum instruction carries its nested ref-count sub-stream
  (the `refCountBytes` region of the byte stream) as an inline list; a
  multi-payload enum instruction carries the per-payload streams (the
  payload-offset table plus the packed streams of the byte format) as a
  list of `End`-terminated lists.  Reading, skipping into, and resuming
  the byte stream in the source is continuation manipulation here.
* Relative function pointers (`GetEnumTagFn`, resilient accessors) are
  modelled by the functions they resolve to; pointer authentication is
  transparent at this level.
* The external collaborators (ref-count primitives, value witnesses of
  other types) are black boxes: calls to them are recorded as `Event`s in
  order, and the collaborators that write through pointers they are given
  (weak/unowned copy helpers, `_Block_copy`, foreign value witnesses) are
  abstract functions supplied through `RT` and `TypeMeta`.
* `modify`, the stateful reader, and `layoutStringHeaderSize` live in
  BytecodeLayouts.h, which is not part of the sources given; the reader
  is subsumed by the structural layout, and `loadEnumElement` /
  `storeEnumElement` (EnumImpl.h) are modelled from the spec as
  little-endian accesses of at most four bytes (the C `unsigned` width).
-/

namespace BL

set_option maxHeartbeats 1600000
set_option maxRecDepth 200000

/-! ## Byte memory -/

/-- Byte-addressed memory: cell `i` holds the byte at address `i`. -/
def Mem : Type := Nat → Nat

/-- All cells are genuine bytes. -/
def Bytes (m : Mem) : Prop := ∀ i, m i < 256

/-- Little-endian load of `n` bytes starting at `a`. -/
def readLE (m : Mem) (a : Nat) : Nat → Nat
  | 0 => 0
  | n + 1 => m a + 256 * readLE m (a + 1) n

/-- Little-endian store of the low `n` bytes of `v` starting at `a`. -/
def writeLE (m : Mem) (a n v : Nat) : Mem :=
  fun i => if a ≤ i ∧ i < a + n then v / 256 ^ (i - a) % 256 else m i

/-- The interpreter's `memcpy(dst, src, n)` on one address space. -/
def memcpy (m : Mem) (d s n : Nat) : Mem :=
  fun i => if d ≤ i ∧ i < d + n then m (s + (i - d)) else m i

theorem memcpy_self (m : Mem) (p n : Nat) : memcpy m p p n = m := by
  funext i
  unfold memcpy
  split
  · next h => rw [Nat.add_sub_cancel' h.1]
  · rfl

theorem memcpy_zero (m : Mem) (d s : Nat) : memcpy m d s 0 = m := by
  funext i
  unfold memcpy
  split
  · next h => omega
  · rfl

theorem readLE_congr {m₁ m₂ : Mem} {a n : Nat}
    (h : ∀ i, i < n → m₁ (a + i) = m₂ (a + i)) :
    readLE m₁ a n = readLE m₂ a n := by
  induction n generalizing a with
  | zero => rfl
  | succ n ih =>
    unfold readLE
    have h0 : m₁ a = m₂ a := by simpa using h 0 (Nat.succ_pos n)
    rw [h0, ih]
    intro i hi
    have := h (1 + i) (by omega)
    simpa [Nat.add_assoc] using this

theorem writeLE_out {m : Mem} {a n v : Nat} {i : Nat}
    (h : i < a ∨ a + n ≤ i) : writeLE m a n v i = m i := by
  unfold writeLE
  split
  · next hin => omega
  · rfl

theorem mod_mul_decomp (v K : Nat) : v % (256 * K) = v % 256 + 256 * (v / 256 % K) := by
  have h1 : v % (256 * K) % 256 = v % 256 := Nat.mod_mod_of_dvd v ⟨K, rfl⟩
  have h2 : v % (256 * K) / 256 = v / 256 % K := Nat.mod_mul_right_div_self v 256 K
  have h3 := Nat.div_add_mod (v % (256 * K)) 256
  omega

theorem readLE_writeLE (m : Mem) (a n v : Nat) :
    readLE (writeLE m a n v) a n = v % 256 ^ n := by
  induction n generalizing a v with
  | zero => simp [readLE, Nat.mod_one]
  | succ n ih =>
    have hcell : writeLE m a (n + 1) v a = v % 256 := by
      unfold writeLE
      rw [if_pos (by omega : a ≤ a ∧ a < a + (n + 1))]
      simp
    have htail : readLE (writeLE m a (n + 1) v) (a + 1) n
        = readLE (writeLE m (a + 1) n (v / 256)) (a + 1) n := by
      apply readLE_congr
      intro i hi
      unfold writeLE
      rw [if_pos (by omega : a ≤ a + 1 + i ∧ a + 1 + i < a + (n + 1)),
        if_pos (by omega : a + 1 ≤ a + 1 + i ∧ a + 1 + i < a + 1 + n)]
      have e1 : a + 1 + i - a = i + 1 := by omega
      have e2 : a + 1 + i - (a + 1) = i := by omega
      rw [e1, e2, Nat.pow_succ', ← Nat.div_div_eq_div_mul]
    unfold readLE
    rw [hcell, htail, ih, Nat.pow_succ' (m := 256) (n := n)]
    exact (mod_mul_decomp v (256 ^ n)).symm

theorem readLE_writeLE_disjoint {m : Mem} {a n v b k : Nat}
    (h : b + k ≤ a ∨ a + n ≤ b) :
    readLE (writeLE m a n v) b k = readLE m b k := by
  apply readLE_congr
  intro i hi
  apply writeLE_out
  omega

theorem readLE_memcpy_disjoint {m : Mem} {d s n b k : Nat}
    (h : b + k ≤ d ∨ d + n ≤ b) :
    readLE (memcpy m d s n) b k = readLE m b k := by
  apply readLE_congr
  intro i hi
  unfold memcpy
  split
  · next hin => omega
  · rfl

theorem readLE_lt (m : Mem) (a n : Nat) (h : Bytes m) :
    readLE m a n < 256 ^ n := by
  induction n generalizing a with
  | zero => simp [readLE]
  | succ n ih =>
    unfold readLE
    have h1 := h a
    have h2 := ih (a + 1)
    rw [Nat.pow_succ']
    omega

theorem readLE_byte (m : Mem) (a n j : Nat) (hB : Bytes m) (hj : j < n) :
    readLE m a n / 256 ^ j % 256 = m (a + j) := by
  induction n generalizing a j with
  | zero => omega
  | succ n ih =>
    unfold readLE
    cases j with
    | zero =>
      have := hB a
      have h2 : readLE m (a + 1) n < 256 ^ n := readLE_lt m (a + 1) n hB
      simp only [Nat.pow_zero, Nat.div_one, Nat.add_zero]
      omega
    | succ j =>
      have hred : (m a + 256 * readLE m (a + 1) n) / 256 ^ (j + 1)
          = readLE m (a + 1) n / 256 ^ j := by
        rw [Nat.pow_succ', ← Nat.div_div_eq_div_mul]
        rw [Nat.add_mul_div_left _ _ (by norm_num : (0:Nat) < 256)]
        have hz : m a / 256 = 0 := Nat.div_eq_of_lt (hB a)
        rw [hz, Nat.zero_add]
      rw [hred, ih (a + 1) j (by omega)]
      have : a + 1 + j = a + (j + 1) := by omega
      rw [this]

theorem writeLE_readLE_self (m : Mem) (a n : Nat) (hB : Bytes m) :
    writeLE m a n (readLE m a n) = m := by
  funext i
  unfold writeLE
  split
  · next h =>
    have hj : i - a < n := by omega
    have := readLE_byte m a n (i - a) hB hj
    have hia : a + (i - a) = i := by omega
    rw [this, hia]
  · rfl

/-! ## ABI constants and machine arithmetic -/

/-- The platform ABI masks consumed from the runtime:
`_swift_abi_SwiftSpareBitsMask` and `_swift_abi_ObjCReservedBitsMask`. -/
structure ABI where
  spare : Nat
  reserved : Nat

/-- 64-bit all-ones word. -/
def mask64 : Nat := 2 ^ 64 - 1

/-- The C expression `w & ~_swift_abi_SwiftSpareBitsMask` on a 64-bit word. -/
def maskSpare (abi : ABI) (w : Nat) : Nat := w &&& (mask64 ^^^ abi.spare % 2 ^ 64)

/-- Wrapping 64-bit subtraction, the C `uint64_t` difference `a - b`. -/
def sub64 (a b : Nat) : Nat := (a % 2 ^ 64 + (2 ^ 64 - b % 2 ^ 64)) % 2 ^ 64

/-- Wrapping 32-bit subtraction, the C `unsigned` difference `a - b`. -/
def sub32 (a b : Nat) : Nat := (a % 2 ^ 32 + (2 ^ 32 - b % 2 ^ 32)) % 2 ^ 32

theorem sub64_exact {a b : Nat} (h : b ≤ a) (ha : a < 2 ^ 64) :
    sub64 a b = a - b := by
  unfold sub64
  have hb : b < 2 ^ 64 := by omega
  rw [Nat.mod_eq_of_lt ha, Nat.mod_eq_of_lt hb]
  have : a + (2 ^ 64 - b) = 2 ^ 64 + (a - b) := by omega
  rw [this, Nat.add_mod_left, Nat.mod_eq_of_lt (by omega)]

theorem sub32_exact {a b : Nat} (h : b ≤ a) (ha : a < 2 ^ 32) :
    sub32 a b = a - b := by
  unfold sub32
  have hb : b < 2 ^ 32 := by omega
  rw [Nat.mod_eq_of_lt ha, Nat.mod_eq_of_lt hb]
  have : a + (2 ^ 32 - b) = 2 ^ 32 + (a - b) := by omega
  rw [this, Nat.add_mod_left, Nat.mod_eq_of_lt (by omega)]

/-- The tag-byte reader of the source (`readTagBytes`): an unaligned
little-endian load zero-extended to 64 bits.  The source aborts for
widths outside 1, 2, 4, 8; well-formedness hypotheses keep widths legal
and the model is total. -/
def readTagBytes (m : Mem) (a byteCount : Nat) : Nat := readLE m a byteCount

/-- Modelled from the spec: `loadEnumElement` of EnumImpl.h (not among the
given sources) — little-endian load of `min size 4` bytes into a C
`unsigned`. -/
def loadEnumElement (m : Mem) (a size : Nat) : Nat := readLE m a (min size 4)

/-- Modelled from the spec: `storeEnumElement` of EnumImpl.h (not among the
given sources) — little-endian store of the low `min size 4` bytes of a C
`unsigned` value. -/
def storeEnumElement (m : Mem) (a value size : Nat) : Mem :=
  writeLE m a (min size 4) value

/-! ## Collaborator events -/

/-- A call into the runtime's object-lifecycle collaborator, recorded in
call order.  Word arguments are the 64-bit values passed (after any
masking the call site performs); address arguments are slot addresses. -/
inductive Event where
  | errorRelease (w : Nat)
  | release (w : Nat)
  | unownedRelease (w : Nat)
  | weakDestroy (a : Nat)
  | unknownRelease (w : Nat)
  | unknownUnownedDestroy (a : Nat)
  | unknownWeakDestroy (a : Nat)
  | bridgeRelease (w : Nat)
  | blockRelease (x : Nat)
  | objcRelease (w : Nat)
  | vwDestroy (tid a : Nat)
  | errorRetain (w : Nat)
  | retain (w : Nat)
  | unownedRetain (w : Nat)
  | weakCopyInit (d s : Nat)
  | unknownRetain (w : Nat)
  | unknownUnownedCopyInit (d s : Nat)
  | unknownWeakCopyInit (d s : Nat)
  | bridgeRetain (w : Nat)
  | blockCopy (w : Nat)
  | objcRetain (w : Nat)
  | vwInitWithCopy (tid d s : Nat)
  | vwBufferCopy (tid d s : Nat)
  | vwInitWithTake (tid d s : Nat)
  | unknownWeakTakeInit (d s : Nat)
  | weakCopyAssign (d s : Nat)
  | unknownUnownedCopyAssign (d s : Nat)
  | unknownWeakCopyAssign (d s : Nat)
  | vwAssignWithCopy (tid d s : Nat)
  deriving DecidableEq, Repr

/-- The reference families whose counts the interpreter manages through
explicit retain/release calls.  Slot-based collaborators (weak, unknown
unowned, blocks) and delegated value witnesses keep their own counts
behind the collaborator interface and are not charged here. -/
inductive RefCat where
  | error
  | strong
  | unowned
  | unknown
  | bridge
  | objc
  deriving DecidableEq, Repr

/-- Refcount delta one event contributes to category `c`, object word `w`. -/
def evDelta (c : RefCat) (w : Nat) : Event → Int
  | .errorRelease x => if c = .error ∧ x = w then -1 else 0
  | .errorRetain x => if c = .error ∧ x = w then 1 else 0
  | .release x => if c = .strong ∧ x = w then -1 else 0
  | .retain x => if c = .strong ∧ x = w then 1 else 0
  | .unownedRelease x => if c = .unowned ∧ x = w then -1 else 0
  | .unownedRetain x => if c = .unowned ∧ x = w then 1 else 0
  | .unknownRelease x => if c = .unknown ∧ x = w then -1 else 0
  | .unknownRetain x => if c = .unknown ∧ x = w then 1 else 0
  | .bridgeRelease x => if c = .bridge ∧ x = w then -1 else 0
  | .bridgeRetain x => if c = .bridge ∧ x = w then 1 else 0
  | .objcRelease x => if c = .objc ∧ x = w then -1 else 0
  | .objcRetain x => if c = .objc ∧ x = w then 1 else 0
  | _ => 0

/-- Net refcount change of a trace for category `c`, object word `w`. -/
def rcDelta (evs : List Event) (c : RefCat) (w : Nat) : Int :=
  (evs.map (evDelta c w)).sum

theorem rcDelta_append (e₁ e₂ : List Event) (c : RefCat) (w : Nat) :
    rcDelta (e₁ ++ e₂) c w = rcDelta e₁ c w + rcDelta e₂ c w := by
  unfold rcDelta
  rw [List.map_append, List.sum_append]

/-- Release-flavored collaborator calls: the only calls a destroy
traversal may make. -/
def releaseFlavored : Event → Prop
  | .errorRelease _ => True
  | .release _ => True
  | .unownedRelease _ => True
  | .weakDestroy _ => True
  | .unknownRelease _ => True
  | .unknownUnownedDestroy _ => True
  | .unknownWeakDestroy _ => True
  | .bridgeRelease _ => True
  | .blockRelease _ => True
  | .objcRelease _ => True
  | .vwDestroy _ _ => True
  | _ => False

/-! ## External type metadata and runtime collaborators -/

/-- `NumWords_ValueBuffer`: word count of an existential's inline value
buffer (three words in the Swift ABI; the header defining it is not among
the given sources). -/
def numWordsValueBuffer : Nat := 3

/-- The slice of a `Metadata` record for another type that the
interpreter consults: `vw_size`, `vw_getNumExtraInhabitants`, witness
table flags, and the value witnesses it delegates to.  The witnesses
that write memory are abstract functions from destination/source
addresses; witnesses are otherwise opaque and identified by `tid`. -/
structure TypeMeta where
  tid : Nat
  size : Nat
  numXI : Nat
  isValueInline : Bool
  getEnumTagSP : Mem → Nat → Nat → Nat
  storeEnumTagSP : Mem → Nat → Nat → Nat → Mem
  initWithCopyFn : Mem → Nat → Nat → Mem
  initWithTakeFn : Mem → Nat → Nat → Mem
  assignWithCopyFn : Mem → Nat → Nat → Mem
  bufferInitFn : Mem → Nat → Nat → Mem

/-- The runtime collaborators that write through slot pointers they are
handed, plus the map from a metadata word stored in memory to its
`TypeMeta` (used by the existential primitives). -/
structure RT where
  weakCopyInit : Mem → Nat → Nat → Mem
  weakCopyAssign : Mem → Nat → Nat → Mem
  unknownUnownedCopyInit : Mem → Nat → Nat → Mem
  unknownUnownedCopyAssign : Mem → Nat → Nat → Mem
  unknownWeakCopyInit : Mem → Nat → Nat → Mem
  unknownWeakCopyAssign : Mem → Nat → Nat → Mem
  unknownWeakTakeInit : Mem → Nat → Nat → Mem
  blockCopyFn : Nat → Nat
  mtab : Nat → TypeMeta

/-! ## Layout bytecode, structurally -/

/-- One `RefCountingKind` instruction of the layout string.  A
single-payload enum carries its `refCountBytes` sub-stream inline (the
instructions that follow its parameters in the byte stream); a
multi-payload enum carries its per-payload `End`-terminated streams (the
payload-offset table plus packed streams of the byte format).  Relative
function pointers and resilient accessors appear as the functions/types
they resolve to. -/
inductive Op where
  | stop
  | error
  | nativeStrong
  | unowned
  | weak
  | unknown
  | unknownUnowned
  | unknownWeak
  | bridge
  | block
  | objcStrong
  | metatype (t : TypeMeta)
  | existential
  | resilient (t : TypeMeta)
  | singlePayloadEnumSimple (byteCountsAndOffset payloadSize zeroTagValue xiTagValues : Nat)
      (sub : List (Nat × Op)) (skipBytes : Nat)
  | singlePayloadEnumFN (getEnumTag : Mem → Nat → Nat)
      (sub : List (Nat × Op)) (skipBytes : Nat)
  | singlePayloadEnumFNResolved (getEnumTag : Mem → Nat → Nat)
      (sub : List (Nat × Op)) (skipBytes : Nat)
  | singlePayloadEnumGeneric (tagBytesAndOffset payloadSize : Nat)
      (xiType : Option TypeMeta) (numEmptyCases : Nat)
      (sub : List (Nat × Op)) (skipBytes : Nat)
  | multiPayloadEnumFN (getEnumTag : Mem → Nat → Nat)
      (payloads : List (List (Nat × Op))) (enumSize : Nat)
  | multiPayloadEnumFNResolved (getEnumTag : Mem → Nat → Nat)
      (payloads : List (List (Nat × Op))) (enumSize : Nat)
  | multiPayloadEnumGeneric (tagBytes : Nat)
      (payloads : List (List (Nat × Op))) (enumSize : Nat)

/-- An instruction: the 56-bit in-value gap paired with its kind. -/
abbrev Inst := Nat × Op

/-- The slice of a type's own metadata record the drivers consult:
`vw_size`, the bitwise-takable flag, and the attached layout string. -/
structure Metadata where
  size : Nat
  bitwiseTakable : Bool
  layout : List Inst

/-- Interpreter state: the `addrOffset` cursor, the address space, and
the collaborator calls made so far (in order). -/
structure S where
  addrOffset : Nat
  mem : Mem
  events : List Event

/-- Fixed per-call context: ABI masks, runtime collaborators, and the
`dest`/`src` base pointers (`dest = src = addr` for the unary destroy). -/
structure Ctx where
  abi : ABI
  rt : RT
  dest : Nat
  src : Nat

theorem sizeOf_list_append {α : Type} [SizeOf α] (l₁ l₂ : List α) :
    sizeOf (l₁ ++ l₂) + 1 = sizeOf l₁ + sizeOf l₂ := by
  induction l₁ with
  | nil => simp; omega
  | cons a t ih =>
    simp only [List.cons_append, List.cons.sizeOf_spec]
    omega

theorem sizeOf_list_get_lt {α : Type} [SizeOf α] :
    ∀ (l : List α) (i : Fin l.length), sizeOf (l.get i) < sizeOf l
  | a :: t, ⟨0, _⟩ => by
    simp only [List.get, List.cons.sizeOf_spec]
    omega
  | a :: t, ⟨i + 1, h⟩ => by
    have ih := sizeOf_list_get_lt t ⟨i, by simpa using Nat.lt_of_succ_lt_succ h⟩
    simp only [List.get, List.cons.sizeOf_spec]
    omega

theorem sizeOf_list_getElem_lt {α : Type} [SizeOf α] (l : List α) (i : Nat)
    (h : i < l.length) : sizeOf l[i] < sizeOf l := by
  have := sizeOf_list_get_lt l ⟨i, h⟩
  simpa [List.get_eq_getElem] using this

/-! ## Reference-kind primitives

Each definition mirrors the C++ function of the same name.  Where the
loaded word is stored back through `memcpy(dest, &object, …)`, the model
copies the cell range (the local variable holds exactly those bytes). -/

def errorDestroyBranchless (c : Ctx) (s : S) : S :=
  ⟨s.addrOffset + 8, s.mem,
    s.events ++ [.errorRelease (readLE s.mem (c.dest + s.addrOffset) 8)]⟩

def nativeStrongDestroyBranchless (c : Ctx) (s : S) : S :=
  ⟨s.addrOffset + 8, s.mem,
    s.events ++ [.release (maskSpare c.abi (readLE s.mem (c.dest + s.addrOffset) 8))]⟩

def unownedDestroyBranchless (c : Ctx) (s : S) : S :=
  ⟨s.addrOffset + 8, s.mem,
    s.events ++ [.unownedRelease (maskSpare c.abi (readLE s.mem (c.dest + s.addrOffset) 8))]⟩

def weakDestroyBranchless (c : Ctx) (s : S) : S :=
  ⟨s.addrOffset + 8, s.mem, s.events ++ [.weakDestroy (c.dest + s.addrOffset)]⟩

def unknownDestroyBranchless (c : Ctx) (s : S) : S :=
  ⟨s.addrOffset + 8, s.mem,
    s.events ++ [.unknownRelease (readLE s.mem (c.dest + s.addrOffset) 8)]⟩

def unknownUnownedDestroyBranchless (c : Ctx) (s : S) : S :=
  ⟨s.addrOffset + 8, s.mem, s.events ++ [.unknownUnownedDestroy (c.dest + s.addrOffset)]⟩

def unknownWeakDestroyBranchless (c : Ctx) (s : S) : S :=
  ⟨s.addrOffset + 8, s.mem, s.events ++ [.unknownWeakDestroy (c.dest + s.addrOffset)]⟩

def bridgeDestroyBranchless (c : Ctx) (s : S) : S :=
  ⟨s.addrOffset + 8, s.mem,
    s.events ++ [.bridgeRelease (readLE s.mem (c.dest + s.addrOffset) 8)]⟩

/-- Note: the source passes the slot address `addr + addrOffset` itself to
`_Block_release`, not the loaded word; the event records what is passed. -/
def blockDestroyBranchless (c : Ctx) (s : S) : S :=
  ⟨s.addrOffset + 8, s.mem, s.events ++ [.blockRelease (c.dest + s.addrOffset)]⟩

def objcStrongDestroyBranchless (c : Ctx) (s : S) : S :=
  let w := readLE s.mem (c.dest + s.addrOffset) 8
  if w &&& c.abi.reserved % 2 ^ 64 ≠ 0 then
    ⟨s.addrOffset + 8, s.mem, s.events⟩
  else
    ⟨s.addrOffset + 8, s.mem, s.events ++ [.objcRelease (maskSpare c.abi w)]⟩

def metatypeDestroyBranchless (c : Ctx) (t : TypeMeta) (s : S) : S :=
  ⟨s.addrOffset + t.size, s.mem, s.events ++ [.vwDestroy t.tid (c.dest + s.addrOffset)]⟩

def existentialDestroyBranchless (c : Ctx) (s : S) : S :=
  let t := c.rt.mtab (readLE s.mem (c.dest + s.addrOffset + 8 * numWordsValueBuffer) 8)
  if t.isValueInline then
    ⟨s.addrOffset + 8 * numWordsValueBuffer, s.mem,
      s.events ++ [.vwDestroy t.tid (c.dest + s.addrOffset)]⟩
  else
    ⟨s.addrOffset + 8 * numWordsValueBuffer, s.mem,
      s.events ++ [.release (readLE s.mem (c.dest + s.addrOffset) 8)]⟩

def resilientDestroyBranchless (c : Ctx) (t : TypeMeta) (s : S) : S :=
  ⟨s.addrOffset + t.size, s.mem, s.events ++ [.vwDestroy t.tid (c.dest + s.addrOffset)]⟩

def errorRetainBranchless (c : Ctx) (s : S) : S :=
  let w := readLE s.mem (c.src + s.addrOffset) 8
  ⟨s.addrOffset + 8, memcpy s.mem (c.dest + s.addrOffset) (c.src + s.addrOffset) 8,
    s.events ++ [.errorRetain w]⟩

def nativeStrongRetainBranchless (c : Ctx) (s : S) : S :=
  let w := readLE s.mem (c.src + s.addrOffset) 8
  ⟨s.addrOffset + 8, memcpy s.mem (c.dest + s.addrOffset) (c.src + s.addrOffset) 8,
    s.events ++ [.retain (maskSpare c.abi w)]⟩

def unownedRetainBranchless (c : Ctx) (s : S) : S :=
  let w := readLE s.mem (c.src + s.addrOffset) 8
  ⟨s.addrOffset + 8, memcpy s.mem (c.dest + s.addrOffset) (c.src + s.addrOffset) 8,
    s.events ++ [.unownedRetain (maskSpare c.abi w)]⟩

def weakCopyInitBranchless (c : Ctx) (s : S) : S :=
  ⟨s.addrOffset + 8, c.rt.weakCopyInit s.mem (c.dest + s.addrOffset) (c.src + s.addrOffset),
    s.events ++ [.weakCopyInit (c.dest + s.addrOffset) (c.src + s.addrOffset)]⟩

def unknownRetainBranchless (c : Ctx) (s : S) : S :=
  let w := readLE s.mem (c.src + s.addrOffset) 8
  ⟨s.addrOffset + 8, memcpy s.mem (c.dest + s.addrOffset) (c.src + s.addrOffset) 8,
    s.events ++ [.unknownRetain w]⟩

def unknownUnownedCopyInitBranchless (c : Ctx) (s : S) : S :=
  ⟨s.addrOffset + 8,
    c.rt.unknownUnownedCopyInit s.mem (c.dest + s.addrOffset) (c.src + s.addrOffset),
    s.events ++ [.unknownUnownedCopyInit (c.dest + s.addrOffset) (c.src + s.addrOffset)]⟩

def unknownWeakCopyInitBranchless (c : Ctx) (s : S) : S :=
  ⟨s.addrOffset + 8,
    c.rt.unknownWeakCopyInit s.mem (c.dest + s.addrOffset) (c.src + s.addrOffset),
    s.events ++ [.unknownWeakCopyInit (c.dest + s.addrOffset) (c.src + s.addrOffset)]⟩

def bridgeRetainBranchless (c : Ctx) (s : S) : S :=
  let w := readLE s.mem (c.src + s.addrOffset) 8
  ⟨s.addrOffset + 8, memcpy s.mem (c.dest + s.addrOffset) (c.src + s.addrOffset) 8,
    s.events ++ [.bridgeRetain w]⟩

def blockCopyBranchless (c : Ctx) (s : S) : S :=
  let w := readLE s.mem (c.src + s.addrOffset) 8
  ⟨s.addrOffset + 8, writeLE s.mem (c.dest + s.addrOffset) 8 (c.rt.blockCopyFn w),
    s.events ++ [.blockCopy w]⟩

def objcStrongRetainBranchless (c : Ctx) (s : S) : S :=
  let w := readLE s.mem (c.src + s.addrOffset) 8
  let m2 := memcpy s.mem (c.dest + s.addrOffset) (c.src + s.addrOffset) 8
  if w &&& c.abi.reserved % 2 ^ 64 ≠ 0 then
    ⟨s.addrOffset + 8, m2, s.events⟩
  else
    ⟨s.addrOffset + 8, m2, s.events ++ [.objcRetain (maskSpare c.abi w)]⟩

def metatypeInitWithCopyBranchless (c : Ctx) (t : TypeMeta) (s : S) : S :=
  ⟨s.addrOffset + t.size, t.initWithCopyFn s.mem (c.dest + s.addrOffset) (c.src + s.addrOffset),
    s.events ++ [.vwInitWithCopy t.tid (c.dest + s.addrOffset) (c.src + s.addrOffset)]⟩

/-- `existentialInitWithCopyBranchless` delegates to
`vw_initializeBufferWithCopyOfBuffer`, whose body is not among the given
sources.  Modelled from the spec: it dispatches on the witness-table
inline bit — if inline, the opaque buffer witness runs; otherwise it
memcpys one pointer word and native-retains the shared heap-object box. -/
def existentialInitWithCopyBranchless (c : Ctx) (s : S) : S :=
  let t := c.rt.mtab (readLE s.mem (c.src + s.addrOffset + 8 * numWordsValueBuffer) 8)
  if t.isValueInline then
    ⟨s.addrOffset + 8 * numWordsValueBuffer,
      t.bufferInitFn s.mem (c.dest + s.addrOffset) (c.src + s.addrOffset),
      s.events ++ [.vwBufferCopy t.tid (c.dest + s.addrOffset) (c.src + s.addrOffset)]⟩
  else
    ⟨s.addrOffset + 8 * numWordsValueBuffer,
      memcpy s.mem (c.dest + s.addrOffset) (c.src + s.addrOffset) 8,
      s.events ++ [.retain (readLE s.mem (c.src + s.addrOffset) 8)]⟩

def resilientInitWithCopyBranchless (c : Ctx) (t : TypeMeta) (s : S) : S :=
  ⟨s.addrOffset + t.size, t.initWithCopyFn s.mem (c.dest + s.addrOffset) (c.src + s.addrOffset),
    s.events ++ [.vwInitWithCopy t.tid (c.dest + s.addrOffset) (c.src + s.addrOffset)]⟩

def unknownWeakInitWithTake (c : Ctx) (s : S) : S :=
  ⟨s.addrOffset + 8,
    c.rt.unknownWeakTakeInit s.mem (c.dest + s.addrOffset) (c.src + s.addrOffset),
    s.events ++ [.unknownWeakTakeInit (c.dest + s.addrOffset) (c.src + s.addrOffset)]⟩

def metatypeInitWithTake (c : Ctx) (t : TypeMeta) (s : S) : S :=
  ⟨s.addrOffset + t.size, t.initWithTakeFn s.mem (c.dest + s.addrOffset) (c.src + s.addrOffset),
    s.events ++ [.vwInitWithTake t.tid (c.dest + s.addrOffset) (c.src + s.addrOffset)]⟩

def existentialInitWithTake (c : Ctx) (s : S) : S :=
  let t := c.rt.mtab (readLE s.mem (c.src + s.addrOffset + 8 * numWordsValueBuffer) 8)
  if t.isValueInline then
    ⟨s.addrOffset + 8 * numWordsValueBuffer,
      t.initWithTakeFn s.mem (c.dest + s.addrOffset) (c.src + s.addrOffset),
      s.events ++ [.vwInitWithTake t.tid (c.dest + s.addrOffset) (c.src + s.addrOffset)]⟩
  else
    ⟨s.addrOffset + 8 * numWordsValueBuffer,
      memcpy s.mem (c.dest + s.addrOffset) (c.src + s.addrOffset) 8, s.events⟩

def resilientInitWithTake (c : Ctx) (t : TypeMeta) (s : S) : S :=
  ⟨s.addrOffset + t.size, t.initWithTakeFn s.mem (c.dest + s.addrOffset) (c.src + s.addrOffset),
    s.events ++ [.vwInitWithTake t.tid (c.dest + s.addrOffset) (c.src + s.addrOffset)]⟩

def errorAssignWithCopy (c : Ctx) (s : S) : S :=
  let dw := readLE s.mem (c.dest + s.addrOffset) 8
  let sw := readLE s.mem (c.src + s.addrOffset) 8
  ⟨s.addrOffset + 8, memcpy s.mem (c.dest + s.addrOffset) (c.src + s.addrOffset) 8,
    s.events ++ [.errorRelease dw, .errorRetain sw]⟩

def nativeStrongAssignWithCopy (c : Ctx) (s : S) : S :=
  let dw := readLE s.mem (c.dest + s.addrOffset) 8
  let sw := readLE s.mem (c.src + s.addrOffset) 8
  ⟨s.addrOffset + 8, memcpy s.mem (c.dest + s.addrOffset) (c.src + s.addrOffset) 8,
    s.events ++ [.release (maskSpare c.abi dw), .retain (maskSpare c.abi sw)]⟩

def unownedAssignWithCopy (c : Ctx) (s : S) : S :=
  let dw := readLE s.mem (c.dest + s.addrOffset) 8
  let sw := readLE s.mem (c.src + s.addrOffset) 8
  ⟨s.addrOffset + 8, memcpy s.mem (c.dest + s.addrOffset) (c.src + s.addrOffset) 8,
    s.events ++ [.unownedRelease (maskSpare c.abi dw), .unownedRetain (maskSpare c.abi sw)]⟩

def weakAssignWithCopy (c : Ctx) (s : S) : S :=
  ⟨s.addrOffset + 8, c.rt.weakCopyAssign s.mem (c.dest + s.addrOffset) (c.src + s.addrOffset),
    s.events ++ [.weakCopyAssign (c.dest + s.addrOffset) (c.src + s.addrOffset)]⟩

def unknownAssignWithCopy (c : Ctx) (s : S) : S :=
  let dw := readLE s.mem (c.dest + s.addrOffset) 8
  let sw := readLE s.mem (c.src + s.addrOffset) 8
  ⟨s.addrOffset + 8, memcpy s.mem (c.dest + s.addrOffset) (c.src + s.addrOffset) 8,
    s.events ++ [.unknownRelease dw, .unknownRetain sw]⟩

def unknownUnownedAssignWithCopy (c : Ctx) (s : S) : S :=
  ⟨s.addrOffset + 8,
    c.rt.unknownUnownedCopyAssign s.mem (c.dest + s.addrOffset) (c.src + s.addrOffset),
    s.events ++ [.unknownUnownedCopyAssign (c.dest + s.addrOffset) (c.src + s.addrOffset)]⟩

def unknownWeakAssignWithCopy (c : Ctx) (s : S) : S :=
  ⟨s.addrOffset + 8,
    c.rt.unknownWeakCopyAssign s.mem (c.dest + s.addrOffset) (c.src + s.addrOffset),
    s.events ++ [.unknownWeakCopyAssign (c.dest + s.addrOffset) (c.src + s.addrOffset)]⟩

def bridgeAssignWithCopy (c : Ctx) (s : S) : S :=
  let dw := readLE s.mem (c.dest + s.addrOffset) 8
  let sw := readLE s.mem (c.src + s.addrOffset) 8
  ⟨s.addrOffset + 8, memcpy s.mem (c.dest + s.addrOffset) (c.src + s.addrOffset) 8,
    s.events ++ [.bridgeRelease dw, .bridgeRetain sw]⟩

def blockAssignWithCopy (c : Ctx) (s : S) : S :=
  let dw := readLE s.mem (c.dest + s.addrOffset) 8
  let sw := readLE s.mem (c.src + s.addrOffset) 8
  ⟨s.addrOffset + 8, writeLE s.mem (c.dest + s.addrOffset) 8 (c.rt.blockCopyFn sw),
    s.events ++ [.blockRelease dw, .blockCopy sw]⟩

def objcStrongAssignWithCopy (c : Ctx) (s : S) : S :=
  let dw := readLE s.mem (c.dest + s.addrOffset) 8
  let sw := readLE s.mem (c.src + s.addrOffset) 8
  let m2 := memcpy s.mem (c.dest + s.addrOffset) (c.src + s.addrOffset) 8
  let e1 : List Event :=
    if dw &&& c.abi.reserved % 2 ^ 64 ≠ 0 then [] else [.objcRelease (maskSpare c.abi dw)]
  let e2 : List Event :=
    if sw &&& c.abi.reserved % 2 ^ 64 ≠ 0 then [] else [.objcRetain (maskSpare c.abi sw)]
  ⟨s.addrOffset + 8, m2, s.events ++ e1 ++ e2⟩

def metatypeAssignWithCopy (c : Ctx) (t : TypeMeta) (s : S) : S :=
  ⟨s.addrOffset + t.size,
    t.assignWithCopyFn s.mem (c.dest + s.addrOffset) (c.src + s.addrOffset),
    s.events ++ [.vwAssignWithCopy t.tid (c.dest + s.addrOffset) (c.src + s.addrOffset)]⟩

def existentialAssignWithCopy (c : Ctx) (s : S) : S :=
  let t := c.rt.mtab (readLE s.mem (c.src + s.addrOffset + 8 * numWordsValueBuffer) 8)
  if t.isValueInline then
    ⟨s.addrOffset + 8 * numWordsValueBuffer,
      t.assignWithCopyFn s.mem (c.dest + s.addrOffset) (c.src + s.addrOffset),
      s.events ++ [.vwAssignWithCopy t.tid (c.dest + s.addrOffset) (c.src + s.addrOffset)]⟩
  else
    let dw := readLE s.mem (c.dest + s.addrOffset) 8
    let m2 := memcpy s.mem (c.dest + s.addrOffset) (c.src + s.addrOffset) 8
    let sw := readLE m2 (c.src + s.addrOffset) 8
    ⟨s.addrOffset + 8 * numWordsValueBuffer, m2,
      s.events ++ [.release dw, .retain sw]⟩

def resilientAssignWithCopy (c : Ctx) (t : TypeMeta) (s : S) : S :=
  ⟨s.addrOffset + t.size,
    t.assignWithCopyFn s.mem (c.dest + s.addrOffset) (c.src + s.addrOffset),
    s.events ++ [.vwAssignWithCopy t.tid (c.dest + s.addrOffset) (c.src + s.addrOffset)]⟩

/-! ## Enum tag extraction used by the branchless handlers -/

/-- The payload-case test of `singlePayloadEnumSimpleBranchless` (its
early return): extra-tag bytes suppress the XI path when nonzero, and the
XI read minus `zeroTagValue` (64-bit wrapping) outside `[0, xiTagValues)`
means the payload case. -/
def spSimpleIsPayload (bco pS zero xiVals : Nat) (m : Mem) (base : Nat) : Bool :=
  let etp := bco >>> 62
  let xtp0 := (bco >>> 59) &&& 7
  let xtp := if etp ≠ 0 ∧ readTagBytes m (base + pS) (1 <<< (etp - 1)) ≠ 0 then 0 else xtp0
  if xtp ≠ 0 then
    decide (xiVals ≤ sub64 (readTagBytes m (base + (bco &&& (2 ^ 32 - 1)))
      (1 <<< (xtp - 1))) zero)
  else false

/-- The payload-case test of `singlePayloadEnumGenericBranchless`: nonzero
extra-tag bytes null out the XI type; otherwise the XI type's
`vw_getEnumTagSinglePayload` decides, tag `0` meaning the payload case. -/
def spGenericIsPayload (tbo pS : Nat) (xiType : Option TypeMeta) (nec : Nat)
    (m : Mem) (base : Nat) : Bool :=
  let etp := tbo >>> 62
  let xiT := if etp ≠ 0 ∧ readTagBytes m (base + pS) (1 <<< (etp - 1)) ≠ 0 then none else xiType
  match xiT with
  | some t => t.getEnumTagSP m (base + (tbo &&& (2 ^ 32 - 1))) nec == 0
  | none => false

/-- The `srcTagBytes` / `destTagBytes` computation of
`singlePayloadEnumSimpleAssignWithCopy`, for one side; a result `≥
xiTagValues` means that side holds the payload case. -/
def spSimpleAssignTagVal (bco pS zero : Nat) (m : Mem) (base : Nat) : Nat :=
  let etp := bco >>> 62
  let xtp := (bco >>> 59) &&& 7
  let t0 := if etp ≠ 0 then readTagBytes m (base + pS) (1 <<< (etp - 1)) else 0
  if xtp ≠ 0 then
    if t0 ≠ 0 then 0
    else sub64 (readTagBytes m (base + (bco &&& (2 ^ 32 - 1))) (1 <<< (xtp - 1))) zero
  else t0

/-- The `srcTag` / `destTag` computation of
`singlePayloadEnumGenericAssignWithCopy`, for one side; `0` means that
side holds the payload case. -/
def spGenericAssignTagVal (tbo pS : Nat) (xiType : Option TypeMeta) (nec : Nat)
    (m : Mem) (base : Nat) : Nat :=
  let etp := tbo >>> 62
  let t0 := if etp ≠ 0 then readTagBytes m (base + pS) (1 <<< (etp - 1)) else 0
  match xiType with
  | some t => if t0 = 0 then t.getEnumTagSP m (base + (tbo &&& (2 ^ 32 - 1))) nec else t0
  | none => t0

/-! ## Drivers

Six loops: the four top-level drivers and the two single-step loops the
assign enum handlers run over a nested sub-stream (those treat an `End`
word as an ordinary step and carry no gap copy in the copy flavor).  The
structural counterpart of `reader.skip(refCountBytes)` is dropping `sub`;
falling through into the sub-stream is continuing on `sub ++ rest`. -/

def handleRefCountsDestroy (c : Ctx) : List Inst → S → S
  | [], s => s
  | (g, op) :: rest, s =>
    let s1 : S := ⟨s.addrOffset + g, s.mem, s.events⟩
    match op with
    | .stop => s1
    | .error => handleRefCountsDestroy c rest (errorDestroyBranchless c s1)
    | .nativeStrong => handleRefCountsDestroy c rest (nativeStrongDestroyBranchless c s1)
    | .unowned => handleRefCountsDestroy c rest (unownedDestroyBranchless c s1)
    | .weak => handleRefCountsDestroy c rest (weakDestroyBranchless c s1)
    | .unknown => handleRefCountsDestroy c rest (unknownDestroyBranchless c s1)
    | .unknownUnowned => handleRefCountsDestroy c rest (unknownUnownedDestroyBranchless c s1)
    | .unknownWeak => handleRefCountsDestroy c rest (unknownWeakDestroyBranchless c s1)
    | .bridge => handleRefCountsDestroy c rest (bridgeDestroyBranchless c s1)
    | .block => handleRefCountsDestroy c rest (blockDestroyBranchless c s1)
    | .objcStrong => handleRefCountsDestroy c rest (objcStrongDestroyBranchless c s1)
    | .metatype t => handleRefCountsDestroy c rest (metatypeDestroyBranchless c t s1)
    | .existential => handleRefCountsDestroy c rest (existentialDestroyBranchless c s1)
    | .resilient t => handleRefCountsDestroy c rest (resilientDestroyBranchless c t s1)
    | .singlePayloadEnumSimple bco pS zv xiVals sub skipBytes =>
      if spSimpleIsPayload bco pS zv xiVals s1.mem (c.dest + s1.addrOffset) then
        handleRefCountsDestroy c (sub ++ rest) s1
      else
        handleRefCountsDestroy c rest ⟨s1.addrOffset + skipBytes, s1.mem, s1.events⟩
    | .singlePayloadEnumFN f sub skipBytes =>
      if f s1.mem (c.dest + s1.addrOffset) = 0 then
        handleRefCountsDestroy c (sub ++ rest) s1
      else
        handleRefCountsDestroy c rest ⟨s1.addrOffset + skipBytes, s1.mem, s1.events⟩
    | .singlePayloadEnumFNResolved f sub skipBytes =>
      if f s1.mem (c.dest + s1.addrOffset) = 0 then
        handleRefCountsDestroy c (sub ++ rest) s1
      else
        handleRefCountsDestroy c rest ⟨s1.addrOffset + skipBytes, s1.mem, s1.events⟩
    | .singlePayloadEnumGeneric tbo pS xiT nec sub skipBytes =>
      if spGenericIsPayload tbo pS xiT nec s1.mem (c.dest + s1.addrOffset) then
        handleRefCountsDestroy c (sub ++ rest) s1
      else
        handleRefCountsDestroy c rest ⟨s1.addrOffset + skipBytes, s1.mem, s1.events⟩
    | .multiPayloadEnumFN f ps sz =>
      if h : f s1.mem (c.dest + s1.addrOffset) < ps.length then
        let nested := handleRefCountsDestroy c (ps.get ⟨_, h⟩) s1
        handleRefCountsDestroy c rest ⟨s1.addrOffset + sz, nested.mem, nested.events⟩
      else
        handleRefCountsDestroy c rest ⟨s1.addrOffset + sz, s1.mem, s1.events⟩
    | .multiPayloadEnumFNResolved f ps sz =>
      if h : f s1.mem (c.dest + s1.addrOffset) < ps.length then
        let nested := handleRefCountsDestroy c (ps.get ⟨_, h⟩) s1
        handleRefCountsDestroy c rest ⟨s1.addrOffset + sz, nested.mem, nested.events⟩
      else
        handleRefCountsDestroy c rest ⟨s1.addrOffset + sz, s1.mem, s1.events⟩
    | .multiPayloadEnumGeneric tb ps sz =>
      if h : readTagBytes s1.mem (c.dest + s1.addrOffset + (sz - tb)) tb < ps.length then
        let nested := handleRefCountsDestroy c (ps.get ⟨_, h⟩) s1
        handleRefCountsDestroy c rest ⟨s1.addrOffset + sz, nested.mem, nested.events⟩
      else
        handleRefCountsDestroy c rest ⟨s1.addrOffset + sz, s1.mem, s1.events⟩

  termination_by l _ => sizeOf l
  decreasing_by
    all_goals simp_wf
    all_goals
      first
      | omega
      | (simp only [List.cons.sizeOf_spec, Prod.mk.sizeOf_spec]; omega)
      | (have hA := sizeOf_list_append sub rest
         try simp only [List.cons.sizeOf_spec, Prod.mk.sizeOf_spec,
           Op.singlePayloadEnumSimple.sizeOf_spec, Op.singlePayloadEnumFN.sizeOf_spec,
           Op.singlePayloadEnumFNResolved.sizeOf_spec,
           Op.singlePayloadEnumGeneric.sizeOf_spec] at *
         omega)
      | (refine Nat.lt_of_lt_of_le (sizeOf_list_getElem_lt _ _ ?_) ?_
         · first
           | exact h
           | exact hs
           | exact hd
         · try simp only [List.cons.sizeOf_spec, Prod.mk.sizeOf_spec,
             Op.multiPayloadEnumFN.sizeOf_spec, Op.multiPayloadEnumFNResolved.sizeOf_spec,
             Op.multiPayloadEnumGeneric.sizeOf_spec]
           omega)

def handleRefCountsInitWithCopy (c : Ctx) : List Inst → S → S
  | [], s => s
  | (g, op) :: rest, s =>
    let s1 : S := ⟨s.addrOffset + g,
      memcpy s.mem (c.dest + s.addrOffset) (c.src + s.addrOffset) g, s.events⟩
    match op with
    | .stop => s1
    | .error => handleRefCountsInitWithCopy c rest (errorRetainBranchless c s1)
    | .nativeStrong => handleRefCountsInitWithCopy c rest (nativeStrongRetainBranchless c s1)
    | .unowned => handleRefCountsInitWithCopy c rest (unownedRetainBranchless c s1)
    | .weak => handleRefCountsInitWithCopy c rest (weakCopyInitBranchless c s1)
    | .unknown => handleRefCountsInitWithCopy c rest (unknownRetainBranchless c s1)
    | .unknownUnowned => handleRefCountsInitWithCopy c rest (unknownUnownedCopyInitBranchless c s1)
    | .unknownWeak => handleRefCountsInitWithCopy c rest (unknownWeakCopyInitBranchless c s1)
    | .bridge => handleRefCountsInitWithCopy c rest (bridgeRetainBranchless c s1)
    | .block => handleRefCountsInitWithCopy c rest (blockCopyBranchless c s1)
    | .objcStrong => handleRefCountsInitWithCopy c rest (objcStrongRetainBranchless c s1)
    | .metatype t => handleRefCountsInitWithCopy c rest (metatypeInitWithCopyBranchless c t s1)
    | .existential => handleRefCountsInitWithCopy c rest (existentialInitWithCopyBranchless c s1)
    | .resilient t => handleRefCountsInitWithCopy c rest (resilientInitWithCopyBranchless c t s1)
    | .singlePayloadEnumSimple bco pS zv xiVals sub skipBytes =>
      if spSimpleIsPayload bco pS zv xiVals s1.mem (c.src + s1.addrOffset) then
        handleRefCountsInitWithCopy c (sub ++ rest) s1
      else
        handleRefCountsInitWithCopy c rest ⟨s1.addrOffset + skipBytes,
          memcpy s1.mem (c.dest + s1.addrOffset) (c.src + s1.addrOffset) skipBytes, s1.events⟩
    | .singlePayloadEnumFN f sub skipBytes =>
      if f s1.mem (c.src + s1.addrOffset) = 0 then
        handleRefCountsInitWithCopy c (sub ++ rest) s1
      else
        handleRefCountsInitWithCopy c rest ⟨s1.addrOffset + skipBytes,
          memcpy s1.mem (c.dest + s1.addrOffset) (c.src + s1.addrOffset) skipBytes, s1.events⟩
    | .singlePayloadEnumFNResolved f sub skipBytes =>
      if f s1.mem (c.src + s1.addrOffset) = 0 then
        handleRefCountsInitWithCopy c (sub ++ rest) s1
      else
        handleRefCountsInitWithCopy c rest ⟨s1.addrOffset + skipBytes,
          memcpy s1.mem (c.dest + s1.addrOffset) (c.src + s1.addrOffset) skipBytes, s1.events⟩
    | .singlePayloadEnumGeneric tbo pS xiT nec sub skipBytes =>
      if spGenericIsPayload tbo pS xiT nec s1.mem (c.src + s1.addrOffset) then
        handleRefCountsInitWithCopy c (sub ++ rest) s1
      else
        handleRefCountsInitWithCopy c rest ⟨s1.addrOffset + skipBytes,
          memcpy s1.mem (c.dest + s1.addrOffset) (c.src + s1.addrOffset) skipBytes, s1.events⟩
    | .multiPayloadEnumFN f ps sz =>
      if h : f s1.mem (c.src + s1.addrOffset) < ps.length then
        let nested := handleRefCountsInitWithCopy c (ps.get ⟨_, h⟩) s1
        handleRefCountsInitWithCopy c rest ⟨s1.addrOffset + sz,
          memcpy nested.mem (c.dest + nested.addrOffset) (c.src + nested.addrOffset)
            (s1.addrOffset + sz - nested.addrOffset), nested.events⟩
      else
        handleRefCountsInitWithCopy c rest ⟨s1.addrOffset + sz,
          memcpy s1.mem (c.dest + s1.addrOffset) (c.src + s1.addrOffset) sz, s1.events⟩
    | .multiPayloadEnumFNResolved f ps sz =>
      if h : f s1.mem (c.src + s1.addrOffset) < ps.length then
        let nested := handleRefCountsInitWithCopy c (ps.get ⟨_, h⟩) s1
        handleRefCountsInitWithCopy c rest ⟨s1.addrOffset + sz,
          memcpy nested.mem (c.dest + nested.addrOffset) (c.src + nested.addrOffset)
            (s1.addrOffset + sz - nested.addrOffset), nested.events⟩
      else
        handleRefCountsInitWithCopy c rest ⟨s1.addrOffset + sz,
          memcpy s1.mem (c.dest + s1.addrOffset) (c.src + s1.addrOffset) sz, s1.events⟩
    | .multiPayloadEnumGeneric tb ps sz =>
      if h : readTagBytes s1.mem (c.src + s1.addrOffset + (sz - tb)) tb < ps.length then
        let nested := handleRefCountsInitWithCopy c (ps.get ⟨_, h⟩) s1
        handleRefCountsInitWithCopy c rest ⟨s1.addrOffset + sz,
          memcpy nested.mem (c.dest + nested.addrOffset) (c.src + nested.addrOffset)
            (s1.addrOffset + sz - nested.addrOffset), nested.events⟩
      else
        handleRefCountsInitWithCopy c rest ⟨s1.addrOffset + sz,
          memcpy s1.mem (c.dest + s1.addrOffset) (c.src + s1.addrOffset) sz, s1.events⟩

  termination_by l _ => sizeOf l
  decreasing_by
    all_goals simp_wf
    all_goals
      first
      | omega
      | (simp only [List.cons.sizeOf_spec, Prod.mk.sizeOf_spec]; omega)
      | (have hA := sizeOf_list_append sub rest
         try simp only [List.cons.sizeOf_spec, Prod.mk.sizeOf_spec,
           Op.singlePayloadEnumSimple.sizeOf_spec, Op.singlePayloadEnumFN.sizeOf_spec,
           Op.singlePayloadEnumFNResolved.sizeOf_spec,
           Op.singlePayloadEnumGeneric.sizeOf_spec] at *
         omega)
      | (refine Nat.lt_of_lt_of_le (sizeOf_list_getElem_lt _ _ ?_) ?_
         · first
           | exact h
           | exact hs
           | exact hd
         · try simp only [List.cons.sizeOf_spec, Prod.mk.sizeOf_spec,
             Op.multiPayloadEnumFN.sizeOf_spec, Op.multiPayloadEnumFNResolved.sizeOf_spec,
             Op.multiPayloadEnumGeneric.sizeOf_spec]
           omega)

def handleRefCountsInitWithTake (c : Ctx) : List Inst → S → S
  | [], s => s
  | (g, op) :: rest, s =>
    let s1 : S := ⟨s.addrOffset + g,
      memcpy s.mem (c.dest + s.addrOffset) (c.src + s.addrOffset) g, s.events⟩
    match op with
    | .stop => s1
    | .error => handleRefCountsInitWithTake c rest ⟨s1.addrOffset + 8,
        memcpy s1.mem (c.dest + s1.addrOffset) (c.src + s1.addrOffset) 8, s1.events⟩
    | .nativeStrong => handleRefCountsInitWithTake c rest ⟨s1.addrOffset + 8,
        memcpy s1.mem (c.dest + s1.addrOffset) (c.src + s1.addrOffset) 8, s1.events⟩
    | .unowned => handleRefCountsInitWithTake c rest ⟨s1.addrOffset + 8,
        memcpy s1.mem (c.dest + s1.addrOffset) (c.src + s1.addrOffset) 8, s1.events⟩
    | .weak => handleRefCountsInitWithTake c rest ⟨s1.addrOffset + 8,
        memcpy s1.mem (c.dest + s1.addrOffset) (c.src + s1.addrOffset) 8, s1.events⟩
    | .unknown => handleRefCountsInitWithTake c rest ⟨s1.addrOffset + 8,
        memcpy s1.mem (c.dest + s1.addrOffset) (c.src + s1.addrOffset) 8, s1.events⟩
    | .unknownUnowned => handleRefCountsInitWithTake c rest ⟨s1.addrOffset + 8,
        memcpy s1.mem (c.dest + s1.addrOffset) (c.src + s1.addrOffset) 8, s1.events⟩
    | .unknownWeak => handleRefCountsInitWithTake c rest (unknownWeakInitWithTake c s1)
    | .bridge => handleRefCountsInitWithTake c rest (bridgeRetainBranchless c s1)
    | .block => handleRefCountsInitWithTake c rest ⟨s1.addrOffset + 8,
        memcpy s1.mem (c.dest + s1.addrOffset) (c.src + s1.addrOffset) 8, s1.events⟩
    | .objcStrong => handleRefCountsInitWithTake c rest ⟨s1.addrOffset + 8,
        memcpy s1.mem (c.dest + s1.addrOffset) (c.src + s1.addrOffset) 8, s1.events⟩
    | .metatype t => handleRefCountsInitWithTake c rest (metatypeInitWithTake c t s1)
    | .existential => handleRefCountsInitWithTake c rest (existentialInitWithTake c s1)
    | .resilient t => handleRefCountsInitWithTake c rest (resilientInitWithTake c t s1)
    | .singlePayloadEnumSimple bco pS zv xiVals sub skipBytes =>
      if spSimpleIsPayload bco pS zv xiVals s1.mem (c.src + s1.addrOffset) then
        handleRefCountsInitWithTake c (sub ++ rest) s1
      else
        handleRefCountsInitWithTake c rest ⟨s1.addrOffset + skipBytes,
          memcpy s1.mem (c.dest + s1.addrOffset) (c.src + s1.addrOffset) skipBytes, s1.events⟩
    | .singlePayloadEnumFN f sub skipBytes =>
      if f s1.mem (c.src + s1.addrOffset) = 0 then
        handleRefCountsInitWithTake c (sub ++ rest) s1
      else
        handleRefCountsInitWithTake c rest ⟨s1.addrOffset + skipBytes,
          memcpy s1.mem (c.dest + s1.addrOffset) (c.src + s1.addrOffset) skipBytes, s1.events⟩
    | .singlePayloadEnumFNResolved f sub skipBytes =>
      if f s1.mem (c.src + s1.addrOffset) = 0 then
        handleRefCountsInitWithTake c (sub ++ rest) s1
      else
        handleRefCountsInitWithTake c rest ⟨s1.addrOffset + skipBytes,
          memcpy s1.mem (c.dest + s1.addrOffset) (c.src + s1.addrOffset) skipBytes, s1.events⟩
    | .singlePayloadEnumGeneric tbo pS xiT nec sub skipBytes =>
      if spGenericIsPayload tbo pS xiT nec s1.mem (c.src + s1.addrOffset) then
        handleRefCountsInitWithTake c (sub ++ rest) s1
      else
        handleRefCountsInitWithTake c rest ⟨s1.addrOffset + skipBytes,
          memcpy s1.mem (c.dest + s1.addrOffset) (c.src + s1.addrOffset) skipBytes, s1.events⟩
    | .multiPayloadEnumFN f ps sz =>
      if h : f s1.mem (c.src + s1.addrOffset) < ps.length then
        let nested := handleRefCountsInitWithTake c (ps.get ⟨_, h⟩) s1
        handleRefCountsInitWithTake c rest ⟨s1.addrOffset + sz,
          memcpy nested.mem (c.dest + nested.addrOffset) (c.src + nested.addrOffset)
            (s1.addrOffset + sz - nested.addrOffset), nested.events⟩
      else
        handleRefCountsInitWithTake c rest ⟨s1.addrOffset + sz,
          memcpy s1.mem (c.dest + s1.addrOffset) (c.src + s1.addrOffset) sz, s1.events⟩
    | .multiPayloadEnumFNResolved f ps sz =>
      if h : f s1.mem (c.src + s1.addrOffset) < ps.length then
        let nested := handleRefCountsInitWithTake c (ps.get ⟨_, h⟩) s1
        handleRefCountsInitWithTake c rest ⟨s1.addrOffset + sz,
          memcpy nested.mem (c.dest + nested.addrOffset) (c.src + nested.addrOffset)
            (s1.addrOffset + sz - nested.addrOffset), nested.events⟩
      else
        handleRefCountsInitWithTake c rest ⟨s1.addrOffset + sz,
          memcpy s1.mem (c.dest + s1.addrOffset) (c.src + s1.addrOffset) sz, s1.events⟩
    | .multiPayloadEnumGeneric tb ps sz =>
      if h : readTagBytes s1.mem (c.src + s1.addrOffset + (sz - tb)) tb < ps.length then
        let nested := handleRefCountsInitWithTake c (ps.get ⟨_, h⟩) s1
        handleRefCountsInitWithTake c rest ⟨s1.addrOffset + sz,
          memcpy nested.mem (c.dest + nested.addrOffset) (c.src + nested.addrOffset)
            (s1.addrOffset + sz - nested.addrOffset), nested.events⟩
      else
        handleRefCountsInitWithTake c rest ⟨s1.addrOffset + sz,
          memcpy s1.mem (c.dest + s1.addrOffset) (c.src + s1.addrOffset) sz, s1.events⟩

  termination_by l _ => sizeOf l
  decreasing_by
    all_goals simp_wf
    all_goals
      first
      | omega
      | (simp only [List.cons.sizeOf_spec, Prod.mk.sizeOf_spec]; omega)
      | (have hA := sizeOf_list_append sub rest
         try simp only [List.cons.sizeOf_spec, Prod.mk.sizeOf_spec,
           Op.singlePayloadEnumSimple.sizeOf_spec, Op.singlePayloadEnumFN.sizeOf_spec,
           Op.singlePayloadEnumFNResolved.sizeOf_spec,
           Op.singlePayloadEnumGeneric.sizeOf_spec] at *
         omega)
      | (refine Nat.lt_of_lt_of_le (sizeOf_list_getElem_lt _ _ ?_) ?_
         · first
           | exact h
           | exact hs
           | exact hd
         · try simp only [List.cons.sizeOf_spec, Prod.mk.sizeOf_spec,
             Op.multiPayloadEnumFN.sizeOf_spec, Op.multiPayloadEnumFNResolved.sizeOf_spec,
             Op.multiPayloadEnumGeneric.sizeOf_spec]
           omega)

def handleSingleRefCountDestroyLoop (c : Ctx) : List Inst → S → S
  | [], s => s
  | (g, op) :: rest, s =>
    let s1 : S := ⟨s.addrOffset + g, s.mem, s.events⟩
    match op with
    | .stop => handleSingleRefCountDestroyLoop c rest s1
    | .error => handleSingleRefCountDestroyLoop c rest (errorDestroyBranchless c s1)
    | .nativeStrong => handleSingleRefCountDestroyLoop c rest (nativeStrongDestroyBranchless c s1)
    | .unowned => handleSingleRefCountDestroyLoop c rest (unownedDestroyBranchless c s1)
    | .weak => handleSingleRefCountDestroyLoop c rest (weakDestroyBranchless c s1)
    | .unknown => handleSingleRefCountDestroyLoop c rest (unknownDestroyBranchless c s1)
    | .unknownUnowned =>
      handleSingleRefCountDestroyLoop c rest (unknownUnownedDestroyBranchless c s1)
    | .unknownWeak => handleSingleRefCountDestroyLoop c rest (unknownWeakDestroyBranchless c s1)
    | .bridge => handleSingleRefCountDestroyLoop c rest (bridgeDestroyBranchless c s1)
    | .block => handleSingleRefCountDestroyLoop c rest (blockDestroyBranchless c s1)
    | .objcStrong => handleSingleRefCountDestroyLoop c rest (objcStrongDestroyBranchless c s1)
    | .metatype t => handleSingleRefCountDestroyLoop c rest (metatypeDestroyBranchless c t s1)
    | .existential => handleSingleRefCountDestroyLoop c rest (existentialDestroyBranchless c s1)
    | .resilient t => handleSingleRefCountDestroyLoop c rest (resilientDestroyBranchless c t s1)
    | .singlePayloadEnumSimple bco pS zv xiVals sub skipBytes =>
      if spSimpleIsPayload bco pS zv xiVals s1.mem (c.dest + s1.addrOffset) then
        handleSingleRefCountDestroyLoop c (sub ++ rest) s1
      else
        handleSingleRefCountDestroyLoop c rest ⟨s1.addrOffset + skipBytes, s1.mem, s1.events⟩
    | .singlePayloadEnumFN f sub skipBytes =>
      if f s1.mem (c.dest + s1.addrOffset) = 0 then
        handleSingleRefCountDestroyLoop c (sub ++ rest) s1
      else
        handleSingleRefCountDestroyLoop c rest ⟨s1.addrOffset + skipBytes, s1.mem, s1.events⟩
    | .singlePayloadEnumFNResolved f sub skipBytes =>
      if f s1.mem (c.dest + s1.addrOffset) = 0 then
        handleSingleRefCountDestroyLoop c (sub ++ rest) s1
      else
        handleSingleRefCountDestroyLoop c rest ⟨s1.addrOffset + skipBytes, s1.mem, s1.events⟩
    | .singlePayloadEnumGeneric tbo pS xiT nec sub skipBytes =>
      if spGenericIsPayload tbo pS xiT nec s1.mem (c.dest + s1.addrOffset) then
        handleSingleRefCountDestroyLoop c (sub ++ rest) s1
      else
        handleSingleRefCountDestroyLoop c rest ⟨s1.addrOffset + skipBytes, s1.mem, s1.events⟩
    | .multiPayloadEnumFN f ps sz =>
      if h : f s1.mem (c.dest + s1.addrOffset) < ps.length then
        let nested := handleRefCountsDestroy c (ps.get ⟨_, h⟩) s1
        handleSingleRefCountDestroyLoop c rest ⟨s1.addrOffset + sz, nested.mem, nested.events⟩
      else
        handleSingleRefCountDestroyLoop c rest ⟨s1.addrOffset + sz, s1.mem, s1.events⟩
    | .multiPayloadEnumFNResolved f ps sz =>
      if h : f s1.mem (c.dest + s1.addrOffset) < ps.length then
        let nested := handleRefCountsDestroy c (ps.get ⟨_, h⟩) s1
        handleSingleRefCountDestroyLoop c rest ⟨s1.addrOffset + sz, nested.mem, nested.events⟩
      else
        handleSingleRefCountDestroyLoop c rest ⟨s1.addrOffset + sz, s1.mem, s1.events⟩
    | .multiPayloadEnumGeneric tb ps sz =>
      if h : readTagBytes s1.mem (c.dest + s1.addrOffset + (sz - tb)) tb < ps.length then
        let nested := handleRefCountsDestroy c (ps.get ⟨_, h⟩) s1
        handleSingleRefCountDestroyLoop c rest ⟨s1.addrOffset + sz, nested.mem, nested.events⟩
      else
        handleSingleRefCountDestroyLoop c rest ⟨s1.addrOffset + sz, s1.mem, s1.events⟩

  termination_by l _ => sizeOf l
  decreasing_by
    all_goals simp_wf
    all_goals
      first
      | omega
      | (simp only [List.cons.sizeOf_spec, Prod.mk.sizeOf_spec]; omega)
      | (have hA := sizeOf_list_append sub rest
         try simp only [List.cons.sizeOf_spec, Prod.mk.sizeOf_spec,
           Op.singlePayloadEnumSimple.sizeOf_spec, Op.singlePayloadEnumFN.sizeOf_spec,
           Op.singlePayloadEnumFNResolved.sizeOf_spec,
           Op.singlePayloadEnumGeneric.sizeOf_spec] at *
         omega)
      | (refine Nat.lt_of_lt_of_le (sizeOf_list_getElem_lt _ _ ?_) ?_
         · first
           | exact h
           | exact hs
           | exact hd
         · try simp only [List.cons.sizeOf_spec, Prod.mk.sizeOf_spec,
             Op.multiPayloadEnumFN.sizeOf_spec, Op.multiPayloadEnumFNResolved.sizeOf_spec,
             Op.multiPayloadEnumGeneric.sizeOf_spec]
           omega)

def handleSingleRefCountInitWithCopyLoop (c : Ctx) : List Inst → S → S
  | [], s => s
  | (g, op) :: rest, s =>
    let s1 : S := ⟨s.addrOffset + g, s.mem, s.events⟩
    match op with
    | .stop => handleSingleRefCountInitWithCopyLoop c rest s1
    | .error => handleSingleRefCountInitWithCopyLoop c rest (errorRetainBranchless c s1)
    | .nativeStrong =>
      handleSingleRefCountInitWithCopyLoop c rest (nativeStrongRetainBranchless c s1)
    | .unowned => handleSingleRefCountInitWithCopyLoop c rest (unownedRetainBranchless c s1)
    | .weak => handleSingleRefCountInitWithCopyLoop c rest (weakCopyInitBranchless c s1)
    | .unknown => handleSingleRefCountInitWithCopyLoop c rest (unknownRetainBranchless c s1)
    | .unknownUnowned =>
      handleSingleRefCountInitWithCopyLoop c rest (unknownUnownedCopyInitBranchless c s1)
    | .unknownWeak =>
      handleSingleRefCountInitWithCopyLoop c rest (unknownWeakCopyInitBranchless c s1)
    | .bridge => handleSingleRefCountInitWithCopyLoop c rest (bridgeRetainBranchless c s1)
    | .block => handleSingleRefCountInitWithCopyLoop c rest (blockCopyBranchless c s1)
    | .objcStrong =>
      handleSingleRefCountInitWithCopyLoop c rest (objcStrongRetainBranchless c s1)
    | .metatype t =>
      handleSingleRefCountInitWithCopyLoop c rest (metatypeInitWithCopyBranchless c t s1)
    | .existential =>
      handleSingleRefCountInitWithCopyLoop c rest (existentialInitWithCopyBranchless c s1)
    | .resilient t =>
      handleSingleRefCountInitWithCopyLoop c rest (resilientInitWithCopyBranchless c t s1)
    | .singlePayloadEnumSimple bco pS zv xiVals sub skipBytes =>
      if spSimpleIsPayload bco pS zv xiVals s1.mem (c.src + s1.addrOffset) then
        handleSingleRefCountInitWithCopyLoop c (sub ++ rest) s1
      else
        handleSingleRefCountInitWithCopyLoop c rest ⟨s1.addrOffset + skipBytes,
          memcpy s1.mem (c.dest + s1.addrOffset) (c.src + s1.addrOffset) skipBytes, s1.events⟩
    | .singlePayloadEnumFN f sub skipBytes =>
      if f s1.mem (c.src + s1.addrOffset) = 0 then
        handleSingleRefCountInitWithCopyLoop c (sub ++ rest) s1
      else
        handleSingleRefCountInitWithCopyLoop c rest ⟨s1.addrOffset + skipBytes,
          memcpy s1.mem (c.dest + s1.addrOffset) (c.src + s1.addrOffset) skipBytes, s1.events⟩
    | .singlePayloadEnumFNResolved f sub skipBytes =>
      if f s1.mem (c.src + s1.addrOffset) = 0 then
        handleSingleRefCountInitWithCopyLoop c (sub ++ rest) s1
      else
        handleSingleRefCountInitWithCopyLoop c rest ⟨s1.addrOffset + skipBytes,
          memcpy s1.mem (c.dest + s1.addrOffset) (c.src + s1.addrOffset) skipBytes, s1.events⟩
    | .singlePayloadEnumGeneric tbo pS xiT nec sub skipBytes =>
      if spGenericIsPayload tbo pS xiT nec s1.mem (c.src + s1.addrOffset) then
        handleSingleRefCountInitWithCopyLoop c (sub ++ rest) s1
      else
        handleSingleRefCountInitWithCopyLoop c rest ⟨s1.addrOffset + skipBytes,
          memcpy s1.mem (c.dest + s1.addrOffset) (c.src + s1.addrOffset) skipBytes, s1.events⟩
    | .multiPayloadEnumFN f ps sz =>
      if h : f s1.mem (c.src + s1.addrOffset) < ps.length then
        let nested := handleRefCountsInitWithCopy c (ps.get ⟨_, h⟩) s1
        handleSingleRefCountInitWithCopyLoop c rest ⟨s1.addrOffset + sz,
          memcpy nested.mem (c.dest + nested.addrOffset) (c.src + nested.addrOffset)
            (s1.addrOffset + sz - nested.addrOffset), nested.events⟩
      else
        handleSingleRefCountInitWithCopyLoop c rest ⟨s1.addrOffset + sz,
          memcpy s1.mem (c.dest + s1.addrOffset) (c.src + s1.addrOffset) sz, s1.events⟩
    | .multiPayloadEnumFNResolved f ps sz =>
      if h : f s1.mem (c.src + s1.addrOffset) < ps.length then
        let nested := handleRefCountsInitWithCopy c (ps.get ⟨_, h⟩) s1
        handleSingleRefCountInitWithCopyLoop c rest ⟨s1.addrOffset + sz,
          memcpy nested.mem (c.dest + nested.addrOffset) (c.src + nested.addrOffset)
            (s1.addrOffset + sz - nested.addrOffset), nested.events⟩
      else
        handleSingleRefCountInitWithCopyLoop c rest ⟨s1.addrOffset + sz,
          memcpy s1.mem (c.dest + s1.addrOffset) (c.src + s1.addrOffset) sz, s1.events⟩
    | .multiPayloadEnumGeneric tb ps sz =>
      if h : readTagBytes s1.mem (c.src + s1.addrOffset + (sz - tb)) tb < ps.length then
        let nested := handleRefCountsInitWithCopy c (ps.get ⟨_, h⟩) s1
        handleSingleRefCountInitWithCopyLoop c rest ⟨s1.addrOffset + sz,
          memcpy nested.mem (c.dest + nested.addrOffset) (c.src + nested.addrOffset)
            (s1.addrOffset + sz - nested.addrOffset), nested.events⟩
      else
        handleSingleRefCountInitWithCopyLoop c rest ⟨s1.addrOffset + sz,
          memcpy s1.mem (c.dest + s1.addrOffset) (c.src + s1.addrOffset) sz, s1.events⟩

  termination_by l _ => sizeOf l
  decreasing_by
    all_goals simp_wf
    all_goals
      first
      | omega
      | (simp only [List.cons.sizeOf_spec, Prod.mk.sizeOf_spec]; omega)
      | (have hA := sizeOf_list_append sub rest
         try simp only [List.cons.sizeOf_spec, Prod.mk.sizeOf_spec,
           Op.singlePayloadEnumSimple.sizeOf_spec, Op.singlePayloadEnumFN.sizeOf_spec,
           Op.singlePayloadEnumFNResolved.sizeOf_spec,
           Op.singlePayloadEnumGeneric.sizeOf_spec] at *
         omega)
      | (refine Nat.lt_of_lt_of_le (sizeOf_list_getElem_lt _ _ ?_) ?_
         · first
           | exact h
           | exact hs
           | exact hd
         · try simp only [List.cons.sizeOf_spec, Prod.mk.sizeOf_spec,
             Op.multiPayloadEnumFN.sizeOf_spec, Op.multiPayloadEnumFNResolved.sizeOf_spec,
             Op.multiPayloadEnumGeneric.sizeOf_spec]
           omega)

def handleRefCountsAssignWithCopy (c : Ctx) : List Inst → S → S
  | [], s => s
  | (g, op) :: rest, s =>
    let s1 : S := ⟨s.addrOffset + g,
      memcpy s.mem (c.dest + s.addrOffset) (c.src + s.addrOffset) g, s.events⟩
    match op with
    | .stop => s1
    | .error => handleRefCountsAssignWithCopy c rest (errorAssignWithCopy c s1)
    | .nativeStrong => handleRefCountsAssignWithCopy c rest (nativeStrongAssignWithCopy c s1)
    | .unowned => handleRefCountsAssignWithCopy c rest (unownedAssignWithCopy c s1)
    | .weak => handleRefCountsAssignWithCopy c rest (weakAssignWithCopy c s1)
    | .unknown => handleRefCountsAssignWithCopy c rest (unknownAssignWithCopy c s1)
    | .unknownUnowned => handleRefCountsAssignWithCopy c rest (unknownUnownedAssignWithCopy c s1)
    | .unknownWeak => handleRefCountsAssignWithCopy c rest (unknownWeakAssignWithCopy c s1)
    | .bridge => handleRefCountsAssignWithCopy c rest (bridgeAssignWithCopy c s1)
    | .block => handleRefCountsAssignWithCopy c rest (blockAssignWithCopy c s1)
    | .objcStrong => handleRefCountsAssignWithCopy c rest (objcStrongAssignWithCopy c s1)
    | .metatype t => handleRefCountsAssignWithCopy c rest (metatypeAssignWithCopy c t s1)
    | .existential => handleRefCountsAssignWithCopy c rest (existentialAssignWithCopy c s1)
    | .resilient t => handleRefCountsAssignWithCopy c rest (resilientAssignWithCopy c t s1)
    | .singlePayloadEnumSimple bco pS zv xiVals sub skipBytes =>
      if xiVals ≤ spSimpleAssignTagVal bco pS zv s1.mem (c.src + s1.addrOffset) then
        if xiVals ≤ spSimpleAssignTagVal bco pS zv s1.mem (c.dest + s1.addrOffset) then
          handleRefCountsAssignWithCopy c (sub ++ rest) s1
        else
          handleRefCountsAssignWithCopy c rest
            (handleSingleRefCountInitWithCopyLoop c sub s1)
      else
        if xiVals ≤ spSimpleAssignTagVal bco pS zv s1.mem (c.dest + s1.addrOffset) then
          let s2 := handleSingleRefCountDestroyLoop c sub s1
          handleRefCountsAssignWithCopy c rest ⟨s1.addrOffset + skipBytes,
            memcpy s2.mem (c.dest + s1.addrOffset) (c.src + s1.addrOffset) skipBytes, s2.events⟩
        else
          handleRefCountsAssignWithCopy c rest ⟨s1.addrOffset + skipBytes,
            memcpy s1.mem (c.dest + s1.addrOffset) (c.src + s1.addrOffset) skipBytes, s1.events⟩
    | .singlePayloadEnumFN f sub skipBytes =>
      if f s1.mem (c.src + s1.addrOffset) = 0 then
        if f s1.mem (c.dest + s1.addrOffset) = 0 then
          handleRefCountsAssignWithCopy c (sub ++ rest) s1
        else
          handleRefCountsAssignWithCopy c rest
            (handleSingleRefCountInitWithCopyLoop c sub s1)
      else
        if f s1.mem (c.dest + s1.addrOffset) = 0 then
          let s2 := handleSingleRefCountDestroyLoop c sub s1
          handleRefCountsAssignWithCopy c rest ⟨s1.addrOffset + skipBytes,
            memcpy s2.mem (c.dest + s1.addrOffset) (c.src + s1.addrOffset) skipBytes, s2.events⟩
        else
          handleRefCountsAssignWithCopy c rest ⟨s1.addrOffset + skipBytes,
            memcpy s1.mem (c.dest + s1.addrOffset) (c.src + s1.addrOffset) skipBytes, s1.events⟩
    | .singlePayloadEnumFNResolved f sub skipBytes =>
      if f s1.mem (c.src + s1.addrOffset) = 0 then
        if f s1.mem (c.dest + s1.addrOffset) = 0 then
          handleRefCountsAssignWithCopy c (sub ++ rest) s1
        else
          handleRefCountsAssignWithCopy c rest
            (handleSingleRefCountInitWithCopyLoop c sub s1)
      else
        if f s1.mem (c.dest + s1.addrOffset) = 0 then
          let s2 := handleSingleRefCountDestroyLoop c sub s1
          handleRefCountsAssignWithCopy c rest ⟨s1.addrOffset + skipBytes,
            memcpy s2.mem (c.dest + s1.addrOffset) (c.src + s1.addrOffset) skipBytes, s2.events⟩
        else
          handleRefCountsAssignWithCopy c rest ⟨s1.addrOffset + skipBytes,
            memcpy s1.mem (c.dest + s1.addrOffset) (c.src + s1.addrOffset) skipBytes, s1.events⟩
    | .singlePayloadEnumGeneric tbo pS xiT nec sub skipBytes =>
      if spGenericAssignTagVal tbo pS xiT nec s1.mem (c.src + s1.addrOffset) = 0 then
        if spGenericAssignTagVal tbo pS xiT nec s1.mem (c.dest + s1.addrOffset) = 0 then
          handleRefCountsAssignWithCopy c (sub ++ rest) s1
        else
          handleRefCountsAssignWithCopy c rest
            (handleSingleRefCountInitWithCopyLoop c sub s1)
      else
        if spGenericAssignTagVal tbo pS xiT nec s1.mem (c.dest + s1.addrOffset) = 0 then
          let s2 := handleSingleRefCountDestroyLoop c sub s1
          handleRefCountsAssignWithCopy c rest ⟨s1.addrOffset + skipBytes,
            memcpy s2.mem (c.dest + s1.addrOffset) (c.src + s1.addrOffset) skipBytes, s2.events⟩
        else
          handleRefCountsAssignWithCopy c rest ⟨s1.addrOffset + skipBytes,
            memcpy s1.mem (c.dest + s1.addrOffset) (c.src + s1.addrOffset) skipBytes, s1.events⟩
    | .multiPayloadEnumFN f ps sz =>
      if hs : f s1.mem (c.src + s1.addrOffset) < ps.length then
        if hd : f s1.mem (c.dest + s1.addrOffset) < ps.length then
          let destroyed := handleRefCountsDestroy c (ps.get ⟨_, hd⟩) s1
          let copied := handleRefCountsInitWithCopy c (ps.get ⟨_, hs⟩)
            ⟨s1.addrOffset, destroyed.mem, destroyed.events⟩
          handleRefCountsAssignWithCopy c rest ⟨s1.addrOffset + sz,
            memcpy copied.mem (c.dest + copied.addrOffset) (c.src + copied.addrOffset)
              (s1.addrOffset + sz - copied.addrOffset), copied.events⟩
        else
          let copied := handleRefCountsInitWithCopy c (ps.get ⟨_, hs⟩) s1
          handleRefCountsAssignWithCopy c rest ⟨s1.addrOffset + sz,
            memcpy copied.mem (c.dest + copied.addrOffset) (c.src + copied.addrOffset)
              (s1.addrOffset + sz - copied.addrOffset), copied.events⟩
      else
        if hd : f s1.mem (c.dest + s1.addrOffset) < ps.length then
          let destroyed := handleRefCountsDestroy c (ps.get ⟨_, hd⟩) s1
          handleRefCountsAssignWithCopy c rest ⟨s1.addrOffset + sz,
            memcpy destroyed.mem (c.dest + s1.addrOffset) (c.src + s1.addrOffset) sz,
            destroyed.events⟩
        else
          handleRefCountsAssignWithCopy c rest ⟨s1.addrOffset + sz,
            memcpy s1.mem (c.dest + s1.addrOffset) (c.src + s1.addrOffset) sz, s1.events⟩
    | .multiPayloadEnumFNResolved f ps sz =>
      if hs : f s1.mem (c.src + s1.addrOffset) < ps.length then
        if hd : f s1.mem (c.dest + s1.addrOffset) < ps.length then
          let destroyed := handleRefCountsDestroy c (ps.get ⟨_, hd⟩) s1
          let copied := handleRefCountsInitWithCopy c (ps.get ⟨_, hs⟩)
            ⟨s1.addrOffset, destroyed.mem, destroyed.events⟩
          handleRefCountsAssignWithCopy c rest ⟨s1.addrOffset + sz,
            memcpy copied.mem (c.dest + copied.addrOffset) (c.src + copied.addrOffset)
              (s1.addrOffset + sz - copied.addrOffset), copied.events⟩
        else
          let copied := handleRefCountsInitWithCopy c (ps.get ⟨_, hs⟩) s1
          handleRefCountsAssignWithCopy c rest ⟨s1.addrOffset + sz,
            memcpy copied.mem (c.dest + copied.addrOffset) (c.src + copied.addrOffset)
              (s1.addrOffset + sz - copied.addrOffset), copied.events⟩
      else
        if hd : f s1.mem (c.dest + s1.addrOffset) < ps.length then
          let destroyed := handleRefCountsDestroy c (ps.get ⟨_, hd⟩) s1
          handleRefCountsAssignWithCopy c rest ⟨s1.addrOffset + sz,
            memcpy destroyed.mem (c.dest + s1.addrOffset) (c.src + s1.addrOffset) sz,
            destroyed.events⟩
        else
          handleRefCountsAssignWithCopy c rest ⟨s1.addrOffset + sz,
            memcpy s1.mem (c.dest + s1.addrOffset) (c.src + s1.addrOffset) sz, s1.events⟩
    | .multiPayloadEnumGeneric tb ps sz =>
      if hs : readTagBytes s1.mem (c.src + s1.addrOffset + (sz - tb)) tb < ps.length then
        if hd : readTagBytes s1.mem (c.dest + s1.addrOffset + (sz - tb)) tb < ps.length then
          let destroyed := handleRefCountsDestroy c (ps.get ⟨_, hd⟩) s1
          let copied := handleRefCountsInitWithCopy c (ps.get ⟨_, hs⟩)
            ⟨s1.addrOffset, destroyed.mem, destroyed.events⟩
          handleRefCountsAssignWithCopy c rest ⟨s1.addrOffset + sz,
            memcpy copied.mem (c.dest + copied.addrOffset) (c.src + copied.addrOffset)
              (s1.addrOffset + sz - copied.addrOffset), copied.events⟩
        else
          let copied := handleRefCountsInitWithCopy c (ps.get ⟨_, hs⟩) s1
          handleRefCountsAssignWithCopy c rest ⟨s1.addrOffset + sz,
            memcpy copied.mem (c.dest + copied.addrOffset) (c.src + copied.addrOffset)
              (s1.addrOffset + sz - copied.addrOffset), copied.events⟩
      else
        if hd : readTagBytes s1.mem (c.dest + s1.addrOffset + (sz - tb)) tb < ps.length then
          let destroyed := handleRefCountsDestroy c (ps.get ⟨_, hd⟩) s1
          handleRefCountsAssignWithCopy c rest ⟨s1.addrOffset + sz,
            memcpy destroyed.mem (c.dest + s1.addrOffset) (c.src + s1.addrOffset) sz,
            destroyed.events⟩
        else
          handleRefCountsAssignWithCopy c rest ⟨s1.addrOffset + sz,
            memcpy s1.mem (c.dest + s1.addrOffset) (c.src + s1.addrOffset) sz, s1.events⟩

  termination_by l _ => sizeOf l
  decreasing_by
    all_goals simp_wf
    all_goals
      first
      | omega
      | (simp only [List.cons.sizeOf_spec, Prod.mk.sizeOf_spec]; omega)
      | (have hA := sizeOf_list_append sub rest
         try simp only [List.cons.sizeOf_spec, Prod.mk.sizeOf_spec,
           Op.singlePayloadEnumSimple.sizeOf_spec, Op.singlePayloadEnumFN.sizeOf_spec,
           Op.singlePayloadEnumFNResolved.sizeOf_spec,
           Op.singlePayloadEnumGeneric.sizeOf_spec] at *
         omega)
      | (refine Nat.lt_of_lt_of_le (sizeOf_list_getElem_lt _ _ ?_) ?_
         · first
           | exact h
           | exact hs
           | exact hd
         · try simp only [List.cons.sizeOf_spec, Prod.mk.sizeOf_spec,
             Op.multiPayloadEnumFN.sizeOf_spec, Op.multiPayloadEnumFNResolved.sizeOf_spec,
             Op.multiPayloadEnumGeneric.sizeOf_spec]
           omega)

/-! ## Top-level drivers -/

def swift_generic_destroy (abi : ABI) (rt : RT) (md : Metadata) (m : Mem) (addr : Nat) : S :=
  handleRefCountsDestroy ⟨abi, rt, addr, addr⟩ md.layout ⟨0, m, []⟩

def swift_generic_arrayDestroy (abi : ABI) (rt : RT) (md : Metadata) (m : Mem)
    (addr stride : Nat) : Nat → S
  | 0 => ⟨0, m, []⟩
  | count + 1 =>
    let prev := swift_generic_arrayDestroy abi rt md m addr stride count
    let r := handleRefCountsDestroy ⟨abi, rt, addr, addr⟩ md.layout
      ⟨count * stride, prev.mem, prev.events⟩
    ⟨0, r.mem, r.events⟩

def swift_generic_initWithCopy (abi : ABI) (rt : RT) (md : Metadata) (m : Mem)
    (dest src : Nat) : S :=
  handleRefCountsInitWithCopy ⟨abi, rt, dest, src⟩ md.layout ⟨0, m, []⟩

def swift_generic_initWithTake (abi : ABI) (rt : RT) (md : Metadata) (m : Mem)
    (dest src : Nat) : S :=
  if md.bitwiseTakable then ⟨0, memcpy m dest src md.size, []⟩
  else handleRefCountsInitWithTake ⟨abi, rt, dest, src⟩ md.layout ⟨0, m, []⟩

def swift_generic_assignWithCopy (abi : ABI) (rt : RT) (md : Metadata) (m : Mem)
    (dest src : Nat) : S :=
  handleRefCountsAssignWithCopy ⟨abi, rt, dest, src⟩ md.layout ⟨0, m, []⟩

def swift_generic_assignWithTake (abi : ABI) (rt : RT) (md : Metadata) (m : Mem)
    (dest src : Nat) : S :=
  let d := swift_generic_destroy abi rt md m dest
  let t := swift_generic_initWithTake abi rt md d.mem dest src
  ⟨t.addrOffset, t.mem, d.events ++ t.events⟩

/-! ## Enum tag get/set entry points

Each entry point reads the enum instruction's header fields from the
layout string at the fixed header offset; here they take those fields
directly.  C `unsigned` narrowing is `% 2 ^ 32`; `uint64_t` differences
are `sub64`.  When `extraTagBytesPattern` is zero the source still
computes `1 << (extraTagBytesPattern - 1)`; the model takes the
truncated-subtraction value `1 <<< 0 = 1` for that (unspecified) case. -/

def swift_singletonEnum_getEnumTag (m : Mem) (addr : Nat) : Nat := 0

def swift_singletonEnum_destructiveInjectEnumTag (m : Mem) (addr tag : Nat) : Mem := m

def swift_enumSimple_getEnumTag (bco pS zv numXI : Nat) (m : Mem) (addr : Nat) : Nat :=
  let etp := bco >>> 62
  let nETB := 1 <<< (etp - 1)
  let xtp := (bco >>> 59) &&& 7
  let xiOff := bco &&& (2 ^ 32 - 1)
  let viaExtra : Option Nat :=
    if etp ≠ 0 then
      let tb := readTagBytes m (addr + pS) nETB
      if tb ≠ 0 then
        let fromBits := if 4 ≤ pS then 0 else sub64 tb 1 <<< (pS * 8) % 2 ^ 32
        let fromVal := loadEnumElement m addr pS
        some ((((fromBits ||| fromVal) + numXI) % 2 ^ 32 + 1) % 2 ^ 32)
      else none
    else none
  match viaExtra with
  | some r => r
  | none =>
    if xtp ≠ 0 then
      let xiB := 1 <<< (xtp - 1)
      let tb := sub64 (readTagBytes m (addr + xiOff) xiB) zv
      if tb < numXI then (tb + 1) % 2 ^ 32 else 0
    else 0

def swift_enumSimple_destructiveInjectEnumTag (bco pS zv numXI : Nat) (m : Mem)
    (addr tag : Nat) : Mem :=
  let etp := bco >>> 62
  let nETB := 1 <<< (etp - 1)
  let xtp := (bco >>> 59) &&& 7
  let xiOff := bco &&& (2 ^ 32 - 1)
  if etp ≠ 0 ∧ numXI < tag then
    let caseIndex := sub64 (sub32 tag 1) numXI % 2 ^ 32
    let extraTagIndex := if 4 ≤ pS then 1 else (1 + (caseIndex >>> (pS * 8))) % 2 ^ 32
    let payloadIndex := if 4 ≤ pS then caseIndex else caseIndex &&& ((1 <<< (pS * 8)) - 1)
    let m1 := if pS ≠ 0 then storeEnumElement m addr payloadIndex pS else m
    if nETB ≠ 0 then storeEnumElement m1 (addr + pS) extraTagIndex nETB else m1
  else
    if xtp ≠ 0 ∧ tag ≤ numXI then
      let xiB := 1 <<< (xtp - 1)
      let m1 := if nETB ≠ 0 then storeEnumElement m (addr + pS) 0 nETB else m
      if tag = 0 then m1
      else storeEnumElement m1 (addr + xiOff) (sub32 tag 1 + zv) xiB
    else m

def swift_singlePayloadEnumGeneric_getEnumTag (tbo pS : Nat) (xiType : Option TypeMeta)
    (nec : Nat) (m : Mem) (addr : Nat) : Nat :=
  let etp := tbo >>> 62
  let nETB := 1 <<< (etp - 1)
  let xiOff := tbo &&& (2 ^ 32 - 1)
  let numXI := match xiType with | some t => t.numXI | none => 0
  let viaExtra : Option Nat :=
    if etp ≠ 0 then
      let tb := readTagBytes m (addr + pS) nETB
      if tb ≠ 0 then
        let fromBits := if 4 ≤ pS then 0 else sub64 tb 1 <<< (pS * 8) % 2 ^ 32
        let fromVal := loadEnumElement m addr pS
        some ((((fromBits ||| fromVal) + numXI) % 2 ^ 32 + 1) % 2 ^ 32)
      else none
    else none
  match viaExtra with
  | some r => r
  | none =>
    match xiType with
    | some t => t.getEnumTagSP m (addr + xiOff) nec
    | none => 0

def swift_singlePayloadEnumGeneric_destructiveInjectEnumTag (tbo pS : Nat)
    (xiType : Option TypeMeta) (nec : Nat) (m : Mem) (addr tag : Nat) : Mem :=
  let etp := tbo >>> 62
  let nETB := 1 <<< (etp - 1)
  let xiOff := tbo &&& (2 ^ 32 - 1)
  let numXI := match xiType with | some t => t.numXI | none => 0
  if etp ≠ 0 ∧ numXI < tag then
    let caseIndex := sub64 (sub32 tag 1) numXI % 2 ^ 32
    let extraTagIndex := if 4 ≤ pS then 1 else (1 + (caseIndex >>> (pS * 8))) % 2 ^ 32
    let payloadIndex := if 4 ≤ pS then caseIndex else caseIndex &&& ((1 <<< (pS * 8)) - 1)
    let m1 := if pS ≠ 0 then storeEnumElement m addr payloadIndex pS else m
    if nETB ≠ 0 then storeEnumElement m1 (addr + pS) extraTagIndex nETB else m1
  else
    if tag ≤ numXI then
      let m1 := if nETB ≠ 0 then storeEnumElement m (addr + pS) 0 nETB else m
      if tag = 0 then m1
      else
        match xiType with
        | some t => t.storeEnumTagSP m1 (addr + xiOff) tag nec
        | none => m1
    else m

def swift_multiPayloadEnumGeneric_getEnumTag (tb nP sz : Nat) (m : Mem) (addr : Nat) : Nat :=
  let pS := sz - tb
  let enumTag := readTagBytes m (addr + pS) tb % 2 ^ 32
  if enumTag < nP then enumTag
  else
    let payloadValue := loadEnumElement m addr pS
    if 4 ≤ pS then (nP + payloadValue) % 2 ^ 32
    else ((payloadValue ||| sub64 enumTag nP <<< (pS * 8)) + nP) % 2 ^ 32

def swift_multiPayloadEnumGeneric_destructiveInjectEnumTag (tb nP sz : Nat) (m : Mem)
    (addr tag : Nat) : Mem :=
  let pS := sz - tb
  if tag < nP then storeEnumElement m (addr + pS) tag tb
  else
    let whichEmptyCase := sub64 tag nP % 2 ^ 32
    let whichTag := if 4 ≤ pS then nP % 2 ^ 32
      else (nP + (whichEmptyCase >>> (pS * 8))) % 2 ^ 32
    let whichPayloadValue := if 4 ≤ pS then whichEmptyCase
      else whichEmptyCase &&& ((1 <<< (pS * 8)) - 1)
    let m1 := storeEnumElement m (addr + pS) whichTag tb
    storeEnumElement m1 addr whichPayloadValue pS

/-! ## Resilience resolution -/

mutual

/-- The in-place rewrite of one instruction by the resolution pass:
`Resilient` becomes `Metatype` (the accessor's result), the FN enum forms
become their Resolved forms; the walker continues through the inline
sub-stream of the single-payload simple/FN/FNResolved forms, recurses
into multi-payload FN payload streams, and skips the generic and
already-resolved enum bodies whole. -/
def resolveOp : Op → Op
  | .resilient t => .metatype t
  | .singlePayloadEnumSimple bco pS zv xiVals sub skipBytes =>
    .singlePayloadEnumSimple bco pS zv xiVals (resolveList sub) skipBytes
  | .singlePayloadEnumFN f sub skipBytes =>
    .singlePayloadEnumFNResolved f (resolveList sub) skipBytes
  | .singlePayloadEnumFNResolved f sub skipBytes =>
    .singlePayloadEnumFNResolved f (resolveList sub) skipBytes
  | .multiPayloadEnumFN f ps sz => .multiPayloadEnumFNResolved f (resolvePayloads ps) sz
  | op => op

/-- The linear walk of the pass: it stops at `End`, leaving anything
after untouched. -/
def resolveList : List Inst → List Inst
  | [] => []
  | (g, .stop) :: rest => (g, .stop) :: rest
  | (g, op) :: rest => (g, resolveOp op) :: resolveList rest

def resolvePayloads : List (List Inst) → List (List Inst)
  | [] => []
  | p :: rest => resolveList p :: resolvePayloads rest

end

/-- Structural model of `swift_resolve_resilientAccessors` applied to a
field layout string. -/
def swift_resolve_resilientAccessors (l : List Inst) : List Inst := resolveList l

/-! ## Well-formed layouts

`WFOpP op k` fixes the in-value advance `k` of a well-formed instruction
(one word for the word-sized reference kinds, the delegated type's size
for metatype/resilient, the fixed buffer size for existential, and for
enums the advance the emitter encodes: `skipBytes` for single-payload
forms — whose sub-stream must itself be well-formed and advance exactly
`skipBytes` — and `enumSize` for multi-payload forms).  `WFSubP` is a
stream without `End`; `WFStreamP` is an `End`-terminated stream. -/

mutual

def WFOpP : Op → Nat → Prop
  | .stop, _ => False
  | .error, k => k = 8
  | .nativeStrong, k => k = 8
  | .unowned, k => k = 8
  | .weak, k => k = 8
  | .unknown, k => k = 8
  | .unknownUnowned, k => k = 8
  | .unknownWeak, k => k = 8
  | .bridge, k => k = 8
  | .block, k => k = 8
  | .objcStrong, k => k = 8
  | .metatype t, k => k = t.size
  | .existential, k => k = 8 * numWordsValueBuffer
  | .resilient t, k => k = t.size
  | .singlePayloadEnumSimple _ _ _ _ sub skipBytes, k => k = skipBytes ∧ WFSubP sub skipBytes
  | .singlePayloadEnumFN _ sub skipBytes, k => k = skipBytes ∧ WFSubP sub skipBytes
  | .singlePayloadEnumFNResolved _ sub skipBytes, k => k = skipBytes ∧ WFSubP sub skipBytes
  | .singlePayloadEnumGeneric _ _ _ _ sub skipBytes, k => k = skipBytes ∧ WFSubP sub skipBytes
  | .multiPayloadEnumFN _ _ sz, k => k = sz
  | .multiPayloadEnumFNResolved _ _ sz, k => k = sz
  | .multiPayloadEnumGeneric _ _ sz, k => k = sz

def WFSubP : List Inst → Nat → Prop
  | [], n => n = 0
  | (g, op) :: rest, n => ∃ k m', WFOpP op k ∧ WFSubP rest m' ∧ n = g + k + m'

def WFStreamP : List Inst → Nat → Prop
  | [], _ => False
  | [(g, op)], n => op = Op.stop ∧ n = g
  | (g, op) :: rest, n => ∃ k m', WFOpP op k ∧ WFStreamP rest m' ∧ n = g + k + m'

end

/-! ## The destroy traversal neither writes the value nor calls anything
but release-flavored collaborators -/

theorem handleRefCountsDestroy_mem (c : Ctx) (l : List Inst) (s : S) :
    (handleRefCountsDestroy c l s).mem = s.mem := by
  induction l, s using handleRefCountsDestroy.induct c
  all_goals rw [handleRefCountsDestroy]
  all_goals simp_all only [errorDestroyBranchless, nativeStrongDestroyBranchless,
    unownedDestroyBranchless, weakDestroyBranchless, unknownDestroyBranchless,
    unknownUnownedDestroyBranchless, unknownWeakDestroyBranchless, bridgeDestroyBranchless,
    blockDestroyBranchless, objcStrongDestroyBranchless, metatypeDestroyBranchless,
    existentialDestroyBranchless, resilientDestroyBranchless, ite_true, ite_false,
    dite_true, dite_false]
  all_goals try rfl
  all_goals try (split <;> simp_all)
  all_goals simp_all +zetaDelta [List.get_eq_getElem]

/-- A trace made of release-flavored collaborator calls only. -/
def ReleasesOnly (evs : List Event) : Prop := ∀ e ∈ evs, releaseFlavored e

theorem ReleasesOnly.push {evs : List Event} {e : Event} (h : ReleasesOnly evs)
    (he : releaseFlavored e) : ReleasesOnly (evs ++ [e]) := by
  intro x hx
  rcases List.mem_append.1 hx with hx | hx
  · exact h x hx
  · rcases List.mem_singleton.1 hx with rfl
    exact he

theorem handleRefCountsDestroy_releases (c : Ctx) (l : List Inst) (s : S) :
    ReleasesOnly s.events → ReleasesOnly (handleRefCountsDestroy c l s).events := by
  induction l, s using handleRefCountsDestroy.induct c
  all_goals intro hs
  all_goals rw [handleRefCountsDestroy]
  all_goals simp_all only [errorDestroyBranchless, nativeStrongDestroyBranchless,
    unownedDestroyBranchless, weakDestroyBranchless, unknownDestroyBranchless,
    unknownUnownedDestroyBranchless, unknownWeakDestroyBranchless, bridgeDestroyBranchless,
    blockDestroyBranchless, objcStrongDestroyBranchless, metatypeDestroyBranchless,
    existentialDestroyBranchless, resilientDestroyBranchless, ite_true, ite_false,
    dite_true, dite_false]
  all_goals try (apply_assumption; exact hs)
  all_goals try (apply_assumption; exact ReleasesOnly.push hs trivial)
  all_goals try (split <;> (try simp_all only [ite_true, ite_false, dite_true, dite_false]) <;>
    (apply_assumption; first | exact hs | exact ReleasesOnly.push hs trivial))
  all_goals try (apply_assumption; apply_assumption; exact hs)
  all_goals try simp_all
  all_goals try (apply_assumption; first | exact hs | exact ReleasesOnly.push hs trivial)
  all_goals try (split <;> (try simp_all) <;>
    (apply_assumption; first | exact hs | exact ReleasesOnly.push hs trivial))

end BL

namespace BL

set_option maxHeartbeats 1600000
set_option maxRecDepth 200000

theorem destroyResumeAux (c : Ctx) :
    ∀ N : Nat,
      (∀ op k, sizeOf op ≤ N → WFOpP op k → ∀ g rest s, ∃ s2,
        handleRefCountsDestroy c ((g, op) :: rest) s = handleRefCountsDestroy c rest s2 ∧
        s2.addrOffset = s.addrOffset + g + k ∧ s2.mem = s.mem) ∧
      (∀ sub m, sizeOf sub ≤ N → WFSubP sub m → ∀ rest s, ∃ s2,
        handleRefCountsDestroy c (sub ++ rest) s = handleRefCountsDestroy c rest s2 ∧
        s2.addrOffset = s.addrOffset + m ∧ s2.mem = s.mem) := by
  intro N
  induction N using Nat.strong_induction_on with
  | _ N ih =>
    constructor
    · intro op k hsz hwf g rest s
      cases op
      case stop => rw [WFOpP] at hwf; exact hwf.elim
      case error | nativeStrong | unowned | weak | unknown | unknownUnowned
        | unknownWeak | bridge | block | objcStrong =>
        rw [WFOpP] at hwf
        subst hwf
        rw [handleRefCountsDestroy]
        refine ⟨_, rfl, ?_, ?_⟩ <;>
          simp [errorDestroyBranchless, nativeStrongDestroyBranchless,
            unownedDestroyBranchless, weakDestroyBranchless, unknownDestroyBranchless,
            unknownUnownedDestroyBranchless, unknownWeakDestroyBranchless,
            bridgeDestroyBranchless, blockDestroyBranchless, objcStrongDestroyBranchless,
            apply_ite S.addrOffset, apply_ite S.mem]
      case metatype t =>
        rw [WFOpP] at hwf
        subst hwf
        rw [handleRefCountsDestroy]
        exact ⟨_, rfl, rfl, rfl⟩
      case resilient t =>
        rw [WFOpP] at hwf
        subst hwf
        rw [handleRefCountsDestroy]
        exact ⟨_, rfl, rfl, rfl⟩
      case existential =>
        rw [WFOpP] at hwf
        subst hwf
        rw [handleRefCountsDestroy]
        refine ⟨_, rfl, ?_, ?_⟩ <;>
          simp [existentialDestroyBranchless, apply_ite S.addrOffset, apply_ite S.mem]
      case singlePayloadEnumSimple bco pS zv xiVals sub skipBytes =>
        rw [WFOpP] at hwf
        obtain ⟨hk, hsub⟩ := hwf
        rw [hk]
        have hlt : sizeOf sub < N := by
          have h2 : sizeOf sub <
              sizeOf (Op.singlePayloadEnumSimple bco pS zv xiVals sub skipBytes) := by
            simp only [Op.singlePayloadEnumSimple.sizeOf_spec]; omega
          omega
        rw [handleRefCountsDestroy]
        by_cases hpay : spSimpleIsPayload bco pS zv xiVals s.mem
            (c.dest + (s.addrOffset + g)) = true
        · rw [if_pos hpay]
          exact (ih (sizeOf sub) hlt).2 sub skipBytes (Nat.le_refl _) hsub rest
            ⟨s.addrOffset + g, s.mem, s.events⟩
        · rw [if_neg hpay]
          exact ⟨_, rfl, rfl, rfl⟩
      case singlePayloadEnumFN f sub skipBytes =>
        rw [WFOpP] at hwf
        obtain ⟨hk, hsub⟩ := hwf
        rw [hk]
        have hlt : sizeOf sub < N := by
          have h2 : sizeOf sub < sizeOf (Op.singlePayloadEnumFN f sub skipBytes) := by
            simp only [Op.singlePayloadEnumFN.sizeOf_spec]; omega
          omega
        rw [handleRefCountsDestroy]
        by_cases hpay : f s.mem (c.dest + (s.addrOffset + g)) = 0
        · rw [if_pos hpay]
          exact (ih (sizeOf sub) hlt).2 sub skipBytes (Nat.le_refl _) hsub rest
            ⟨s.addrOffset + g, s.mem, s.events⟩
        · rw [if_neg hpay]
          exact ⟨_, rfl, rfl, rfl⟩
      case singlePayloadEnumFNResolved f sub skipBytes =>
        rw [WFOpP] at hwf
        obtain ⟨hk, hsub⟩ := hwf
        rw [hk]
        have hlt : sizeOf sub < N := by
          have h2 : sizeOf sub <
              sizeOf (Op.singlePayloadEnumFNResolved f sub skipBytes) := by
            simp only [Op.singlePayloadEnumFNResolved.sizeOf_spec]; omega
          omega
        rw [handleRefCountsDestroy]
        by_cases hpay : f s.mem (c.dest + (s.addrOffset + g)) = 0
        · rw [if_pos hpay]
          exact (ih (sizeOf sub) hlt).2 sub skipBytes (Nat.le_refl _) hsub rest
            ⟨s.addrOffset + g, s.mem, s.events⟩
        · rw [if_neg hpay]
          exact ⟨_, rfl, rfl, rfl⟩
      case singlePayloadEnumGeneric tbo pS xiT nec sub skipBytes =>
        rw [WFOpP] at hwf
        obtain ⟨hk, hsub⟩ := hwf
        rw [hk]
        have hlt : sizeOf sub < N := by
          have h2 : sizeOf sub <
              sizeOf (Op.singlePayloadEnumGeneric tbo pS xiT nec sub skipBytes) := by
            simp only [Op.singlePayloadEnumGeneric.sizeOf_spec]; omega
          omega
        rw [handleRefCountsDestroy]
        by_cases hpay : spGenericIsPayload tbo pS xiT nec s.mem
            (c.dest + (s.addrOffset + g)) = true
        · rw [if_pos hpay]
          exact (ih (sizeOf sub) hlt).2 sub skipBytes (Nat.le_refl _) hsub rest
            ⟨s.addrOffset + g, s.mem, s.events⟩
        · rw [if_neg hpay]
          exact ⟨_, rfl, rfl, rfl⟩
      case multiPayloadEnumFN f ps sz =>
        rw [WFOpP] at hwf
        rw [hwf]
        rw [handleRefCountsDestroy]
        by_cases htag : f s.mem (c.dest + (s.addrOffset + g)) < ps.length
        · rw [dif_pos htag]
          refine ⟨_, rfl, rfl, ?_⟩
          exact handleRefCountsDestroy_mem c _ _
        · rw [dif_neg htag]
          exact ⟨_, rfl, rfl, rfl⟩
      case multiPayloadEnumFNResolved f ps sz =>
        rw [WFOpP] at hwf
        rw [hwf]
        rw [handleRefCountsDestroy]
        by_cases htag : f s.mem (c.dest + (s.addrOffset + g)) < ps.length
        · rw [dif_pos htag]
          refine ⟨_, rfl, rfl, ?_⟩
          exact handleRefCountsDestroy_mem c _ _
        · rw [dif_neg htag]
          exact ⟨_, rfl, rfl, rfl⟩
      case multiPayloadEnumGeneric tb ps sz =>
        rw [WFOpP] at hwf
        rw [hwf]
        rw [handleRefCountsDestroy]
        by_cases htag : readTagBytes s.mem (c.dest + (s.addrOffset + g) + (sz - tb)) tb
            < ps.length
        · rw [dif_pos htag]
          refine ⟨_, rfl, rfl, ?_⟩
          exact handleRefCountsDestroy_mem c _ _
        · rw [dif_neg htag]
          exact ⟨_, rfl, rfl, rfl⟩
    · intro sub m hsz hsub rest s
      cases sub with
      | nil =>
        rw [WFSubP] at hsub
        subst hsub
        exact ⟨s, rfl, rfl, rfl⟩
      | cons i t =>
        obtain ⟨g, op⟩ := i
        rw [WFSubP] at hsub
        obtain ⟨k, m', hop, hsub2, rfl⟩ := hsub
        have hszop : sizeOf op < N := by
          have : sizeOf op < sizeOf ((g, op) :: t) := by
            simp only [List.cons.sizeOf_spec, Prod.mk.sizeOf_spec]; omega
          omega
        have hszt : sizeOf t < N := by
          have : sizeOf t < sizeOf ((g, op) :: t) := by
            simp only [List.cons.sizeOf_spec, Prod.mk.sizeOf_spec]; omega
          omega
        obtain ⟨s2, heq1, ha1, hm1⟩ :=
          (ih (sizeOf op) hszop).1 op k (Nat.le_refl _) hop g (t ++ rest) s
        obtain ⟨s3, heq2, ha2, hm2⟩ :=
          (ih (sizeOf t) hszt).2 t m' (Nat.le_refl _) hsub2 rest s2
        refine ⟨s3, ?_, by omega, by rw [hm2, hm1]⟩
        rw [List.cons_append, heq1, heq2]

end BL

namespace BL

set_option maxHeartbeats 1600000
set_option maxRecDepth 200000

theorem destroyOpResume (c : Ctx) {op : Op} {k : Nat} (hop : WFOpP op k) (g : Nat)
    (rest : List Inst) (s : S) :
    ∃ s2, handleRefCountsDestroy c ((g, op) :: rest) s = handleRefCountsDestroy c rest s2 ∧
      s2.addrOffset = s.addrOffset + g + k ∧ s2.mem = s.mem :=
  (destroyResumeAux c (sizeOf op)).1 op k (Nat.le_refl _) hop g rest s

theorem destroySubResume (c : Ctx) {sub : List Inst} {m : Nat} (hsub : WFSubP sub m)
    (rest : List Inst) (s : S) :
    ∃ s2, handleRefCountsDestroy c (sub ++ rest) s = handleRefCountsDestroy c rest s2 ∧
      s2.addrOffset = s.addrOffset + m ∧ s2.mem = s.mem :=
  (destroyResumeAux c (sizeOf sub)).2 sub m (Nat.le_refl _) hsub rest s

theorem destroyStreamAdv (c : Ctx) :
    ∀ l n, WFStreamP l n → ∀ s : S,
      (handleRefCountsDestroy c l s).addrOffset = s.addrOffset + n := by
  intro l
  induction l with
  | nil =>
    intro n h
    rw [WFStreamP] at h
    exact h.elim
  | cons i t iht =>
    obtain ⟨g, op⟩ := i
    intro n h s
    cases t with
    | nil =>
      rw [WFStreamP] at h
      obtain ⟨h1, rfl⟩ := h
      subst h1
      rw [handleRefCountsDestroy]
    | cons j t2 =>
      simp only [WFStreamP] at h
      obtain ⟨k, m', hop, hst, rfl⟩ := h
      obtain ⟨s2, heq, ha, hm⟩ := destroyOpResume c hop g (j :: t2) s
      rw [heq, iht _ hst s2, ha]
      omega

end BL

namespace BL

set_option maxHeartbeats 1600000
set_option maxRecDepth 200000

theorem copyResumeAux (c : Ctx) :
    ∀ N : Nat,
      (∀ op k, sizeOf op ≤ N → WFOpP op k → ∀ g rest s, ∃ s2,
        handleRefCountsInitWithCopy c ((g, op) :: rest) s
          = handleRefCountsInitWithCopy c rest s2 ∧
        s2.addrOffset = s.addrOffset + g + k) ∧
      (∀ sub m, sizeOf sub ≤ N → WFSubP sub m → ∀ rest s, ∃ s2,
        handleRefCountsInitWithCopy c (sub ++ rest) s
          = handleRefCountsInitWithCopy c rest s2 ∧
        s2.addrOffset = s.addrOffset + m) := by
  intro N
  induction N using Nat.strong_induction_on with
  | _ N ih =>
    constructor
    · intro op k hsz hwf g rest s
      cases op
      case stop => rw [WFOpP] at hwf; exact hwf.elim
      case error | nativeStrong | unowned | weak | unknown | unknownUnowned
        | unknownWeak | bridge | block | objcStrong =>
        rw [WFOpP] at hwf
        subst hwf
        rw [handleRefCountsInitWithCopy]
        refine ⟨_, rfl, ?_⟩
        simp [errorRetainBranchless, nativeStrongRetainBranchless,
          unownedRetainBranchless, weakCopyInitBranchless, unknownRetainBranchless,
          unknownUnownedCopyInitBranchless, unknownWeakCopyInitBranchless,
          bridgeRetainBranchless, blockCopyBranchless, objcStrongRetainBranchless,
          apply_ite S.addrOffset]
      case metatype t =>
        rw [WFOpP] at hwf
        subst hwf
        rw [handleRefCountsInitWithCopy]
        exact ⟨_, rfl, rfl⟩
      case resilient t =>
        rw [WFOpP] at hwf
        subst hwf
        rw [handleRefCountsInitWithCopy]
        exact ⟨_, rfl, rfl⟩
      case existential =>
        rw [WFOpP] at hwf
        subst hwf
        rw [handleRefCountsInitWithCopy]
        refine ⟨_, rfl, ?_⟩
        simp [existentialInitWithCopyBranchless, apply_ite S.addrOffset]
      case singlePayloadEnumSimple bco pS zv xiVals sub skipBytes =>
        rw [WFOpP] at hwf
        obtain ⟨hk, hsub⟩ := hwf
        rw [hk]
        have hlt : sizeOf sub < N := by
          have h2 : sizeOf sub <
              sizeOf (Op.singlePayloadEnumSimple bco pS zv xiVals sub skipBytes) := by
            simp only [Op.singlePayloadEnumSimple.sizeOf_spec]; omega
          omega
        rw [handleRefCountsInitWithCopy]
        by_cases hpay : spSimpleIsPayload bco pS zv xiVals
            (memcpy s.mem (c.dest + s.addrOffset) (c.src + s.addrOffset) g)
            (c.src + (s.addrOffset + g)) = true
        · rw [if_pos hpay]
          exact (ih (sizeOf sub) hlt).2 sub skipBytes (Nat.le_refl _) hsub rest
            ⟨s.addrOffset + g,
              memcpy s.mem (c.dest + s.addrOffset) (c.src + s.addrOffset) g, s.events⟩
        · rw [if_neg hpay]
          exact ⟨_, rfl, rfl⟩
      case singlePayloadEnumFN f sub skipBytes =>
        rw [WFOpP] at hwf
        obtain ⟨hk, hsub⟩ := hwf
        rw [hk]
        have hlt : sizeOf sub < N := by
          have h2 : sizeOf sub < sizeOf (Op.singlePayloadEnumFN f sub skipBytes) := by
            simp only [Op.singlePayloadEnumFN.sizeOf_spec]; omega
          omega
        rw [handleRefCountsInitWithCopy]
        by_cases hpay : f (memcpy s.mem (c.dest + s.addrOffset) (c.src + s.addrOffset) g)
            (c.src + (s.addrOffset + g)) = 0
        · rw [if_pos hpay]
          exact (ih (sizeOf sub) hlt).2 sub skipBytes (Nat.le_refl _) hsub rest
            ⟨s.addrOffset + g,
              memcpy s.mem (c.dest + s.addrOffset) (c.src + s.addrOffset) g, s.events⟩
        · rw [if_neg hpay]
          exact ⟨_, rfl, rfl⟩
      case singlePayloadEnumFNResolved f sub skipBytes =>
        rw [WFOpP] at hwf
        obtain ⟨hk, hsub⟩ := hwf
        rw [hk]
        have hlt : sizeOf sub < N := by
          have h2 : sizeOf sub <
              sizeOf (Op.singlePayloadEnumFNResolved f sub skipBytes) := by
            simp only [Op.singlePayloadEnumFNResolved.sizeOf_spec]; omega
          omega
        rw [handleRefCountsInitWithCopy]
        by_cases hpay : f (memcpy s.mem (c.dest + s.addrOffset) (c.src + s.addrOffset) g)
            (c.src + (s.addrOffset + g)) = 0
        · rw [if_pos hpay]
          exact (ih (sizeOf sub) hlt).2 sub skipBytes (Nat.le_refl _) hsub rest
            ⟨s.addrOffset + g,
              memcpy s.mem (c.dest + s.addrOffset) (c.src + s.addrOffset) g, s.events⟩
        · rw [if_neg hpay]
          exact ⟨_, rfl, rfl⟩
      case singlePayloadEnumGeneric tbo pS xiT nec sub skipBytes =>
        rw [WFOpP] at hwf
        obtain ⟨hk, hsub⟩ := hwf
        rw [hk]
        have hlt : sizeOf sub < N := by
          have h2 : sizeOf sub <
              sizeOf (Op.singlePayloadEnumGeneric tbo pS xiT nec sub skipBytes) := by
            simp only [Op.singlePayloadEnumGeneric.sizeOf_spec]; omega
          omega
        rw [handleRefCountsInitWithCopy]
        by_cases hpay : spGenericIsPayload tbo pS xiT nec
            (memcpy s.mem (c.dest + s.addrOffset) (c.src + s.addrOffset) g)
            (c.src + (s.addrOffset + g)) = true
        · rw [if_pos hpay]
          exact (ih (sizeOf sub) hlt).2 sub skipBytes (Nat.le_refl _) hsub rest
            ⟨s.addrOffset + g,
              memcpy s.mem (c.dest + s.addrOffset) (c.src + s.addrOffset) g, s.events⟩
        · rw [if_neg hpay]
          exact ⟨_, rfl, rfl⟩
      case multiPayloadEnumFN f ps sz =>
        rw [WFOpP] at hwf
        rw [hwf]
        rw [handleRefCountsInitWithCopy]
        by_cases htag : f (memcpy s.mem (c.dest + s.addrOffset) (c.src + s.addrOffset) g)
            (c.src + (s.addrOffset + g)) < ps.length
        · rw [dif_pos htag]
          exact ⟨_, rfl, rfl⟩
        · rw [dif_neg htag]
          exact ⟨_, rfl, rfl⟩
      case multiPayloadEnumFNResolved f ps sz =>
        rw [WFOpP] at hwf
        rw [hwf]
        rw [handleRefCountsInitWithCopy]
        by_cases htag : f (memcpy s.mem (c.dest + s.addrOffset) (c.src + s.addrOffset) g)
            (c.src + (s.addrOffset + g)) < ps.length
        · rw [dif_pos htag]
          exact ⟨_, rfl, rfl⟩
        · rw [dif_neg htag]
          exact ⟨_, rfl, rfl⟩
      case multiPayloadEnumGeneric tb ps sz =>
        rw [WFOpP] at hwf
        rw [hwf]
        rw [handleRefCountsInitWithCopy]
        by_cases htag : readTagBytes
            (memcpy s.mem (c.dest + s.addrOffset) (c.src + s.addrOffset) g)
            (c.src + (s.addrOffset + g) + (sz - tb)) tb < ps.length
        · rw [dif_pos htag]
          exact ⟨_, rfl, rfl⟩
        · rw [dif_neg htag]
          exact ⟨_, rfl, rfl⟩
    · intro sub m hsz hsub rest s
      cases sub with
      | nil =>
        rw [WFSubP] at hsub
        subst hsub
        exact ⟨s, rfl, rfl⟩
      | cons i t =>
        obtain ⟨g, op⟩ := i
        rw [WFSubP] at hsub
        obtain ⟨k, m', hop, hsub2, rfl⟩ := hsub
        have hszop : sizeOf op < N := by
          have : sizeOf op < sizeOf ((g, op) :: t) := by
            simp only [List.cons.sizeOf_spec, Prod.mk.sizeOf_spec]; omega
          omega
        have hszt : sizeOf t < N := by
          have : sizeOf t < sizeOf ((g, op) :: t) := by
            simp only [List.cons.sizeOf_spec, Prod.mk.sizeOf_spec]; omega
          omega
        obtain ⟨s2, heq1, ha1⟩ :=
          (ih (sizeOf op) hszop).1 op k (Nat.le_refl _) hop g (t ++ rest) s
        obtain ⟨s3, heq2, ha2⟩ :=
          (ih (sizeOf t) hszt).2 t m' (Nat.le_refl _) hsub2 rest s2
        refine ⟨s3, ?_, by omega⟩
        rw [List.cons_append, heq1, heq2]

theorem copyOpResume (c : Ctx) {op : Op} {k : Nat} (hop : WFOpP op k) (g : Nat)
    (rest : List Inst) (s : S) :
    ∃ s2, handleRefCountsInitWithCopy c ((g, op) :: rest) s
        = handleRefCountsInitWithCopy c rest s2 ∧
      s2.addrOffset = s.addrOffset + g + k :=
  (copyResumeAux c (sizeOf op)).1 op k (Nat.le_refl _) hop g rest s

theorem copySubResume (c : Ctx) {sub : List Inst} {m : Nat} (hsub : WFSubP sub m)
    (rest : List Inst) (s : S) :
    ∃ s2, handleRefCountsInitWithCopy c (sub ++ rest) s
        = handleRefCountsInitWithCopy c rest s2 ∧
      s2.addrOffset = s.addrOffset + m :=
  (copyResumeAux c (sizeOf sub)).2 sub m (Nat.le_refl _) hsub rest s

theorem copyStreamAdv (c : Ctx) :
    ∀ l n, WFStreamP l n → ∀ s : S,
      (handleRefCountsInitWithCopy c l s).addrOffset = s.addrOffset + n := by
  intro l
  induction l with
  | nil =>
    intro n h
    rw [WFStreamP] at h
    exact h.elim
  | cons i t iht =>
    obtain ⟨g, op⟩ := i
    intro n h s
    cases t with
    | nil =>
      rw [WFStreamP] at h
      obtain ⟨h1, rfl⟩ := h
      subst h1
      rw [handleRefCountsInitWithCopy]
    | cons j t2 =>
      simp only [WFStreamP] at h
      obtain ⟨k, m', hop, hst, rfl⟩ := h
      obtain ⟨s2, heq, ha⟩ := copyOpResume c hop g (j :: t2) s
      rw [heq, iht _ hst s2, ha]
      omega

end BL

namespace BL

set_option maxHeartbeats 1600000
set_option maxRecDepth 200000

theorem takeResumeAux (c : Ctx) :
    ∀ N : Nat,
      (∀ op k, sizeOf op ≤ N → WFOpP op k → ∀ g rest s, ∃ s2,
        handleRefCountsInitWithTake c ((g, op) :: rest) s
          = handleRefCountsInitWithTake c rest s2 ∧
        s2.addrOffset = s.addrOffset + g + k) ∧
      (∀ sub m, sizeOf sub ≤ N → WFSubP sub m → ∀ rest s, ∃ s2,
        handleRefCountsInitWithTake c (sub ++ rest) s
          = handleRefCountsInitWithTake c rest s2 ∧
        s2.addrOffset = s.addrOffset + m) := by
  intro N
  induction N using Nat.strong_induction_on with
  | _ N ih =>
    constructor
    · intro op k hsz hwf g rest s
      cases op
      case stop => rw [WFOpP] at hwf; exact hwf.elim
      case error | nativeStrong | unowned | weak | unknown | unknownUnowned
        | bridge | block | objcStrong =>
        rw [WFOpP] at hwf
        subst hwf
        rw [handleRefCountsInitWithTake]
        exact ⟨_, rfl, rfl⟩
      case unknownWeak =>
        rw [WFOpP] at hwf
        subst hwf
        rw [handleRefCountsInitWithTake]
        exact ⟨_, rfl, rfl⟩
      case metatype t =>
        rw [WFOpP] at hwf
        subst hwf
        rw [handleRefCountsInitWithTake]
        exact ⟨_, rfl, rfl⟩
      case resilient t =>
        rw [WFOpP] at hwf
        subst hwf
        rw [handleRefCountsInitWithTake]
        exact ⟨_, rfl, rfl⟩
      case existential =>
        rw [WFOpP] at hwf
        subst hwf
        rw [handleRefCountsInitWithTake]
        refine ⟨_, rfl, ?_⟩
        simp [existentialInitWithTake, apply_ite S.addrOffset]
      case singlePayloadEnumSimple bco pS zv xiVals sub skipBytes =>
        rw [WFOpP] at hwf
        obtain ⟨hk, hsub⟩ := hwf
        rw [hk]
        have hlt : sizeOf sub < N := by
          have h2 : sizeOf sub <
              sizeOf (Op.singlePayloadEnumSimple bco pS zv xiVals sub skipBytes) := by
            simp only [Op.singlePayloadEnumSimple.sizeOf_spec]; omega
          omega
        rw [handleRefCountsInitWithTake]
        by_cases hpay : spSimpleIsPayload bco pS zv xiVals
            (memcpy s.mem (c.dest + s.addrOffset) (c.src + s.addrOffset) g)
            (c.src + (s.addrOffset + g)) = true
        · rw [if_pos hpay]
          exact (ih (sizeOf sub) hlt).2 sub skipBytes (Nat.le_refl _) hsub rest
            ⟨s.addrOffset + g,
              memcpy s.mem (c.dest + s.addrOffset) (c.src + s.addrOffset) g, s.events⟩
        · rw [if_neg hpay]
          exact ⟨_, rfl, rfl⟩
      case singlePayloadEnumFN f sub skipBytes =>
        rw [WFOpP] at hwf
        obtain ⟨hk, hsub⟩ := hwf
        rw [hk]
        have hlt : sizeOf sub < N := by
          have h2 : sizeOf sub < sizeOf (Op.singlePayloadEnumFN f sub skipBytes) := by
            simp only [Op.singlePayloadEnumFN.sizeOf_spec]; omega
          omega
        rw [handleRefCountsInitWithTake]
        by_cases hpay : f (memcpy s.mem (c.dest + s.addrOffset) (c.src + s.addrOffset) g)
            (c.src + (s.addrOffset + g)) = 0
        · rw [if_pos hpay]
          exact (ih (sizeOf sub) hlt).2 sub skipBytes (Nat.le_refl _) hsub rest
            ⟨s.addrOffset + g,
              memcpy s.mem (c.dest + s.addrOffset) (c.src + s.addrOffset) g, s.events⟩
        · rw [if_neg hpay]
          exact ⟨_, rfl, rfl⟩
      case singlePayloadEnumFNResolved f sub skipBytes =>
        rw [WFOpP] at hwf
        obtain ⟨hk, hsub⟩ := hwf
        rw [hk]
        have hlt : sizeOf sub < N := by
          have h2 : sizeOf sub <
              sizeOf (Op.singlePayloadEnumFNResolved f sub skipBytes) := by
            simp only [Op.singlePayloadEnumFNResolved.sizeOf_spec]; omega
          omega
        rw [handleRefCountsInitWithTake]
        by_cases hpay : f (memcpy s.mem (c.dest + s.addrOffset) (c.src + s.addrOffset) g)
            (c.src + (s.addrOffset + g)) = 0
        · rw [if_pos hpay]
          exact (ih (sizeOf sub) hlt).2 sub skipBytes (Nat.le_refl _) hsub rest
            ⟨s.addrOffset + g,
              memcpy s.mem (c.dest + s.addrOffset) (c.src + s.addrOffset) g, s.events⟩
        · rw [if_neg hpay]
          exact ⟨_, rfl, rfl⟩
      case singlePayloadEnumGeneric tbo pS xiT nec sub skipBytes =>
        rw [WFOpP] at hwf
        obtain ⟨hk, hsub⟩ := hwf
        rw [hk]
        have hlt : sizeOf sub < N := by
          have h2 : sizeOf sub <
              sizeOf (Op.singlePayloadEnumGeneric tbo pS xiT nec sub skipBytes) := by
            simp only [Op.singlePayloadEnumGeneric.sizeOf_spec]; omega
          omega
        rw [handleRefCountsInitWithTake]
        by_cases hpay : spGenericIsPayload tbo pS xiT nec
            (memcpy s.mem (c.dest + s.addrOffset) (c.src + s.addrOffset) g)
            (c.src + (s.addrOffset + g)) = true
        · rw [if_pos hpay]
          exact (ih (sizeOf sub) hlt).2 sub skipBytes (Nat.le_refl _) hsub rest
            ⟨s.addrOffset + g,
              memcpy s.mem (c.dest + s.addrOffset) (c.src + s.addrOffset) g, s.events⟩
        · rw [if_neg hpay]
          exact ⟨_, rfl, rfl⟩
      case multiPayloadEnumFN f ps sz =>
        rw [WFOpP] at hwf
        rw [hwf]
        rw [handleRefCountsInitWithTake]
        by_cases htag : f (memcpy s.mem (c.dest + s.addrOffset) (c.src + s.addrOffset) g)
            (c.src + (s.addrOffset + g)) < ps.length
        · rw [dif_pos htag]
          exact ⟨_, rfl, rfl⟩
        · rw [dif_neg htag]
          exact ⟨_, rfl, rfl⟩
      case multiPayloadEnumFNResolved f ps sz =>
        rw [WFOpP] at hwf
        rw [hwf]
        rw [handleRefCountsInitWithTake]
        by_cases htag : f (memcpy s.mem (c.dest + s.addrOffset) (c.src + s.addrOffset) g)
            (c.src + (s.addrOffset + g)) < ps.length
        · rw [dif_pos htag]
          exact ⟨_, rfl, rfl⟩
        · rw [dif_neg htag]
          exact ⟨_, rfl, rfl⟩
      case multiPayloadEnumGeneric tb ps sz =>
        rw [WFOpP] at hwf
        rw [hwf]
        rw [handleRefCountsInitWithTake]
        by_cases htag : readTagBytes
            (memcpy s.mem (c.dest + s.addrOffset) (c.src + s.addrOffset) g)
            (c.src + (s.addrOffset + g) + (sz - tb)) tb < ps.length
        · rw [dif_pos htag]
          exact ⟨_, rfl, rfl⟩
        · rw [dif_neg htag]
          exact ⟨_, rfl, rfl⟩
    · intro sub m hsz hsub rest s
      cases sub with
      | nil =>
        rw [WFSubP] at hsub
        subst hsub
        exact ⟨s, rfl, rfl⟩
      | cons i t =>
        obtain ⟨g, op⟩ := i
        rw [WFSubP] at hsub
        obtain ⟨k, m', hop, hsub2, rfl⟩ := hsub
        have hszop : sizeOf op < N := by
          have : sizeOf op < sizeOf ((g, op) :: t) := by
            simp only [List.cons.sizeOf_spec, Prod.mk.sizeOf_spec]; omega
          omega
        have hszt : sizeOf t < N := by
          have : sizeOf t < sizeOf ((g, op) :: t) := by
            simp only [List.cons.sizeOf_spec, Prod.mk.sizeOf_spec]; omega
          omega
        obtain ⟨s2, heq1, ha1⟩ :=
          (ih (sizeOf op) hszop).1 op k (Nat.le_refl _) hop g (t ++ rest) s
        obtain ⟨s3, heq2, ha2⟩ :=
          (ih (sizeOf t) hszt).2 t m' (Nat.le_refl _) hsub2 rest s2
        refine ⟨s3, ?_, by omega⟩
        rw [List.cons_append, heq1, heq2]

theorem takeOpResume (c : Ctx) {op : Op} {k : Nat} (hop : WFOpP op k) (g : Nat)
    (rest : List Inst) (s : S) :
    ∃ s2, handleRefCountsInitWithTake c ((g, op) :: rest) s
        = handleRefCountsInitWithTake c rest s2 ∧
      s2.addrOffset = s.addrOffset + g + k :=
  (takeResumeAux c (sizeOf op)).1 op k (Nat.le_refl _) hop g rest s

theorem takeStreamAdv (c : Ctx) :
    ∀ l n, WFStreamP l n → ∀ s : S,
      (handleRefCountsInitWithTake c l s).addrOffset = s.addrOffset + n := by
  intro l
  induction l with
  | nil =>
    intro n h
    rw [WFStreamP] at h
    exact h.elim
  | cons i t iht =>
    obtain ⟨g, op⟩ := i
    intro n h s
    cases t with
    | nil =>
      rw [WFStreamP] at h
      obtain ⟨h1, rfl⟩ := h
      subst h1
      rw [handleRefCountsInitWithTake]
    | cons j t2 =>
      simp only [WFStreamP] at h
      obtain ⟨k, m', hop, hst, rfl⟩ := h
      obtain ⟨s2, heq, ha⟩ := takeOpResume c hop g (j :: t2) s
      rw [heq, iht _ hst s2, ha]
      omega

end BL

namespace BL

set_option maxHeartbeats 1600000
set_option maxRecDepth 200000

theorem cnResumeAux (c : Ctx) :
    ∀ N : Nat,
      (∀ op k, sizeOf op ≤ N → WFOpP op k → ∀ g rest s, ∃ s2,
        handleSingleRefCountInitWithCopyLoop c ((g, op) :: rest) s
          = handleSingleRefCountInitWithCopyLoop c rest s2 ∧
        s2.addrOffset = s.addrOffset + g + k) ∧
      (∀ sub m, sizeOf sub ≤ N → WFSubP sub m → ∀ rest s, ∃ s2,
        handleSingleRefCountInitWithCopyLoop c (sub ++ rest) s
          = handleSingleRefCountInitWithCopyLoop c rest s2 ∧
        s2.addrOffset = s.addrOffset + m) := by
  intro N
  induction N using Nat.strong_induction_on with
  | _ N ih =>
    constructor
    · intro op k hsz hwf g rest s
      cases op
      case stop => rw [WFOpP] at hwf; exact hwf.elim
      case error | nativeStrong | unowned | weak | unknown | unknownUnowned
        | unknownWeak | bridge | block | objcStrong =>
        rw [WFOpP] at hwf
        subst hwf
        rw [handleSingleRefCountInitWithCopyLoop]
        refine ⟨_, rfl, ?_⟩
        simp [errorRetainBranchless, nativeStrongRetainBranchless,
          unownedRetainBranchless, weakCopyInitBranchless, unknownRetainBranchless,
          unknownUnownedCopyInitBranchless, unknownWeakCopyInitBranchless,
          bridgeRetainBranchless, blockCopyBranchless, objcStrongRetainBranchless,
          apply_ite S.addrOffset]
      case metatype t =>
        rw [WFOpP] at hwf
        subst hwf
        rw [handleSingleRefCountInitWithCopyLoop]
        exact ⟨_, rfl, rfl⟩
      case resilient t =>
        rw [WFOpP] at hwf
        subst hwf
        rw [handleSingleRefCountInitWithCopyLoop]
        exact ⟨_, rfl, rfl⟩
      case existential =>
        rw [WFOpP] at hwf
        subst hwf
        rw [handleSingleRefCountInitWithCopyLoop]
        refine ⟨_, rfl, ?_⟩
        simp [existentialInitWithCopyBranchless, apply_ite S.addrOffset]
      case singlePayloadEnumSimple bco pS zv xiVals sub skipBytes =>
        rw [WFOpP] at hwf
        obtain ⟨hk, hsub⟩ := hwf
        rw [hk]
        have hlt : sizeOf sub < N := by
          have h2 : sizeOf sub <
              sizeOf (Op.singlePayloadEnumSimple bco pS zv xiVals sub skipBytes) := by
            simp only [Op.singlePayloadEnumSimple.sizeOf_spec]; omega
          omega
        rw [handleSingleRefCountInitWithCopyLoop]
        by_cases hpay : spSimpleIsPayload bco pS zv xiVals s.mem
            (c.src + (s.addrOffset + g)) = true
        · rw [if_pos hpay]
          exact (ih (sizeOf sub) hlt).2 sub skipBytes (Nat.le_refl _) hsub rest
            ⟨s.addrOffset + g, s.mem, s.events⟩
        · rw [if_neg hpay]
          exact ⟨_, rfl, rfl⟩
      case singlePayloadEnumFN f sub skipBytes =>
        rw [WFOpP] at hwf
        obtain ⟨hk, hsub⟩ := hwf
        rw [hk]
        have hlt : sizeOf sub < N := by
          have h2 : sizeOf sub < sizeOf (Op.singlePayloadEnumFN f sub skipBytes) := by
            simp only [Op.singlePayloadEnumFN.sizeOf_spec]; omega
          omega
        rw [handleSingleRefCountInitWithCopyLoop]
        by_cases hpay : f s.mem (c.src + (s.addrOffset + g)) = 0
        · rw [if_pos hpay]
          exact (ih (sizeOf sub) hlt).2 sub skipBytes (Nat.le_refl _) hsub rest
            ⟨s.addrOffset + g, s.mem, s.events⟩
        · rw [if_neg hpay]
          exact ⟨_, rfl, rfl⟩
      case singlePayloadEnumFNResolved f sub skipBytes =>
        rw [WFOpP] at hwf
        obtain ⟨hk, hsub⟩ := hwf
        rw [hk]
        have hlt : sizeOf sub < N := by
          have h2 : sizeOf sub <
              sizeOf (Op.singlePayloadEnumFNResolved f sub skipBytes) := by
            simp only [Op.singlePayloadEnumFNResolved.sizeOf_spec]; omega
          omega
        rw [handleSingleRefCountInitWithCopyLoop]
        by_cases hpay : f s.mem (c.src + (s.addrOffset + g)) = 0
        · rw [if_pos hpay]
          exact (ih (sizeOf sub) hlt).2 sub skipBytes (Nat.le_refl _) hsub rest
            ⟨s.addrOffset + g, s.mem, s.events⟩
        · rw [if_neg hpay]
          exact ⟨_, rfl, rfl⟩
      case singlePayloadEnumGeneric tbo pS xiT nec sub skipBytes =>
        rw [WFOpP] at hwf
        obtain ⟨hk, hsub⟩ := hwf
        rw [hk]
        have hlt : sizeOf sub < N := by
          have h2 : sizeOf sub <
              sizeOf (Op.singlePayloadEnumGeneric tbo pS xiT nec sub skipBytes) := by
            simp only [Op.singlePayloadEnumGeneric.sizeOf_spec]; omega
          omega
        rw [handleSingleRefCountInitWithCopyLoop]
        by_cases hpay : spGenericIsPayload tbo pS xiT nec s.mem
            (c.src + (s.addrOffset + g)) = true
        · rw [if_pos hpay]
          exact (ih (sizeOf sub) hlt).2 sub skipBytes (Nat.le_refl _) hsub rest
            ⟨s.addrOffset + g, s.mem, s.events⟩
        · rw [if_neg hpay]
          exact ⟨_, rfl, rfl⟩
      case multiPayloadEnumFN f ps sz =>
        rw [WFOpP] at hwf
        rw [hwf]
        rw [handleSingleRefCountInitWithCopyLoop]
        by_cases htag : f s.mem (c.src + (s.addrOffset + g)) < ps.length
        · rw [dif_pos htag]
          exact ⟨_, rfl, rfl⟩
        · rw [dif_neg htag]
          exact ⟨_, rfl, rfl⟩
      case multiPayloadEnumFNResolved f ps sz =>
        rw [WFOpP] at hwf
        rw [hwf]
        rw [handleSingleRefCountInitWithCopyLoop]
        by_cases htag : f s.mem (c.src + (s.addrOffset + g)) < ps.length
        · rw [dif_pos htag]
          exact ⟨_, rfl, rfl⟩
        · rw [dif_neg htag]
          exact ⟨_, rfl, rfl⟩
      case multiPayloadEnumGeneric tb ps sz =>
        rw [WFOpP] at hwf
        rw [hwf]
        rw [handleSingleRefCountInitWithCopyLoop]
        by_cases htag : readTagBytes s.mem
            (c.src + (s.addrOffset + g) + (sz - tb)) tb < ps.length
        · rw [dif_pos htag]
          exact ⟨_, rfl, rfl⟩
        · rw [dif_neg htag]
          exact ⟨_, rfl, rfl⟩
    · intro sub m hsz hsub rest s
      cases sub with
      | nil =>
        rw [WFSubP] at hsub
        subst hsub
        exact ⟨s, rfl, rfl⟩
      | cons i t =>
        obtain ⟨g, op⟩ := i
        rw [WFSubP] at hsub
        obtain ⟨k, m', hop, hsub2, rfl⟩ := hsub
        have hszop : sizeOf op < N := by
          have : sizeOf op < sizeOf ((g, op) :: t) := by
            simp only [List.cons.sizeOf_spec, Prod.mk.sizeOf_spec]; omega
          omega
        have hszt : sizeOf t < N := by
          have : sizeOf t < sizeOf ((g, op) :: t) := by
            simp only [List.cons.sizeOf_spec, Prod.mk.sizeOf_spec]; omega
          omega
        obtain ⟨s2, heq1, ha1⟩ :=
          (ih (sizeOf op) hszop).1 op k (Nat.le_refl _) hop g (t ++ rest) s
        obtain ⟨s3, heq2, ha2⟩ :=
          (ih (sizeOf t) hszt).2 t m' (Nat.le_refl _) hsub2 rest s2
        refine ⟨s3, ?_, by omega⟩
        rw [List.cons_append, heq1, heq2]

theorem cnSubResume (c : Ctx) {sub : List Inst} {m : Nat} (hsub : WFSubP sub m)
    (rest : List Inst) (s : S) :
    ∃ s2, handleSingleRefCountInitWithCopyLoop c (sub ++ rest) s
        = handleSingleRefCountInitWithCopyLoop c rest s2 ∧
      s2.addrOffset = s.addrOffset + m :=
  (cnResumeAux c (sizeOf sub)).2 sub m (Nat.le_refl _) hsub rest s

theorem cnSubAdv (c : Ctx) {sub : List Inst} {m : Nat} (hsub : WFSubP sub m) (s : S) :
    (handleSingleRefCountInitWithCopyLoop c sub s).addrOffset = s.addrOffset + m := by
  obtain ⟨s2, heq, ha⟩ := cnSubResume c hsub [] s
  rw [List.append_nil] at heq
  rw [heq, handleSingleRefCountInitWithCopyLoop, ha]

end BL

namespace BL

set_option maxHeartbeats 1600000
set_option maxRecDepth 200000

theorem assignResumeAux (c : Ctx) :
    ∀ N : Nat,
      (∀ op k, sizeOf op ≤ N → WFOpP op k → ∀ g rest s, ∃ s2,
        handleRefCountsAssignWithCopy c ((g, op) :: rest) s
          = handleRefCountsAssignWithCopy c rest s2 ∧
        s2.addrOffset = s.addrOffset + g + k) ∧
      (∀ sub m, sizeOf sub ≤ N → WFSubP sub m → ∀ rest s, ∃ s2,
        handleRefCountsAssignWithCopy c (sub ++ rest) s
          = handleRefCountsAssignWithCopy c rest s2 ∧
        s2.addrOffset = s.addrOffset + m) := by
  intro N
  induction N using Nat.strong_induction_on with
  | _ N ih =>
    constructor
    · intro op k hsz hwf g rest s
      cases op
      case stop => rw [WFOpP] at hwf; exact hwf.elim
      case error | nativeStrong | unowned | weak | unknown | unknownUnowned
        | unknownWeak | bridge | block | objcStrong =>
        rw [WFOpP] at hwf
        subst hwf
        rw [handleRefCountsAssignWithCopy]
        exact ⟨_, rfl, rfl⟩
      case metatype t =>
        rw [WFOpP] at hwf
        subst hwf
        rw [handleRefCountsAssignWithCopy]
        exact ⟨_, rfl, rfl⟩
      case resilient t =>
        rw [WFOpP] at hwf
        subst hwf
        rw [handleRefCountsAssignWithCopy]
        exact ⟨_, rfl, rfl⟩
      case existential =>
        rw [WFOpP] at hwf
        subst hwf
        rw [handleRefCountsAssignWithCopy]
        refine ⟨_, rfl, ?_⟩
        simp [existentialAssignWithCopy, apply_ite S.addrOffset]
      case singlePayloadEnumSimple bco pS zv xiVals sub skipBytes =>
        rw [WFOpP] at hwf
        obtain ⟨hk, hsub⟩ := hwf
        rw [hk]
        have hlt : sizeOf sub < N := by
          have h2 : sizeOf sub < sizeOf (Op.singlePayloadEnumSimple bco pS zv xiVals sub skipBytes) := by
            simp only [Op.singlePayloadEnumSimple.sizeOf_spec]; omega
          omega
        rw [handleRefCountsAssignWithCopy]
        by_cases hsrc : xiVals ≤ spSimpleAssignTagVal bco pS zv (memcpy s.mem (c.dest + s.addrOffset) (c.src + s.addrOffset) g) (c.src + (s.addrOffset + g))
        · rw [if_pos hsrc]
          by_cases hdst : xiVals ≤ spSimpleAssignTagVal bco pS zv (memcpy s.mem (c.dest + s.addrOffset) (c.src + s.addrOffset) g) (c.dest + (s.addrOffset + g))
          · rw [if_pos hdst]
            exact (ih (sizeOf sub) hlt).2 sub skipBytes (Nat.le_refl _) hsub rest
              ⟨s.addrOffset + g,
                memcpy s.mem (c.dest + s.addrOffset) (c.src + s.addrOffset) g, s.events⟩
          · rw [if_neg hdst]
            refine ⟨_, rfl, ?_⟩
            exact cnSubAdv c hsub
              ⟨s.addrOffset + g,
                memcpy s.mem (c.dest + s.addrOffset) (c.src + s.addrOffset) g, s.events⟩
        · rw [if_neg hsrc]
          by_cases hdst : xiVals ≤ spSimpleAssignTagVal bco pS zv (memcpy s.mem (c.dest + s.addrOffset) (c.src + s.addrOffset) g) (c.dest + (s.addrOffset + g))
          · rw [if_pos hdst]
            exact ⟨_, rfl, rfl⟩
          · rw [if_neg hdst]
            exact ⟨_, rfl, rfl⟩
      case singlePayloadEnumFN f sub skipBytes =>
        rw [WFOpP] at hwf
        obtain ⟨hk, hsub⟩ := hwf
        rw [hk]
        have hlt : sizeOf sub < N := by
          have h2 : sizeOf sub < sizeOf (Op.singlePayloadEnumFN f sub skipBytes) := by
            simp only [Op.singlePayloadEnumFN.sizeOf_spec]; omega
          omega
        rw [handleRefCountsAssignWithCopy]
        by_cases hsrc : f (memcpy s.mem (c.dest + s.addrOffset) (c.src + s.addrOffset) g) (c.src + (s.addrOffset + g)) = 0
        · rw [if_pos hsrc]
          by_cases hdst : f (memcpy s.mem (c.dest + s.addrOffset) (c.src + s.addrOffset) g) (c.dest + (s.addrOffset + g)) = 0
          · rw [if_pos hdst]
            exact (ih (sizeOf sub) hlt).2 sub skipBytes (Nat.le_refl _) hsub rest
              ⟨s.addrOffset + g,
                memcpy s.mem (c.dest + s.addrOffset) (c.src + s.addrOffset) g, s.events⟩
          · rw [if_neg hdst]
            refine ⟨_, rfl, ?_⟩
            exact cnSubAdv c hsub
              ⟨s.addrOffset + g,
                memcpy s.mem (c.dest + s.addrOffset) (c.src + s.addrOffset) g, s.events⟩
        · rw [if_neg hsrc]
          by_cases hdst : f (memcpy s.mem (c.dest + s.addrOffset) (c.src + s.addrOffset) g) (c.dest + (s.addrOffset + g)) = 0
          · rw [if_pos hdst]
            exact ⟨_, rfl, rfl⟩
          · rw [if_neg hdst]
            exact ⟨_, rfl, rfl⟩
      case singlePayloadEnumFNResolved f sub skipBytes =>
        rw [WFOpP] at hwf
        obtain ⟨hk, hsub⟩ := hwf
        rw [hk]
        have hlt : sizeOf sub < N := by
          have h2 : sizeOf sub < sizeOf (Op.singlePayloadEnumFNResolved f sub skipBytes) := by
            simp only [Op.singlePayloadEnumFNResolved.sizeOf_spec]; omega
          omega
        rw [handleRefCountsAssignWithCopy]
        by_cases hsrc : f (memcpy s.mem (c.dest + s.addrOffset) (c.src + s.addrOffset) g) (c.src + (s.addrOffset + g)) = 0
        · rw [if_pos hsrc]
          by_cases hdst : f (memcpy s.mem (c.dest + s.addrOffset) (c.src + s.addrOffset) g) (c.dest + (s.addrOffset + g)) = 0
          · rw [if_pos hdst]
            exact (ih (sizeOf sub) hlt).2 sub skipBytes (Nat.le_refl _) hsub rest
              ⟨s.addrOffset + g,
                memcpy s.mem (c.dest + s.addrOffset) (c.src + s.addrOffset) g, s.events⟩
          · rw [if_neg hdst]
            refine ⟨_, rfl, ?_⟩
            exact cnSubAdv c hsub
              ⟨s.addrOffset + g,
                memcpy s.mem (c.dest + s.addrOffset) (c.src + s.addrOffset) g, s.events⟩
        · rw [if_neg hsrc]
          by_cases hdst : f (memcpy s.mem (c.dest + s.addrOffset) (c.src + s.addrOffset) g) (c.dest + (s.addrOffset + g)) = 0
          · rw [if_pos hdst]
            exact ⟨_, rfl, rfl⟩
          · rw [if_neg hdst]
            exact ⟨_, rfl, rfl⟩
      case singlePayloadEnumGeneric tbo pS xiT nec sub skipBytes =>
        rw [WFOpP] at hwf
        obtain ⟨hk, hsub⟩ := hwf
        rw [hk]
        have hlt : sizeOf sub < N := by
          have h2 : sizeOf sub < sizeOf (Op.singlePayloadEnumGeneric tbo pS xiT nec sub skipBytes) := by
            simp only [Op.singlePayloadEnumGeneric.sizeOf_spec]; omega
          omega
        rw [handleRefCountsAssignWithCopy]
        by_cases hsrc : spGenericAssignTagVal tbo pS xiT nec (memcpy s.mem (c.dest + s.addrOffset) (c.src + s.addrOffset) g) (c.src + (s.addrOffset + g)) = 0
        · rw [if_pos hsrc]
          by_cases hdst : spGenericAssignTagVal tbo pS xiT nec (memcpy s.mem (c.dest + s.addrOffset) (c.src + s.addrOffset) g) (c.dest + (s.addrOffset + g)) = 0
          · rw [if_pos hdst]
            exact (ih (sizeOf sub) hlt).2 sub skipBytes (Nat.le_refl _) hsub rest
              ⟨s.addrOffset + g,
                memcpy s.mem (c.dest + s.addrOffset) (c.src + s.addrOffset) g, s.events⟩
          · rw [if_neg hdst]
            refine ⟨_, rfl, ?_⟩
            exact cnSubAdv c hsub
              ⟨s.addrOffset + g,
                memcpy s.mem (c.dest + s.addrOffset) (c.src + s.addrOffset) g, s.events⟩
        · rw [if_neg hsrc]
          by_cases hdst : spGenericAssignTagVal tbo pS xiT nec (memcpy s.mem (c.dest + s.addrOffset) (c.src + s.addrOffset) g) (c.dest + (s.addrOffset + g)) = 0
          · rw [if_pos hdst]
            exact ⟨_, rfl, rfl⟩
          · rw [if_neg hdst]
            exact ⟨_, rfl, rfl⟩
      case multiPayloadEnumFN f ps sz =>
        rw [WFOpP] at hwf
        rw [hwf]
        rw [handleRefCountsAssignWithCopy]
        by_cases hsrc : f (memcpy s.mem (c.dest + s.addrOffset) (c.src + s.addrOffset) g) (c.src + (s.addrOffset + g)) < ps.length
        · rw [dif_pos hsrc]
          by_cases hdst : f (memcpy s.mem (c.dest + s.addrOffset) (c.src + s.addrOffset) g) (c.dest + (s.addrOffset + g)) < ps.length
          · rw [dif_pos hdst]
            exact ⟨_, rfl, rfl⟩
          · rw [dif_neg hdst]
            exact ⟨_, rfl, rfl⟩
        · rw [dif_neg hsrc]
          by_cases hdst : f (memcpy s.mem (c.dest + s.addrOffset) (c.src + s.addrOffset) g) (c.dest + (s.addrOffset + g)) < ps.length
          · rw [dif_pos hdst]
            exact ⟨_, rfl, rfl⟩
          · rw [dif_neg hdst]
            exact ⟨_, rfl, rfl⟩
      case multiPayloadEnumFNResolved f ps sz =>
        rw [WFOpP] at hwf
        rw [hwf]
        rw [handleRefCountsAssignWithCopy]
        by_cases hsrc : f (memcpy s.mem (c.dest + s.addrOffset) (c.src + s.addrOffset) g) (c.src + (s.addrOffset + g)) < ps.length
        · rw [dif_pos hsrc]
          by_cases hdst : f (memcpy s.mem (c.dest + s.addrOffset) (c.src + s.addrOffset) g) (c.dest + (s.addrOffset + g)) < ps.length
          · rw [dif_pos hdst]
            exact ⟨_, rfl, rfl⟩
          · rw [dif_neg hdst]
            exact ⟨_, rfl, rfl⟩
        · rw [dif_neg hsrc]
          by_cases hdst : f (memcpy s.mem (c.dest + s.addrOffset) (c.src + s.addrOffset) g) (c.dest + (s.addrOffset + g)) < ps.length
          · rw [dif_pos hdst]
            exact ⟨_, rfl, rfl⟩
          · rw [dif_neg hdst]
            exact ⟨_, rfl, rfl⟩
      case multiPayloadEnumGeneric tb ps sz =>
        rw [WFOpP] at hwf
        rw [hwf]
        rw [handleRefCountsAssignWithCopy]
        by_cases hsrc : readTagBytes (memcpy s.mem (c.dest + s.addrOffset) (c.src + s.addrOffset) g) (c.src + (s.addrOffset + g) + (sz - tb)) tb < ps.length
        · rw [dif_pos hsrc]
          by_cases hdst : readTagBytes (memcpy s.mem (c.dest + s.addrOffset) (c.src + s.addrOffset) g) (c.dest + (s.addrOffset + g) + (sz - tb)) tb < ps.length
          · rw [dif_pos hdst]
            exact ⟨_, rfl, rfl⟩
          · rw [dif_neg hdst]
            exact ⟨_, rfl, rfl⟩
        · rw [dif_neg hsrc]
          by_cases hdst : readTagBytes (memcpy s.mem (c.dest + s.addrOffset) (c.src + s.addrOffset) g) (c.dest + (s.addrOffset + g) + (sz - tb)) tb < ps.length
          · rw [dif_pos hdst]
            exact ⟨_, rfl, rfl⟩
          · rw [dif_neg hdst]
            exact ⟨_, rfl, rfl⟩
    · intro sub m hsz hsub rest s
      cases sub with
      | nil =>
        rw [WFSubP] at hsub
        subst hsub
        exact ⟨s, rfl, rfl⟩
      | cons i t =>
        obtain ⟨g, op⟩ := i
        rw [WFSubP] at hsub
        obtain ⟨k, m', hop, hsub2, rfl⟩ := hsub
        have hszop : sizeOf op < N := by
          have : sizeOf op < sizeOf ((g, op) :: t) := by
            simp only [List.cons.sizeOf_spec, Prod.mk.sizeOf_spec]; omega
          omega
        have hszt : sizeOf t < N := by
          have : sizeOf t < sizeOf ((g, op) :: t) := by
            simp only [List.cons.sizeOf_spec, Prod.mk.sizeOf_spec]; omega
          omega
        obtain ⟨s2, heq1, ha1⟩ :=
          (ih (sizeOf op) hszop).1 op k (Nat.le_refl _) hop g (t ++ rest) s
        obtain ⟨s3, heq2, ha2⟩ :=
          (ih (sizeOf t) hszt).2 t m' (Nat.le_refl _) hsub2 rest s2
        refine ⟨s3, ?_, by omega⟩
        rw [List.cons_append, heq1, heq2]

theorem assignOpResume (c : Ctx) {op : Op} {k : Nat} (hop : WFOpP op k) (g : Nat)
    (rest : List Inst) (s : S) :
    ∃ s2, handleRefCountsAssignWithCopy c ((g, op) :: rest) s
        = handleRefCountsAssignWithCopy c rest s2 ∧
      s2.addrOffset = s.addrOffset + g + k :=
  (assignResumeAux c (sizeOf op)).1 op k (Nat.le_refl _) hop g rest s

theorem assignStreamAdv (c : Ctx) :
    ∀ l n, WFStreamP l n → ∀ s : S,
      (handleRefCountsAssignWithCopy c l s).addrOffset = s.addrOffset + n := by
  intro l
  induction l with
  | nil =>
    intro n h
    rw [WFStreamP] at h
    exact h.elim
  | cons i t iht =>
    obtain ⟨g, op⟩ := i
    intro n h s
    cases t with
    | nil =>
      rw [WFStreamP] at h
      obtain ⟨h1, rfl⟩ := h
      subst h1
      rw [handleRefCountsAssignWithCopy]
    | cons j t2 =>
      simp only [WFStreamP] at h
      obtain ⟨k, m', hop, hst, rfl⟩ := h
      obtain ⟨s2, heq, ha⟩ := assignOpResume c hop g (j :: t2) s
      rw [heq, iht _ hst s2, ha]
      omega

end BL

namespace BL

set_option maxHeartbeats 1600000
set_option maxRecDepth 200000

/-! ## Concrete instances used to exercise the theorems -/

/-- A platform with no spare and no reserved bits. -/
def abi0 : ABI := ⟨0, 0⟩

/-- A trivial external type: every delegated witness leaves memory as is. -/
def tm0 : TypeMeta :=
  ⟨0, 8, 0, true, fun _ _ _ => 0, fun m _ _ _ => m,
    fun m _ _ => m, fun m _ _ => m, fun m _ _ => m, fun m _ _ => m⟩

/-- Runtime collaborators that leave memory as is. -/
def rt0 : RT :=
  ⟨fun m _ _ => m, fun m _ _ => m, fun m _ _ => m, fun m _ _ => m,
    fun m _ _ => m, fun m _ _ => m, fun m _ _ => m, fun w => w, fun _ => tm0⟩

/-- All-zero memory. -/
def mem0 : Mem := fun _ => 0

def ctx0 : Ctx := ⟨abi0, rt0, 0, 0⟩

/-- A one-word native-strong type, not bitwise takable. -/
def mdNS : Metadata := ⟨8, false, [(0, Op.nativeStrong), (0, Op.stop)]⟩

/-- A one-word type whose witness table reports bitwise takable. -/
def mdBT : Metadata := ⟨8, true, [(0, Op.nativeStrong), (0, Op.stop)]⟩

/-- A one-word bridge-object type, not bitwise takable. -/
def mdBridge : Metadata := ⟨8, false, [(0, Op.bridge), (0, Op.stop)]⟩

/-! ## C1 -/

/-- C1: for a well-formed layout (an `End`-terminated stream whose
instruction advances sum to the type's reported size), each top-level
driver's cursor equals `metadata.size` on return; the `initWithTake`
driver runs the interpreter (and so has a cursor) only when the type is
not bitwise takable. -/
theorem C1_cursor_exactness (abi : ABI) (rt : RT) (md : Metadata) (m : Mem)
    (addr dest src : Nat) (hwf : WFStreamP md.layout md.size) :
    (swift_generic_destroy abi rt md m addr).addrOffset = md.size ∧
    (swift_generic_initWithCopy abi rt md m dest src).addrOffset = md.size ∧
    (md.bitwiseTakable = false →
      (swift_generic_initWithTake abi rt md m dest src).addrOffset = md.size) ∧
    (swift_generic_assignWithCopy abi rt md m dest src).addrOffset = md.size := by
  refine ⟨?_, ?_, ?_, ?_⟩
  · have h := destroyStreamAdv ⟨abi, rt, addr, addr⟩ md.layout md.size hwf ⟨0, m, []⟩
    simpa [swift_generic_destroy] using h
  · have h := copyStreamAdv ⟨abi, rt, dest, src⟩ md.layout md.size hwf ⟨0, m, []⟩
    simpa [swift_generic_initWithCopy] using h
  · intro hbt
    have h := takeStreamAdv ⟨abi, rt, dest, src⟩ md.layout md.size hwf ⟨0, m, []⟩
    simp only [swift_generic_initWithTake, hbt, Bool.false_eq_true, if_false]
    simpa using h
  · have h := assignStreamAdv ⟨abi, rt, dest, src⟩ md.layout md.size hwf ⟨0, m, []⟩
    simpa [swift_generic_assignWithCopy] using h

theorem C1_cursor_exactness_witness :
    WFStreamP mdNS.layout mdNS.size ∧
    ((swift_generic_destroy abi0 rt0 mdNS mem0 0).addrOffset = mdNS.size ∧
     (swift_generic_initWithCopy abi0 rt0 mdNS mem0 0 0).addrOffset = mdNS.size ∧
     (mdNS.bitwiseTakable = false →
       (swift_generic_initWithTake abi0 rt0 mdNS mem0 0 0).addrOffset = mdNS.size) ∧
     (swift_generic_assignWithCopy abi0 rt0 mdNS mem0 0 0).addrOffset = mdNS.size) := by
  have hwf : WFStreamP mdNS.layout mdNS.size := by
    show WFStreamP [(0, Op.nativeStrong), (0, Op.stop)] 8
    simp only [WFStreamP]
    refine ⟨8, 0, ?_, ?_, ?_⟩ <;> simp [WFOpP, WFStreamP]
  exact ⟨hwf, C1_cursor_exactness abi0 rt0 mdNS mem0 0 0 0 hwf⟩

/-! ## C5 -/

/-- C5: when the witness table reports bitwise takable, `initWithTake`
is exactly `memcpy(dest, src, size)`: destination bytes take the
source's original bytes, all other bytes are untouched, and no
collaborator call is made. -/
theorem C5_take_bitwise_takable (abi : ABI) (rt : RT) (md : Metadata) (m : Mem)
    (dest src : Nat) (h : md.bitwiseTakable = true) :
    (swift_generic_initWithTake abi rt md m dest src).mem = memcpy m dest src md.size ∧
    (∀ i, i < md.size →
      (swift_generic_initWithTake abi rt md m dest src).mem (dest + i) = m (src + i)) ∧
    (∀ a, a < dest ∨ dest + md.size ≤ a →
      (swift_generic_initWithTake abi rt md m dest src).mem a = m a) ∧
    (swift_generic_initWithTake abi rt md m dest src).events = [] := by
  have hmem : (swift_generic_initWithTake abi rt md m dest src).mem
      = memcpy m dest src md.size := by
    simp [swift_generic_initWithTake, h]
  have hev : (swift_generic_initWithTake abi rt md m dest src).events = [] := by
    simp [swift_generic_initWithTake, h]
  refine ⟨hmem, ?_, ?_, hev⟩
  · intro i hi
    rw [hmem]
    simp only [memcpy]
    rw [if_pos ⟨Nat.le_add_right _ _, by omega⟩]
    congr 1
    omega
  · intro a ha
    rw [hmem]
    simp only [memcpy]
    rw [if_neg (by omega)]

theorem C5_take_bitwise_takable_witness :
    mdBT.bitwiseTakable = true ∧
    ((swift_generic_initWithTake abi0 rt0 mdBT mem0 100 0).mem = memcpy mem0 100 0 mdBT.size ∧
     (∀ i, i < mdBT.size →
       (swift_generic_initWithTake abi0 rt0 mdBT mem0 100 0).mem (100 + i) = mem0 (0 + i)) ∧
     (∀ a, a < 100 ∨ 100 + mdBT.size ≤ a →
       (swift_generic_initWithTake abi0 rt0 mdBT mem0 100 0).mem a = mem0 a) ∧
     (swift_generic_initWithTake abi0 rt0 mdBT mem0 100 0).events = []) :=
  ⟨rfl, C5_take_bitwise_takable abi0 rt0 mdBT mem0 100 0 rfl⟩

/-! ## C6 -/

/-- C6: the ObjCStrong primitives of every flavor skip the collaborator
call entirely for a side whose raw word has the ABI reserved bits set,
and otherwise pass that side's word masked with the spare-bits mask; the
NativeStrong and Unowned primitives of every flavor always pass the
spare-masked word (destroy reads the dest side, the copy flavor the
source side, and the assign flavor retires the masked dest word then
retains the masked source word). -/
theorem C6_spare_reserved_masking (c : Ctx) (s : S) :
    ((objcStrongDestroyBranchless c s).events
      = s.events ++
        (if readLE s.mem (c.dest + s.addrOffset) 8 &&& c.abi.reserved % 2 ^ 64 ≠ 0 then []
         else [.objcRelease (maskSpare c.abi (readLE s.mem (c.dest + s.addrOffset) 8))])) ∧
    ((objcStrongRetainBranchless c s).events
      = s.events ++
        (if readLE s.mem (c.src + s.addrOffset) 8 &&& c.abi.reserved % 2 ^ 64 ≠ 0 then []
         else [.objcRetain (maskSpare c.abi (readLE s.mem (c.src + s.addrOffset) 8))])) ∧
    ((objcStrongAssignWithCopy c s).events
      = s.events ++
        (if readLE s.mem (c.dest + s.addrOffset) 8 &&& c.abi.reserved % 2 ^ 64 ≠ 0 then []
         else [.objcRelease (maskSpare c.abi (readLE s.mem (c.dest + s.addrOffset) 8))]) ++
        (if readLE s.mem (c.src + s.addrOffset) 8 &&& c.abi.reserved % 2 ^ 64 ≠ 0 then []
         else [.objcRetain (maskSpare c.abi (readLE s.mem (c.src + s.addrOffset) 8))])) ∧
    ((nativeStrongDestroyBranchless c s).events
      = s.events ++ [.release (maskSpare c.abi (readLE s.mem (c.dest + s.addrOffset) 8))]) ∧
    ((nativeStrongRetainBranchless c s).events
      = s.events ++ [.retain (maskSpare c.abi (readLE s.mem (c.src + s.addrOffset) 8))]) ∧
    ((unownedDestroyBranchless c s).events
      = s.events ++
        [.unownedRelease (maskSpare c.abi (readLE s.mem (c.dest + s.addrOffset) 8))]) ∧
    ((unownedRetainBranchless c s).events
      = s.events ++
        [.unownedRetain (maskSpare c.abi (readLE s.mem (c.src + s.addrOffset) 8))]) ∧
    ((nativeStrongAssignWithCopy c s).events
      = s.events ++
        [.release (maskSpare c.abi (readLE s.mem (c.dest + s.addrOffset) 8)),
         .retain (maskSpare c.abi (readLE s.mem (c.src + s.addrOffset) 8))]) ∧
    ((unownedAssignWithCopy c s).events
      = s.events ++
        [.unownedRelease (maskSpare c.abi (readLE s.mem (c.dest + s.addrOffset) 8)),
         .unownedRetain (maskSpare c.abi (readLE s.mem (c.src + s.addrOffset) 8))]) := by
  refine ⟨?_, ?_, ?_, rfl, rfl, rfl, rfl, rfl, rfl⟩
  · simp only [objcStrongDestroyBranchless]
    try (split <;> (try split) <;> simp)
  · simp only [objcStrongRetainBranchless]
    try (split <;> (try split) <;> simp)
  · simp only [objcStrongAssignWithCopy]
    try (split <;> (try split) <;> simp)

/-! ## C7 -/

/-- C7: each single-payload enum instruction of the destroy traversal
dispatches on the extracted tag: the payload case (tag `0` for the
function-pointer forms, the embedded payload test otherwise) falls
through into the nested sub-stream with memory, cursor gap, and call
trace untouched; any other tag resumes after the enum with `addrOffset`
advanced by the instruction's skip parameter, no byte written and no
reference primitive invoked. -/
theorem C7_single_payload_dispatch (c : Ctx) (g : Nat) (rest : List Inst) (s : S) :
    (∀ bco pS zv xiVals sub skipBytes,
      handleRefCountsDestroy c
          ((g, Op.singlePayloadEnumSimple bco pS zv xiVals sub skipBytes) :: rest) s
        = if spSimpleIsPayload bco pS zv xiVals s.mem (c.dest + (s.addrOffset + g)) then
            handleRefCountsDestroy c (sub ++ rest) ⟨s.addrOffset + g, s.mem, s.events⟩
          else
            handleRefCountsDestroy c rest ⟨s.addrOffset + g + skipBytes, s.mem, s.events⟩) ∧
    (∀ (f : Mem → Nat → Nat) sub skipBytes,
      handleRefCountsDestroy c ((g, Op.singlePayloadEnumFN f sub skipBytes) :: rest) s
        = if f s.mem (c.dest + (s.addrOffset + g)) = 0 then
            handleRefCountsDestroy c (sub ++ rest) ⟨s.addrOffset + g, s.mem, s.events⟩
          else
            handleRefCountsDestroy c rest ⟨s.addrOffset + g + skipBytes, s.mem, s.events⟩) ∧
    (∀ (f : Mem → Nat → Nat) sub skipBytes,
      handleRefCountsDestroy c ((g, Op.singlePayloadEnumFNResolved f sub skipBytes) :: rest) s
        = if f s.mem (c.dest + (s.addrOffset + g)) = 0 then
            handleRefCountsDestroy c (sub ++ rest) ⟨s.addrOffset + g, s.mem, s.events⟩
          else
            handleRefCountsDestroy c rest ⟨s.addrOffset + g + skipBytes, s.mem, s.events⟩) ∧
    (∀ tbo pS xiT nec sub skipBytes,
      handleRefCountsDestroy c
          ((g, Op.singlePayloadEnumGeneric tbo pS xiT nec sub skipBytes) :: rest) s
        = if spGenericIsPayload tbo pS xiT nec s.mem (c.dest + (s.addrOffset + g)) then
            handleRefCountsDestroy c (sub ++ rest) ⟨s.addrOffset + g, s.mem, s.events⟩
          else
            handleRefCountsDestroy c rest ⟨s.addrOffset + g + skipBytes, s.mem, s.events⟩) := by
  refine ⟨?_, ?_, ?_, ?_⟩ <;> intros <;> rw [handleRefCountsDestroy] <;> rfl

/-! ## C8 -/

/-- `true` exactly on the seven enum instruction forms. -/
def Op.isEnum : Op → Bool
  | .singlePayloadEnumSimple _ _ _ _ _ _ => true
  | .singlePayloadEnumFN _ _ _ => true
  | .singlePayloadEnumFNResolved _ _ _ => true
  | .singlePayloadEnumGeneric _ _ _ _ _ _ => true
  | .multiPayloadEnumFN _ _ _ => true
  | .multiPayloadEnumFNResolved _ _ _ => true
  | .multiPayloadEnumGeneric _ _ _ => true
  | _ => false

/-- The in-value footprint an enum instruction encodes: `skip` for the
single-payload forms, `enumSize` for the multi-payload forms. -/
def Op.enumAdvance : Op → Nat
  | .singlePayloadEnumSimple _ _ _ _ _ skipBytes => skipBytes
  | .singlePayloadEnumFN _ _ skipBytes => skipBytes
  | .singlePayloadEnumFNResolved _ _ skipBytes => skipBytes
  | .singlePayloadEnumGeneric _ _ _ _ _ skipBytes => skipBytes
  | .multiPayloadEnumFN _ _ sz => sz
  | .multiPayloadEnumFNResolved _ _ sz => sz
  | .multiPayloadEnumGeneric _ _ sz => sz
  | _ => 0

/-- C8: a well-formed enum instruction, in every traversal flavor and on
every dispatch path the flavor takes, hands the rest of the stream a
state whose cursor sits exactly `enumSize` (the skip parameter for
single-payload forms) past the enum's start. -/
theorem C8_enum_handler_advance (c : Ctx) (op : Op) (k : Nat) (he : op.isEnum = true)
    (hwf : WFOpP op k) (g : Nat) (rest : List Inst) (s : S) :
    (∃ s2, handleRefCountsDestroy c ((g, op) :: rest) s
        = handleRefCountsDestroy c rest s2 ∧
      s2.addrOffset = s.addrOffset + g + op.enumAdvance) ∧
    (∃ s2, handleRefCountsInitWithCopy c ((g, op) :: rest) s
        = handleRefCountsInitWithCopy c rest s2 ∧
      s2.addrOffset = s.addrOffset + g + op.enumAdvance) ∧
    (∃ s2, handleRefCountsInitWithTake c ((g, op) :: rest) s
        = handleRefCountsInitWithTake c rest s2 ∧
      s2.addrOffset = s.addrOffset + g + op.enumAdvance) ∧
    (∃ s2, handleRefCountsAssignWithCopy c ((g, op) :: rest) s
        = handleRefCountsAssignWithCopy c rest s2 ∧
      s2.addrOffset = s.addrOffset + g + op.enumAdvance) := by
  have hk : k = op.enumAdvance := by
    cases op
    case stop => rw [WFOpP] at hwf; exact hwf.elim
    all_goals
      first
      | (rw [WFOpP] at hwf
         simp only [Op.enumAdvance]
         first
         | exact hwf.1
         | exact hwf)
      | simp only [Op.isEnum, Bool.false_eq_true] at he
  subst hk
  refine ⟨?_, ?_, ?_, ?_⟩
  · obtain ⟨s2, heq, ha, -⟩ := destroyOpResume c hwf g rest s
    exact ⟨s2, heq, ha⟩
  · exact copyOpResume c hwf g rest s
  · exact takeOpResume c hwf g rest s
  · exact assignOpResume c hwf g rest s

theorem C8_enum_handler_advance_witness :
    (Op.singlePayloadEnumSimple 0 0 0 0 [(0, Op.nativeStrong)] 8).isEnum = true ∧
    WFOpP (Op.singlePayloadEnumSimple 0 0 0 0 [(0, Op.nativeStrong)] 8) 8 ∧
    ((∃ s2, handleRefCountsDestroy ctx0
          ((0, Op.singlePayloadEnumSimple 0 0 0 0 [(0, Op.nativeStrong)] 8) :: []) ⟨0, mem0, []⟩
        = handleRefCountsDestroy ctx0 [] s2 ∧
      s2.addrOffset = 0 + 0 +
        (Op.singlePayloadEnumSimple 0 0 0 0 [(0, Op.nativeStrong)] 8).enumAdvance) ∧
     (∃ s2, handleRefCountsInitWithCopy ctx0
          ((0, Op.singlePayloadEnumSimple 0 0 0 0 [(0, Op.nativeStrong)] 8) :: []) ⟨0, mem0, []⟩
        = handleRefCountsInitWithCopy ctx0 [] s2 ∧
      s2.addrOffset = 0 + 0 +
        (Op.singlePayloadEnumSimple 0 0 0 0 [(0, Op.nativeStrong)] 8).enumAdvance) ∧
     (∃ s2, handleRefCountsInitWithTake ctx0
          ((0, Op.singlePayloadEnumSimple 0 0 0 0 [(0, Op.nativeStrong)] 8) :: []) ⟨0, mem0, []⟩
        = handleRefCountsInitWithTake ctx0 [] s2 ∧
      s2.addrOffset = 0 + 0 +
        (Op.singlePayloadEnumSimple 0 0 0 0 [(0, Op.nativeStrong)] 8).enumAdvance) ∧
     (∃ s2, handleRefCountsAssignWithCopy ctx0
          ((0, Op.singlePayloadEnumSimple 0 0 0 0 [(0, Op.nativeStrong)] 8) :: []) ⟨0, mem0, []⟩
        = handleRefCountsAssignWithCopy ctx0 [] s2 ∧
      s2.addrOffset = 0 + 0 +
        (Op.singlePayloadEnumSimple 0 0 0 0 [(0, Op.nativeStrong)] 8).enumAdvance)) := by
  have hwf : WFOpP (Op.singlePayloadEnumSimple 0 0 0 0 [(0, Op.nativeStrong)] 8) 8 := by
    rw [WFOpP]
    refine ⟨rfl, ?_⟩
    rw [WFSubP]
    exact ⟨8, 0, by rw [WFOpP], by rw [WFSubP], rfl⟩
  exact ⟨rfl, hwf,
    C8_enum_handler_advance ctx0 (Op.singlePayloadEnumSimple 0 0 0 0 [(0, Op.nativeStrong)] 8)
      8 rfl hwf 0 [] ⟨0, mem0, []⟩⟩

/-! ## C10 -/

theorem ReleasesOnly_nil : ReleasesOnly [] := by
  intro e he
  cases he

/-- C10: the destroy driver and its array variant never write the
value's storage — the returned memory is the input memory — and their
whole call trace is release-flavored collaborator calls only. -/
theorem C10_destroy_frame (abi : ABI) (rt : RT) (md : Metadata) (m : Mem)
    (addr stride count : Nat) :
    (swift_generic_destroy abi rt md m addr).mem = m ∧
    ReleasesOnly (swift_generic_destroy abi rt md m addr).events ∧
    (swift_generic_arrayDestroy abi rt md m addr stride count).mem = m ∧
    ReleasesOnly (swift_generic_arrayDestroy abi rt md m addr stride count).events := by
  refine ⟨?_, ?_, ?_, ?_⟩
  · exact handleRefCountsDestroy_mem _ _ _
  · exact handleRefCountsDestroy_releases _ _ _ ReleasesOnly_nil
  · induction count with
    | zero => rfl
    | succ n ih =>
      show (handleRefCountsDestroy _ _ _).mem = m
      rw [handleRefCountsDestroy_mem]
      exact ih
  · induction count with
    | zero => exact ReleasesOnly_nil
    | succ n ih =>
      show ReleasesOnly (handleRefCountsDestroy _ _ _).events
      exact handleRefCountsDestroy_releases _ _ _ ih

end BL

namespace BL

set_option maxHeartbeats 1600000
set_option maxRecDepth 200000

/-! ## C3 -/

/-- C3: the take table routes `Bridge` to `bridgeRetainBranchless`, so
`initWithTake` over a one-`Bridge` (non-bitwise-takable) layout calls
`swift_bridgeObjectRetain` on the traversed word: the trace is exactly
one bridge retain and the bridge word's net refcount change is `+1`,
where the claim requires take to leave every reference at `r` (net `0`). -/
theorem C3_take_bridge_retains (abi : ABI) (rt : RT) (m : Mem) (dest src : Nat) :
    (swift_generic_initWithTake abi rt mdBridge m dest src).events
      = [Event.bridgeRetain (readLE m src 8)] ∧
    rcDelta (swift_generic_initWithTake abi rt mdBridge m dest src).events
      RefCat.bridge (readLE m src 8) = 1 := by
  have hev : (swift_generic_initWithTake abi rt mdBridge m dest src).events
      = [Event.bridgeRetain (readLE m src 8)] := by
    rw [swift_generic_initWithTake]
    simp only [mdBridge, Bool.false_eq_true, if_false]
    rw [handleRefCountsInitWithTake]
    rw [handleRefCountsInitWithTake]
    simp [bridgeRetainBranchless, memcpy_zero]
  refine ⟨hev, ?_⟩
  rw [hev]
  simp [rcDelta, evDelta]

/-! ## C9 -/

theorem resolveListIdemAux :
    ∀ N : Nat, ∀ l : List Inst, sizeOf l ≤ N →
      resolveList (resolveList l) = resolveList l := by
  intro N
  induction N using Nat.strong_induction_on with
  | _ N ih =>
    intro l hsz
    cases l with
    | nil => simp [resolveList]
    | cons i rest =>
      obtain ⟨g, op⟩ := i
      have hr : sizeOf rest < N := by
        have : sizeOf rest < sizeOf ((g, op) :: rest) := by
          simp only [List.cons.sizeOf_spec, Prod.mk.sizeOf_spec]; omega
        omega
      cases op
      case stop => simp only [resolveList]
      case error | nativeStrong | unowned | weak | unknown | unknownUnowned
        | unknownWeak | bridge | block | objcStrong | existential =>
        simp only [resolveList, resolveOp]
        rw [ih (sizeOf rest) hr rest (Nat.le_refl _)]
      case metatype t =>
        simp only [resolveList, resolveOp]
        rw [ih (sizeOf rest) hr rest (Nat.le_refl _)]
      case resilient t =>
        simp only [resolveList, resolveOp]
        rw [ih (sizeOf rest) hr rest (Nat.le_refl _)]
      case singlePayloadEnumSimple bco pS zv xiVals sub skipBytes =>
        have hs : sizeOf sub < N := by
          have : sizeOf sub < sizeOf ((g,
              Op.singlePayloadEnumSimple bco pS zv xiVals sub skipBytes) :: rest) := by
            simp only [List.cons.sizeOf_spec, Prod.mk.sizeOf_spec,
              Op.singlePayloadEnumSimple.sizeOf_spec]
            omega
          omega
        simp only [resolveList, resolveOp]
        rw [ih (sizeOf rest) hr rest (Nat.le_refl _),
          ih (sizeOf sub) hs sub (Nat.le_refl _)]
      case singlePayloadEnumFN f sub skipBytes =>
        have hs : sizeOf sub < N := by
          have : sizeOf sub < sizeOf ((g,
              Op.singlePayloadEnumFN f sub skipBytes) :: rest) := by
            simp only [List.cons.sizeOf_spec, Prod.mk.sizeOf_spec,
              Op.singlePayloadEnumFN.sizeOf_spec]
            omega
          omega
        simp only [resolveList, resolveOp]
        rw [ih (sizeOf rest) hr rest (Nat.le_refl _),
          ih (sizeOf sub) hs sub (Nat.le_refl _)]
      case singlePayloadEnumFNResolved f sub skipBytes =>
        have hs : sizeOf sub < N := by
          have : sizeOf sub < sizeOf ((g,
              Op.singlePayloadEnumFNResolved f sub skipBytes) :: rest) := by
            simp only [List.cons.sizeOf_spec, Prod.mk.sizeOf_spec,
              Op.singlePayloadEnumFNResolved.sizeOf_spec]
            omega
          omega
        simp only [resolveList, resolveOp]
        rw [ih (sizeOf rest) hr rest (Nat.le_refl _),
          ih (sizeOf sub) hs sub (Nat.le_refl _)]
      case singlePayloadEnumGeneric tbo pS xiT nec sub skipBytes =>
        simp only [resolveList, resolveOp]
        rw [ih (sizeOf rest) hr rest (Nat.le_refl _)]
      case multiPayloadEnumFN f ps sz =>
        simp only [resolveList, resolveOp]
        rw [ih (sizeOf rest) hr rest (Nat.le_refl _)]
      case multiPayloadEnumFNResolved f ps sz =>
        simp only [resolveList, resolveOp]
        rw [ih (sizeOf rest) hr rest (Nat.le_refl _)]
      case multiPayloadEnumGeneric tb ps sz =>
        simp only [resolveList, resolveOp]
        rw [ih (sizeOf rest) hr rest (Nat.le_refl _)]

/-- C9: the resolution pass is idempotent — a second run over its own
output (which walks the same instructions, re-enters single-payload
inline sub-streams, and finds the FN forms already in their Resolved
forms) returns its input unchanged. -/
theorem C9_resolve_idempotent (l : List Inst) :
    swift_resolve_resilientAccessors (swift_resolve_resilientAccessors l)
      = swift_resolve_resilientAccessors l :=
  resolveListIdemAux (sizeOf l) l (Nat.le_refl _)

end BL

namespace BL

set_option maxHeartbeats 1600000
set_option maxRecDepth 200000

/-! ## Self-assignment: collaborator neutrality

The interpreter's collaborators are black boxes; `assignWithCopy(p, p)`
can only leave memory and counts unchanged if the collaborators
themselves do on a self-call.  `TMSelfNeutral` states that for a
delegated type's witnesses, `RTSelfNeutral` for the runtime entry
points.  `ListTN` pushes `TMSelfNeutral` to every type embedded in a
layout, through single-payload sub-streams and multi-payload payload
streams alike. -/

structure TMSelfNeutral (t : TypeMeta) : Prop where
  copySelf : ∀ m a, t.initWithCopyFn m a a = m
  assignSelf : ∀ m a, t.assignWithCopyFn m a a = m

structure RTSelfNeutral (rt : RT) : Prop where
  weakInit : ∀ m a, rt.weakCopyInit m a a = m
  weakAssign : ∀ m a, rt.weakCopyAssign m a a = m
  uuInit : ∀ m a, rt.unknownUnownedCopyInit m a a = m
  uuAssign : ∀ m a, rt.unknownUnownedCopyAssign m a a = m
  uwInit : ∀ m a, rt.unknownWeakCopyInit m a a = m
  uwAssign : ∀ m a, rt.unknownWeakCopyAssign m a a = m
  blockId : ∀ w, rt.blockCopyFn w = w
  mtabCopy : ∀ w m a, (rt.mtab w).initWithCopyFn m a a = m
  mtabAssign : ∀ w m a, (rt.mtab w).assignWithCopyFn m a a = m
  mtabBuffer : ∀ w m a, (rt.mtab w).bufferInitFn m a a = m

mutual

def OpTN : Op → Prop
  | .metatype t => TMSelfNeutral t
  | .resilient t => TMSelfNeutral t
  | .singlePayloadEnumSimple _ _ _ _ sub _ => ListTN sub
  | .singlePayloadEnumFN _ sub _ => ListTN sub
  | .singlePayloadEnumFNResolved _ sub _ => ListTN sub
  | .singlePayloadEnumGeneric _ _ _ _ sub _ => ListTN sub
  | .multiPayloadEnumFN _ ps _ => PayloadsTN ps
  | .multiPayloadEnumFNResolved _ ps _ => PayloadsTN ps
  | .multiPayloadEnumGeneric _ ps _ => PayloadsTN ps
  | _ => True

def ListTN : List Inst → Prop
  | [] => True
  | (_, op) :: rest => OpTN op ∧ ListTN rest

def PayloadsTN : List (List Inst) → Prop
  | [] => True
  | p :: rest => ListTN p ∧ PayloadsTN rest

end

theorem ListTN_append : ∀ {l1 l2 : List Inst}, ListTN l1 → ListTN l2 → ListTN (l1 ++ l2) := by
  intro l1
  induction l1 with
  | nil =>
    intro l2 _ h2
    simpa using h2
  | cons i t ihl =>
    intro l2 h1 h2
    obtain ⟨g, op⟩ := i
    rw [ListTN] at h1
    rw [List.cons_append, ListTN]
    exact ⟨h1.1, ihl h1.2 h2⟩

theorem PayloadsTN_get : ∀ {ps : List (List Inst)}, PayloadsTN ps →
    ∀ (i : Nat) (h : i < ps.length), ListTN (ps.get ⟨i, h⟩)
  | [], _, i, hi => absurd hi (by simp)
  | p :: rest, h, 0, hi => by
    rw [PayloadsTN] at h
    exact h.1
  | p :: rest, h, i + 1, hi => by
    rw [PayloadsTN] at h
    exact PayloadsTN_get h.2 i (by simpa using Nat.lt_of_succ_lt_succ hi)

end BL

namespace BL

set_option maxHeartbeats 1600000
set_option maxRecDepth 200000

/-- With self-neutral collaborators, an `initWithCopy` traversal whose
destination is its source writes nothing: every gap copy and reference
store copies a byte range onto itself. -/
theorem copySelfMemAux (c : Ctx) (hq : c.dest = c.src) (hrt : RTSelfNeutral c.rt) :
    ∀ N : Nat, ∀ l : List Inst, sizeOf l ≤ N → ∀ s : S, Bytes s.mem → ListTN l →
      (handleRefCountsInitWithCopy c l s).mem = s.mem := by
  intro N
  induction N using Nat.strong_induction_on with
  | _ N ih =>
    intro l hsz s hB hTN
    cases l with
    | nil => rw [handleRefCountsInitWithCopy]
    | cons i rest =>
      obtain ⟨g, op⟩ := i
      rw [ListTN] at hTN
      obtain ⟨hop, hTNr⟩ := hTN
      have hr : sizeOf rest < N := by
        have : sizeOf rest < sizeOf ((g, op) :: rest) := by
          simp only [List.cons.sizeOf_spec, Prod.mk.sizeOf_spec]; omega
        omega
      cases op
      case stop =>
        rw [handleRefCountsInitWithCopy]
        simp only [hq, memcpy_self]
      case error =>
        rw [handleRefCountsInitWithCopy]
        simp only [errorRetainBranchless, hq, memcpy_self]
        exact ih (sizeOf rest) hr rest (Nat.le_refl _) _ hB hTNr
      case nativeStrong =>
        rw [handleRefCountsInitWithCopy]
        simp only [nativeStrongRetainBranchless, hq, memcpy_self]
        exact ih (sizeOf rest) hr rest (Nat.le_refl _) _ hB hTNr
      case unowned =>
        rw [handleRefCountsInitWithCopy]
        simp only [unownedRetainBranchless, hq, memcpy_self]
        exact ih (sizeOf rest) hr rest (Nat.le_refl _) _ hB hTNr
      case weak =>
        rw [handleRefCountsInitWithCopy]
        simp only [weakCopyInitBranchless, hq, memcpy_self, hrt.weakInit]
        exact ih (sizeOf rest) hr rest (Nat.le_refl _) _ hB hTNr
      case unknown =>
        rw [handleRefCountsInitWithCopy]
        simp only [unknownRetainBranchless, hq, memcpy_self]
        exact ih (sizeOf rest) hr rest (Nat.le_refl _) _ hB hTNr
      case unknownUnowned =>
        rw [handleRefCountsInitWithCopy]
        simp only [unknownUnownedCopyInitBranchless, hq, memcpy_self, hrt.uuInit]
        exact ih (sizeOf rest) hr rest (Nat.le_refl _) _ hB hTNr
      case unknownWeak =>
        rw [handleRefCountsInitWithCopy]
        simp only [unknownWeakCopyInitBranchless, hq, memcpy_self, hrt.uwInit]
        exact ih (sizeOf rest) hr rest (Nat.le_refl _) _ hB hTNr
      case bridge =>
        rw [handleRefCountsInitWithCopy]
        simp only [bridgeRetainBranchless, hq, memcpy_self]
        exact ih (sizeOf rest) hr rest (Nat.le_refl _) _ hB hTNr
      case block =>
        rw [handleRefCountsInitWithCopy]
        simp only [blockCopyBranchless, hq, memcpy_self, hrt.blockId]
        rw [writeLE_readLE_self _ _ _ hB]
        exact ih (sizeOf rest) hr rest (Nat.le_refl _) _ hB hTNr
      case objcStrong =>
        rw [handleRefCountsInitWithCopy]
        simp only [objcStrongRetainBranchless, hq, memcpy_self]
        split <;> exact ih (sizeOf rest) hr rest (Nat.le_refl _) _ hB hTNr
      case metatype t =>
        rw [OpTN] at hop
        rw [handleRefCountsInitWithCopy]
        simp only [metatypeInitWithCopyBranchless, hq, memcpy_self, hop.copySelf]
        exact ih (sizeOf rest) hr rest (Nat.le_refl _) _ hB hTNr
      case resilient t =>
        rw [OpTN] at hop
        rw [handleRefCountsInitWithCopy]
        simp only [resilientInitWithCopyBranchless, hq, memcpy_self, hop.copySelf]
        exact ih (sizeOf rest) hr rest (Nat.le_refl _) _ hB hTNr
      case existential =>
        rw [handleRefCountsInitWithCopy]
        simp only [existentialInitWithCopyBranchless, hq, memcpy_self, hrt.mtabBuffer]
        split <;> exact ih (sizeOf rest) hr rest (Nat.le_refl _) _ hB hTNr
      case singlePayloadEnumSimple bco pS zv xiVals sub skipBytes =>
        rw [OpTN] at hop
        have hsr : sizeOf (sub ++ rest) < N := by
          have hA := sizeOf_list_append sub rest
          simp only [List.cons.sizeOf_spec, Prod.mk.sizeOf_spec,
            Op.singlePayloadEnumSimple.sizeOf_spec] at hsz
          omega
        rw [handleRefCountsInitWithCopy]
        simp only [hq, memcpy_self]
        split
        · exact ih (sizeOf (sub ++ rest)) hsr (sub ++ rest) (Nat.le_refl _) _ hB
            (ListTN_append hop hTNr)
        · exact ih (sizeOf rest) hr rest (Nat.le_refl _) _ hB hTNr
      case singlePayloadEnumFN f sub skipBytes =>
        rw [OpTN] at hop
        have hsr : sizeOf (sub ++ rest) < N := by
          have hA := sizeOf_list_append sub rest
          simp only [List.cons.sizeOf_spec, Prod.mk.sizeOf_spec,
            Op.singlePayloadEnumFN.sizeOf_spec] at hsz
          omega
        rw [handleRefCountsInitWithCopy]
        simp only [hq, memcpy_self]
        split
        · exact ih (sizeOf (sub ++ rest)) hsr (sub ++ rest) (Nat.le_refl _) _ hB
            (ListTN_append hop hTNr)
        · exact ih (sizeOf rest) hr rest (Nat.le_refl _) _ hB hTNr
      case singlePayloadEnumFNResolved f sub skipBytes =>
        rw [OpTN] at hop
        have hsr : sizeOf (sub ++ rest) < N := by
          have hA := sizeOf_list_append sub rest
          simp only [List.cons.sizeOf_spec, Prod.mk.sizeOf_spec,
            Op.singlePayloadEnumFNResolved.sizeOf_spec] at hsz
          omega
        rw [handleRefCountsInitWithCopy]
        simp only [hq, memcpy_self]
        split
        · exact ih (sizeOf (sub ++ rest)) hsr (sub ++ rest) (Nat.le_refl _) _ hB
            (ListTN_append hop hTNr)
        · exact ih (sizeOf rest) hr rest (Nat.le_refl _) _ hB hTNr
      case singlePayloadEnumGeneric tbo pS xiT nec sub skipBytes =>
        rw [OpTN] at hop
        have hsr : sizeOf (sub ++ rest) < N := by
          have hA := sizeOf_list_append sub rest
          simp only [List.cons.sizeOf_spec, Prod.mk.sizeOf_spec,
            Op.singlePayloadEnumGeneric.sizeOf_spec] at hsz
          omega
        rw [handleRefCountsInitWithCopy]
        simp only [hq, memcpy_self]
        split
        · exact ih (sizeOf (sub ++ rest)) hsr (sub ++ rest) (Nat.le_refl _) _ hB
            (ListTN_append hop hTNr)
        · exact ih (sizeOf rest) hr rest (Nat.le_refl _) _ hB hTNr
      case multiPayloadEnumFN f ps sz =>
        rw [OpTN] at hop
        rw [handleRefCountsInitWithCopy]
        simp only [hq, memcpy_self]
        split
        case isTrue htag =>
          have hplt : sizeOf (ps.get ⟨_, htag⟩) < N := by
            have := sizeOf_list_get_lt ps ⟨_, htag⟩
            simp only [List.cons.sizeOf_spec, Prod.mk.sizeOf_spec,
              Op.multiPayloadEnumFN.sizeOf_spec] at hsz
            omega
          have hnest : (handleRefCountsInitWithCopy c (ps.get ⟨_, htag⟩)
              ⟨s.addrOffset + g, s.mem, s.events⟩).mem = s.mem :=
            ih (sizeOf (ps.get ⟨_, htag⟩)) hplt _ (Nat.le_refl _) _ hB
              (PayloadsTN_get hop _ htag)
          rw [ih (sizeOf rest) hr rest (Nat.le_refl _) _ (by rw [hnest]; exact hB)
            (by exact hTNr)]
          exact hnest
        case isFalse htag =>
          exact ih (sizeOf rest) hr rest (Nat.le_refl _) _ hB hTNr
      case multiPayloadEnumFNResolved f ps sz =>
        rw [OpTN] at hop
        rw [handleRefCountsInitWithCopy]
        simp only [hq, memcpy_self]
        split
        case isTrue htag =>
          have hplt : sizeOf (ps.get ⟨_, htag⟩) < N := by
            have := sizeOf_list_get_lt ps ⟨_, htag⟩
            simp only [List.cons.sizeOf_spec, Prod.mk.sizeOf_spec,
              Op.multiPayloadEnumFNResolved.sizeOf_spec] at hsz
            omega
          have hnest : (handleRefCountsInitWithCopy c (ps.get ⟨_, htag⟩)
              ⟨s.addrOffset + g, s.mem, s.events⟩).mem = s.mem :=
            ih (sizeOf (ps.get ⟨_, htag⟩)) hplt _ (Nat.le_refl _) _ hB
              (PayloadsTN_get hop _ htag)
          rw [ih (sizeOf rest) hr rest (Nat.le_refl _) _ (by rw [hnest]; exact hB)
            (by exact hTNr)]
          exact hnest
        case isFalse htag =>
          exact ih (sizeOf rest) hr rest (Nat.le_refl _) _ hB hTNr
      case multiPayloadEnumGeneric tb ps sz =>
        rw [OpTN] at hop
        rw [handleRefCountsInitWithCopy]
        simp only [hq, memcpy_self]
        split
        case isTrue htag =>
          have hplt : sizeOf (ps.get ⟨_, htag⟩) < N := by
            have := sizeOf_list_get_lt ps ⟨_, htag⟩
            simp only [List.cons.sizeOf_spec, Prod.mk.sizeOf_spec,
              Op.multiPayloadEnumGeneric.sizeOf_spec] at hsz
            omega
          have hnest : (handleRefCountsInitWithCopy c (ps.get ⟨_, htag⟩)
              ⟨s.addrOffset + g, s.mem, s.events⟩).mem = s.mem :=
            ih (sizeOf (ps.get ⟨_, htag⟩)) hplt _ (Nat.le_refl _) _ hB
              (PayloadsTN_get hop _ htag)
          rw [ih (sizeOf rest) hr rest (Nat.le_refl _) _ (by rw [hnest]; exact hB)
            (by exact hTNr)]
          exact hnest
        case isFalse htag =>
          exact ih (sizeOf rest) hr rest (Nat.le_refl _) _ hB hTNr

end BL

namespace BL

set_option maxHeartbeats 1600000
set_option maxRecDepth 200000

/-- One pass of `initWithCopy` and one pass of destroy over the same
layout, same start offset, and same (byte-valued) memory, with
destination equal to source: every retain the copy pass logs is matched
by the release the destroy pass logs for that field, so the two traces'
net counts cancel for every reference family and word. -/
theorem destroyCopyCancel (c : Ctx) (hq : c.dest = c.src) (hrt : RTSelfNeutral c.rt) :
    ∀ N : Nat, ∀ l : List Inst, sizeOf l ≤ N →
      ∀ (a : Nat) (m : Mem) (ec ed : List Event), Bytes m → ListTN l →
      ∀ (cat : RefCat) (w : Nat),
      rcDelta (handleRefCountsInitWithCopy c l ⟨a, m, ec⟩).events cat w
        + rcDelta (handleRefCountsDestroy c l ⟨a, m, ed⟩).events cat w
      = rcDelta ec cat w + rcDelta ed cat w := by
  intro N
  induction N using Nat.strong_induction_on with
  | _ N ih =>
    intro l hsz a m ec ed hB hTN cat w
    cases l with
    | nil =>
      rw [handleRefCountsInitWithCopy, handleRefCountsDestroy]
    | cons i rest =>
      obtain ⟨g, op⟩ := i
      rw [ListTN] at hTN
      obtain ⟨hopTN, hTNr⟩ := hTN
      have hr : sizeOf rest < N := by
        have : sizeOf rest < sizeOf ((g, op) :: rest) := by
          simp only [List.cons.sizeOf_spec, Prod.mk.sizeOf_spec]; omega
        omega
      cases op
      case stop =>
        rw [handleRefCountsInitWithCopy, handleRefCountsDestroy]
      case error =>
        rw [handleRefCountsInitWithCopy, handleRefCountsDestroy]
        simp only [errorRetainBranchless, errorDestroyBranchless, hq, memcpy_self]
        rw [ih (sizeOf rest) hr rest (Nat.le_refl _)]
        · rw [rcDelta_append, rcDelta_append]
          simp only [rcDelta, List.map_cons, List.map_nil, List.sum_cons,
            List.sum_nil, evDelta]
          first
          | omega
          | (split <;> (try simp_all) <;> omega)
        · exact hB
        · exact hTNr
      case nativeStrong =>
        rw [handleRefCountsInitWithCopy, handleRefCountsDestroy]
        simp only [nativeStrongRetainBranchless, nativeStrongDestroyBranchless, hq, memcpy_self]
        rw [ih (sizeOf rest) hr rest (Nat.le_refl _)]
        · rw [rcDelta_append, rcDelta_append]
          simp only [rcDelta, List.map_cons, List.map_nil, List.sum_cons,
            List.sum_nil, evDelta]
          first
          | omega
          | (split <;> (try simp_all) <;> omega)
        · exact hB
        · exact hTNr
      case unowned =>
        rw [handleRefCountsInitWithCopy, handleRefCountsDestroy]
        simp only [unownedRetainBranchless, unownedDestroyBranchless, hq, memcpy_self]
        rw [ih (sizeOf rest) hr rest (Nat.le_refl _)]
        · rw [rcDelta_append, rcDelta_append]
          simp only [rcDelta, List.map_cons, List.map_nil, List.sum_cons,
            List.sum_nil, evDelta]
          first
          | omega
          | (split <;> (try simp_all) <;> omega)
        · exact hB
        · exact hTNr
      case weak =>
        rw [handleRefCountsInitWithCopy, handleRefCountsDestroy]
        simp only [weakCopyInitBranchless, weakDestroyBranchless, hq, memcpy_self, hrt.weakInit]
        rw [ih (sizeOf rest) hr rest (Nat.le_refl _)]
        · rw [rcDelta_append, rcDelta_append]
          simp only [rcDelta, List.map_cons, List.map_nil, List.sum_cons,
            List.sum_nil, evDelta]
          first
          | omega
          | (split <;> (try simp_all) <;> omega)
        · exact hB
        · exact hTNr
      case unknown =>
        rw [handleRefCountsInitWithCopy, handleRefCountsDestroy]
        simp only [unknownRetainBranchless, unknownDestroyBranchless, hq, memcpy_self]
        rw [ih (sizeOf rest) hr rest (Nat.le_refl _)]
        · rw [rcDelta_append, rcDelta_append]
          simp only [rcDelta, List.map_cons, List.map_nil, List.sum_cons,
            List.sum_nil, evDelta]
          first
          | omega
          | (split <;> (try simp_all) <;> omega)
        · exact hB
        · exact hTNr
      case unknownUnowned =>
        rw [handleRefCountsInitWithCopy, handleRefCountsDestroy]
        simp only [unknownUnownedCopyInitBranchless, unknownUnownedDestroyBranchless, hq, memcpy_self, hrt.uuInit]
        rw [ih (sizeOf rest) hr rest (Nat.le_refl _)]
        · rw [rcDelta_append, rcDelta_append]
          simp only [rcDelta, List.map_cons, List.map_nil, List.sum_cons,
            List.sum_nil, evDelta]
          first
          | omega
          | (split <;> (try simp_all) <;> omega)
        · exact hB
        · exact hTNr
      case unknownWeak =>
        rw [handleRefCountsInitWithCopy, handleRefCountsDestroy]
        simp only [unknownWeakCopyInitBranchless, unknownWeakDestroyBranchless, hq, memcpy_self, hrt.uwInit]
        rw [ih (sizeOf rest) hr rest (Nat.le_refl _)]
        · rw [rcDelta_append, rcDelta_append]
          simp only [rcDelta, List.map_cons, List.map_nil, List.sum_cons,
            List.sum_nil, evDelta]
          first
          | omega
          | (split <;> (try simp_all) <;> omega)
        · exact hB
        · exact hTNr
      case bridge =>
        rw [handleRefCountsInitWithCopy, handleRefCountsDestroy]
        simp only [bridgeRetainBranchless, bridgeDestroyBranchless, hq, memcpy_self]
        rw [ih (sizeOf rest) hr rest (Nat.le_refl _)]
        · rw [rcDelta_append, rcDelta_append]
          simp only [rcDelta, List.map_cons, List.map_nil, List.sum_cons,
            List.sum_nil, evDelta]
          first
          | omega
          | (split <;> (try simp_all) <;> omega)
        · exact hB
        · exact hTNr
      case block =>
        rw [handleRefCountsInitWithCopy, handleRefCountsDestroy]
        simp only [blockCopyBranchless, blockDestroyBranchless, hq, memcpy_self, hrt.blockId]
        rw [writeLE_readLE_self _ _ _ hB]
        rw [ih (sizeOf rest) hr rest (Nat.le_refl _)]
        · rw [rcDelta_append, rcDelta_append]
          simp only [rcDelta, List.map_cons, List.map_nil, List.sum_cons,
            List.sum_nil, evDelta]
          first
          | omega
          | (split <;> (try simp_all) <;> omega)
        · exact hB
        · exact hTNr
      case objcStrong =>
        rw [handleRefCountsInitWithCopy, handleRefCountsDestroy]
        simp only [objcStrongRetainBranchless, objcStrongDestroyBranchless, hq, memcpy_self]
        by_cases hres : readLE m (c.src + (a + g)) 8 &&& c.abi.reserved % 2 ^ 64 ≠ 0
        · rw [if_pos hres, if_pos hres]
          rw [ih (sizeOf rest) hr rest (Nat.le_refl _)]
          · exact hB
          · exact hTNr
        · rw [if_neg hres, if_neg hres]
          rw [ih (sizeOf rest) hr rest (Nat.le_refl _)]
          · rw [rcDelta_append, rcDelta_append]
            simp only [rcDelta, List.map_cons, List.map_nil, List.sum_cons,
              List.sum_nil, evDelta]
            first
            | omega
            | (split <;> (try simp_all) <;> omega)
          · exact hB
          · exact hTNr
      case metatype t =>
        rw [OpTN] at hopTN
        rw [handleRefCountsInitWithCopy, handleRefCountsDestroy]
        simp only [metatypeInitWithCopyBranchless, metatypeDestroyBranchless, hq,
          memcpy_self, hopTN.copySelf]
        rw [ih (sizeOf rest) hr rest (Nat.le_refl _)]
        · rw [rcDelta_append, rcDelta_append]
          simp only [rcDelta, List.map_cons, List.map_nil, List.sum_cons,
            List.sum_nil, evDelta]
          first
          | omega
          | (split <;> (try simp_all) <;> omega)
        · exact hB
        · exact hTNr
      case resilient t =>
        rw [OpTN] at hopTN
        rw [handleRefCountsInitWithCopy, handleRefCountsDestroy]
        simp only [resilientInitWithCopyBranchless, resilientDestroyBranchless, hq,
          memcpy_self, hopTN.copySelf]
        rw [ih (sizeOf rest) hr rest (Nat.le_refl _)]
        · rw [rcDelta_append, rcDelta_append]
          simp only [rcDelta, List.map_cons, List.map_nil, List.sum_cons,
            List.sum_nil, evDelta]
          first
          | omega
          | (split <;> (try simp_all) <;> omega)
        · exact hB
        · exact hTNr
      case existential =>
        rw [handleRefCountsInitWithCopy, handleRefCountsDestroy]
        simp only [existentialInitWithCopyBranchless, existentialDestroyBranchless, hq,
          memcpy_self, hrt.mtabBuffer]
        split
        · rw [ih (sizeOf rest) hr rest (Nat.le_refl _)]
          · rw [rcDelta_append, rcDelta_append]
            simp only [rcDelta, List.map_cons, List.map_nil, List.sum_cons,
              List.sum_nil, evDelta]
            first
            | omega
            | (split <;> (try simp_all) <;> omega)
          · exact hB
          · exact hTNr
        · rw [ih (sizeOf rest) hr rest (Nat.le_refl _)]
          · rw [rcDelta_append, rcDelta_append]
            simp only [rcDelta, List.map_cons, List.map_nil, List.sum_cons,
              List.sum_nil, evDelta]
            first
            | omega
            | (split <;> (try simp_all) <;> omega)
          · exact hB
          · exact hTNr
      case singlePayloadEnumSimple bco pS zv xiVals sub skipBytes =>
        rw [OpTN] at hopTN
        have hsr : sizeOf (sub ++ rest) < N := by
          have hA := sizeOf_list_append sub rest
          simp only [List.cons.sizeOf_spec, Prod.mk.sizeOf_spec,
            Op.singlePayloadEnumSimple.sizeOf_spec] at hsz
          omega
        rw [handleRefCountsInitWithCopy, handleRefCountsDestroy]
        simp only [hq, memcpy_self]
        split
        · exact ih (sizeOf (sub ++ rest)) hsr (sub ++ rest) (Nat.le_refl _) (a + g) m ec ed
            hB (ListTN_append hopTN hTNr) cat w
        · rw [ih (sizeOf rest) hr rest (Nat.le_refl _)]
          · exact hB
          · exact hTNr
      case singlePayloadEnumFN f sub skipBytes =>
        rw [OpTN] at hopTN
        have hsr : sizeOf (sub ++ rest) < N := by
          have hA := sizeOf_list_append sub rest
          simp only [List.cons.sizeOf_spec, Prod.mk.sizeOf_spec,
            Op.singlePayloadEnumFN.sizeOf_spec] at hsz
          omega
        rw [handleRefCountsInitWithCopy, handleRefCountsDestroy]
        simp only [hq, memcpy_self]
        split
        · exact ih (sizeOf (sub ++ rest)) hsr (sub ++ rest) (Nat.le_refl _) (a + g) m ec ed
            hB (ListTN_append hopTN hTNr) cat w
        · rw [ih (sizeOf rest) hr rest (Nat.le_refl _)]
          · exact hB
          · exact hTNr
      case singlePayloadEnumFNResolved f sub skipBytes =>
        rw [OpTN] at hopTN
        have hsr : sizeOf (sub ++ rest) < N := by
          have hA := sizeOf_list_append sub rest
          simp only [List.cons.sizeOf_spec, Prod.mk.sizeOf_spec,
            Op.singlePayloadEnumFNResolved.sizeOf_spec] at hsz
          omega
        rw [handleRefCountsInitWithCopy, handleRefCountsDestroy]
        simp only [hq, memcpy_self]
        split
        · exact ih (sizeOf (sub ++ rest)) hsr (sub ++ rest) (Nat.le_refl _) (a + g) m ec ed
            hB (ListTN_append hopTN hTNr) cat w
        · rw [ih (sizeOf rest) hr rest (Nat.le_refl _)]
          · exact hB
          · exact hTNr
      case singlePayloadEnumGeneric tbo pS xiT nec sub skipBytes =>
        rw [OpTN] at hopTN
        have hsr : sizeOf (sub ++ rest) < N := by
          have hA := sizeOf_list_append sub rest
          simp only [List.cons.sizeOf_spec, Prod.mk.sizeOf_spec,
            Op.singlePayloadEnumGeneric.sizeOf_spec] at hsz
          omega
        rw [handleRefCountsInitWithCopy, handleRefCountsDestroy]
        simp only [hq, memcpy_self]
        split
        · exact ih (sizeOf (sub ++ rest)) hsr (sub ++ rest) (Nat.le_refl _) (a + g) m ec ed
            hB (ListTN_append hopTN hTNr) cat w
        · rw [ih (sizeOf rest) hr rest (Nat.le_refl _)]
          · exact hB
          · exact hTNr
      case multiPayloadEnumFN f ps sz =>
        rw [OpTN] at hopTN
        rw [handleRefCountsInitWithCopy, handleRefCountsDestroy]
        simp only [hq, memcpy_self]
        by_cases htag : f m (c.src + (a + g)) < ps.length
        · rw [dif_pos htag, dif_pos htag]
          have hplt : sizeOf (ps.get ⟨f m (c.src + (a + g)), htag⟩) < N := by
            have := sizeOf_list_get_lt ps ⟨f m (c.src + (a + g)), htag⟩
            simp only [List.cons.sizeOf_spec, Prod.mk.sizeOf_spec,
              Op.multiPayloadEnumFN.sizeOf_spec] at hsz
            omega
          have hcm : (handleRefCountsInitWithCopy c (ps.get ⟨f m (c.src + (a + g)), htag⟩)
              ⟨a + g, m, ec⟩).mem = m :=
            copySelfMemAux c hq hrt (sizeOf (ps.get ⟨f m (c.src + (a + g)), htag⟩)) _ (Nat.le_refl _) _
              hB (PayloadsTN_get hopTN _ htag)
          have hdm : (handleRefCountsDestroy c (ps.get ⟨f m (c.src + (a + g)), htag⟩)
              ⟨a + g, m, ed⟩).mem = m :=
            handleRefCountsDestroy_mem c _ _
          rw [hcm, hdm]
          rw [ih (sizeOf rest) hr rest (Nat.le_refl _)]
          · exact ih (sizeOf (ps.get ⟨f m (c.src + (a + g)), htag⟩)) hplt _ (Nat.le_refl _) (a + g) m ec ed
              hB (PayloadsTN_get hopTN _ htag) cat w
          · exact hB
          · exact hTNr
        · rw [dif_neg htag, dif_neg htag]
          rw [ih (sizeOf rest) hr rest (Nat.le_refl _)]
          · exact hB
          · exact hTNr
      case multiPayloadEnumFNResolved f ps sz =>
        rw [OpTN] at hopTN
        rw [handleRefCountsInitWithCopy, handleRefCountsDestroy]
        simp only [hq, memcpy_self]
        by_cases htag : f m (c.src + (a + g)) < ps.length
        · rw [dif_pos htag, dif_pos htag]
          have hplt : sizeOf (ps.get ⟨f m (c.src + (a + g)), htag⟩) < N := by
            have := sizeOf_list_get_lt ps ⟨f m (c.src + (a + g)), htag⟩
            simp only [List.cons.sizeOf_spec, Prod.mk.sizeOf_spec,
              Op.multiPayloadEnumFNResolved.sizeOf_spec] at hsz
            omega
          have hcm : (handleRefCountsInitWithCopy c (ps.get ⟨f m (c.src + (a + g)), htag⟩)
              ⟨a + g, m, ec⟩).mem = m :=
            copySelfMemAux c hq hrt (sizeOf (ps.get ⟨f m (c.src + (a + g)), htag⟩)) _ (Nat.le_refl _) _
              hB (PayloadsTN_get hopTN _ htag)
          have hdm : (handleRefCountsDestroy c (ps.get ⟨f m (c.src + (a + g)), htag⟩)
              ⟨a + g, m, ed⟩).mem = m :=
            handleRefCountsDestroy_mem c _ _
          rw [hcm, hdm]
          rw [ih (sizeOf rest) hr rest (Nat.le_refl _)]
          · exact ih (sizeOf (ps.get ⟨f m (c.src + (a + g)), htag⟩)) hplt _ (Nat.le_refl _) (a + g) m ec ed
              hB (PayloadsTN_get hopTN _ htag) cat w
          · exact hB
          · exact hTNr
        · rw [dif_neg htag, dif_neg htag]
          rw [ih (sizeOf rest) hr rest (Nat.le_refl _)]
          · exact hB
          · exact hTNr
      case multiPayloadEnumGeneric tb ps sz =>
        rw [OpTN] at hopTN
        rw [handleRefCountsInitWithCopy, handleRefCountsDestroy]
        simp only [hq, memcpy_self]
        by_cases htag : readTagBytes m (c.src + (a + g) + (sz - tb)) tb < ps.length
        · rw [dif_pos htag, dif_pos htag]
          have hplt : sizeOf (ps.get ⟨readTagBytes m (c.src + (a + g) + (sz - tb)) tb, htag⟩) < N := by
            have := sizeOf_list_get_lt ps ⟨readTagBytes m (c.src + (a + g) + (sz - tb)) tb, htag⟩
            simp only [List.cons.sizeOf_spec, Prod.mk.sizeOf_spec,
              Op.multiPayloadEnumGeneric.sizeOf_spec] at hsz
            omega
          have hcm : (handleRefCountsInitWithCopy c (ps.get ⟨readTagBytes m (c.src + (a + g) + (sz - tb)) tb, htag⟩)
              ⟨a + g, m, ec⟩).mem = m :=
            copySelfMemAux c hq hrt (sizeOf (ps.get ⟨readTagBytes m (c.src + (a + g) + (sz - tb)) tb, htag⟩)) _ (Nat.le_refl _) _
              hB (PayloadsTN_get hopTN _ htag)
          have hdm : (handleRefCountsDestroy c (ps.get ⟨readTagBytes m (c.src + (a + g) + (sz - tb)) tb, htag⟩)
              ⟨a + g, m, ed⟩).mem = m :=
            handleRefCountsDestroy_mem c _ _
          rw [hcm, hdm]
          rw [ih (sizeOf rest) hr rest (Nat.le_refl _)]
          · exact ih (sizeOf (ps.get ⟨readTagBytes m (c.src + (a + g) + (sz - tb)) tb, htag⟩)) hplt _ (Nat.le_refl _) (a + g) m ec ed
              hB (PayloadsTN_get hopTN _ htag) cat w
          · exact hB
          · exact hTNr
        · rw [dif_neg htag, dif_neg htag]
          rw [ih (sizeOf rest) hr rest (Nat.le_refl _)]
          · exact hB
          · exact hTNr

end BL

namespace BL

set_option maxHeartbeats 1600000
set_option maxRecDepth 200000

/-- `assignWithCopy` with destination equal to source, over self-neutral
collaborators: memory is untouched and the net count change of the trace
is zero for every reference family and word — each field's destination
retire is cancelled by the source retain of the same masked word, and a
multi-payload reassignment's destroy pass is cancelled by its copy pass. -/
theorem assignSelfAux (c : Ctx) (hq : c.dest = c.src) (hrt : RTSelfNeutral c.rt) :
    ∀ N : Nat, ∀ l : List Inst, sizeOf l ≤ N →
      ∀ s : S, Bytes s.mem → ListTN l →
      (handleRefCountsAssignWithCopy c l s).mem = s.mem ∧
      ∀ (cat : RefCat) (w : Nat),
        rcDelta (handleRefCountsAssignWithCopy c l s).events cat w
          = rcDelta s.events cat w := by
  intro N
  induction N using Nat.strong_induction_on with
  | _ N ih =>
    intro l hsz s hB hTN
    cases l with
    | nil =>
      rw [handleRefCountsAssignWithCopy]
      exact ⟨rfl, fun _ _ => rfl⟩
    | cons i rest =>
      obtain ⟨g, op⟩ := i
      rw [ListTN] at hTN
      obtain ⟨hopTN, hTNr⟩ := hTN
      have hr : sizeOf rest < N := by
        have : sizeOf rest < sizeOf ((g, op) :: rest) := by
          simp only [List.cons.sizeOf_spec, Prod.mk.sizeOf_spec]; omega
        omega
      cases op
      case stop =>
        rw [handleRefCountsAssignWithCopy]
        refine ⟨?_, fun _ _ => rfl⟩
        simp [hq, memcpy_self]
      case error =>
        rw [handleRefCountsAssignWithCopy]
        simp only [errorAssignWithCopy, hq, memcpy_self]
        refine ⟨(ih (sizeOf rest) hr rest (Nat.le_refl _) _ (by exact hB) hTNr).1, ?_⟩
        intro cat w
        rw [(ih (sizeOf rest) hr rest (Nat.le_refl _) _ (by exact hB) hTNr).2 cat w]
        simp only [rcDelta_append]
        simp only [rcDelta, List.map_cons, List.map_nil, List.sum_cons,
          List.sum_nil, evDelta]
        first
        | omega
        | (split <;> (try simp_all) <;> omega)
      case nativeStrong =>
        rw [handleRefCountsAssignWithCopy]
        simp only [nativeStrongAssignWithCopy, hq, memcpy_self]
        refine ⟨(ih (sizeOf rest) hr rest (Nat.le_refl _) _ (by exact hB) hTNr).1, ?_⟩
        intro cat w
        rw [(ih (sizeOf rest) hr rest (Nat.le_refl _) _ (by exact hB) hTNr).2 cat w]
        simp only [rcDelta_append]
        simp only [rcDelta, List.map_cons, List.map_nil, List.sum_cons,
          List.sum_nil, evDelta]
        first
        | omega
        | (split <;> (try simp_all) <;> omega)
      case unowned =>
        rw [handleRefCountsAssignWithCopy]
        simp only [unownedAssignWithCopy, hq, memcpy_self]
        refine ⟨(ih (sizeOf rest) hr rest (Nat.le_refl _) _ (by exact hB) hTNr).1, ?_⟩
        intro cat w
        rw [(ih (sizeOf rest) hr rest (Nat.le_refl _) _ (by exact hB) hTNr).2 cat w]
        simp only [rcDelta_append]
        simp only [rcDelta, List.map_cons, List.map_nil, List.sum_cons,
          List.sum_nil, evDelta]
        first
        | omega
        | (split <;> (try simp_all) <;> omega)
      case weak =>
        rw [handleRefCountsAssignWithCopy]
        simp only [weakAssignWithCopy, hq, memcpy_self, hrt.weakAssign]
        refine ⟨(ih (sizeOf rest) hr rest (Nat.le_refl _) _ (by exact hB) hTNr).1, ?_⟩
        intro cat w
        rw [(ih (sizeOf rest) hr rest (Nat.le_refl _) _ (by exact hB) hTNr).2 cat w]
        simp only [rcDelta_append]
        simp only [rcDelta, List.map_cons, List.map_nil, List.sum_cons,
          List.sum_nil, evDelta]
        first
        | omega
        | (split <;> (try simp_all) <;> omega)
      case unknown =>
        rw [handleRefCountsAssignWithCopy]
        simp only [unknownAssignWithCopy, hq, memcpy_self]
        refine ⟨(ih (sizeOf rest) hr rest (Nat.le_refl _) _ (by exact hB) hTNr).1, ?_⟩
        intro cat w
        rw [(ih (sizeOf rest) hr rest (Nat.le_refl _) _ (by exact hB) hTNr).2 cat w]
        simp only [rcDelta_append]
        simp only [rcDelta, List.map_cons, List.map_nil, List.sum_cons,
          List.sum_nil, evDelta]
        first
        | omega
        | (split <;> (try simp_all) <;> omega)
      case unknownUnowned =>
        rw [handleRefCountsAssignWithCopy]
        simp only [unknownUnownedAssignWithCopy, hq, memcpy_self, hrt.uuAssign]
        refine ⟨(ih (sizeOf rest) hr rest (Nat.le_refl _) _ (by exact hB) hTNr).1, ?_⟩
        intro cat w
        rw [(ih (sizeOf rest) hr rest (Nat.le_refl _) _ (by exact hB) hTNr).2 cat w]
        simp only [rcDelta_append]
        simp only [rcDelta, List.map_cons, List.map_nil, List.sum_cons,
          List.sum_nil, evDelta]
        first
        | omega
        | (split <;> (try simp_all) <;> omega)
      case unknownWeak =>
        rw [handleRefCountsAssignWithCopy]
        simp only [unknownWeakAssignWithCopy, hq, memcpy_self, hrt.uwAssign]
        refine ⟨(ih (sizeOf rest) hr rest (Nat.le_refl _) _ (by exact hB) hTNr).1, ?_⟩
        intro cat w
        rw [(ih (sizeOf rest) hr rest (Nat.le_refl _) _ (by exact hB) hTNr).2 cat w]
        simp only [rcDelta_append]
        simp only [rcDelta, List.map_cons, List.map_nil, List.sum_cons,
          List.sum_nil, evDelta]
        first
        | omega
        | (split <;> (try simp_all) <;> omega)
      case bridge =>
        rw [handleRefCountsAssignWithCopy]
        simp only [bridgeAssignWithCopy, hq, memcpy_self]
        refine ⟨(ih (sizeOf rest) hr rest (Nat.le_refl _) _ (by exact hB) hTNr).1, ?_⟩
        intro cat w
        rw [(ih (sizeOf rest) hr rest (Nat.le_refl _) _ (by exact hB) hTNr).2 cat w]
        simp only [rcDelta_append]
        simp only [rcDelta, List.map_cons, List.map_nil, List.sum_cons,
          List.sum_nil, evDelta]
        first
        | omega
        | (split <;> (try simp_all) <;> omega)
      case block =>
        rw [handleRefCountsAssignWithCopy]
        simp only [blockAssignWithCopy, hq, memcpy_self, hrt.blockId]
        rw [writeLE_readLE_self _ _ _ hB]
        refine ⟨(ih (sizeOf rest) hr rest (Nat.le_refl _) _ (by exact hB) hTNr).1, ?_⟩
        intro cat w
        rw [(ih (sizeOf rest) hr rest (Nat.le_refl _) _ (by exact hB) hTNr).2 cat w]
        simp only [rcDelta_append]
        simp only [rcDelta, List.map_cons, List.map_nil, List.sum_cons,
          List.sum_nil, evDelta]
        first
        | omega
        | (split <;> (try simp_all) <;> omega)
      case objcStrong =>
        rw [handleRefCountsAssignWithCopy]
        simp only [objcStrongAssignWithCopy, hq, memcpy_self]
        split
        all_goals
          refine ⟨(ih (sizeOf rest) hr rest (Nat.le_refl _) _ (by exact hB) hTNr).1, ?_⟩
          intro cat w
          rw [(ih (sizeOf rest) hr rest (Nat.le_refl _) _ (by exact hB) hTNr).2 cat w]
          simp only [rcDelta_append]
          simp only [rcDelta, List.map_cons, List.map_nil, List.sum_cons,
            List.sum_nil, evDelta]
          first
          | omega
          | (split <;> (try simp_all) <;> omega)
      case metatype t =>
        rw [OpTN] at hopTN
        rw [handleRefCountsAssignWithCopy]
        simp only [metatypeAssignWithCopy, hq, memcpy_self, hopTN.assignSelf]
        refine ⟨(ih (sizeOf rest) hr rest (Nat.le_refl _) _ (by exact hB) hTNr).1, ?_⟩
        intro cat w
        rw [(ih (sizeOf rest) hr rest (Nat.le_refl _) _ (by exact hB) hTNr).2 cat w]
        simp only [rcDelta_append]
        simp only [rcDelta, List.map_cons, List.map_nil, List.sum_cons,
          List.sum_nil, evDelta]
        first
        | omega
        | (split <;> (try simp_all) <;> omega)
      case resilient t =>
        rw [OpTN] at hopTN
        rw [handleRefCountsAssignWithCopy]
        simp only [resilientAssignWithCopy, hq, memcpy_self, hopTN.assignSelf]
        refine ⟨(ih (sizeOf rest) hr rest (Nat.le_refl _) _ (by exact hB) hTNr).1, ?_⟩
        intro cat w
        rw [(ih (sizeOf rest) hr rest (Nat.le_refl _) _ (by exact hB) hTNr).2 cat w]
        simp only [rcDelta_append]
        simp only [rcDelta, List.map_cons, List.map_nil, List.sum_cons,
          List.sum_nil, evDelta]
        first
        | omega
        | (split <;> (try simp_all) <;> omega)
      case existential =>
        rw [handleRefCountsAssignWithCopy]
        simp only [existentialAssignWithCopy, hq, memcpy_self, hrt.mtabAssign]
        split
        all_goals
          refine ⟨(ih (sizeOf rest) hr rest (Nat.le_refl _) _ (by exact hB) hTNr).1, ?_⟩
          intro cat w
          rw [(ih (sizeOf rest) hr rest (Nat.le_refl _) _ (by exact hB) hTNr).2 cat w]
          simp only [rcDelta_append]
          simp only [rcDelta, List.map_cons, List.map_nil, List.sum_cons,
            List.sum_nil, evDelta]
          first
          | omega
          | (split <;> (try simp_all) <;> omega)
      case singlePayloadEnumSimple bco pS zv xiVals sub skipBytes =>
        rw [OpTN] at hopTN
        have hsr : sizeOf (sub ++ rest) < N := by
          have hA := sizeOf_list_append sub rest
          simp only [List.cons.sizeOf_spec, Prod.mk.sizeOf_spec,
            Op.singlePayloadEnumSimple.sizeOf_spec] at hsz
          omega
        rw [handleRefCountsAssignWithCopy]
        simp only [hq, memcpy_self]
        split
        · exact ih (sizeOf (sub ++ rest)) hsr (sub ++ rest) (Nat.le_refl _) _ (by exact hB)
            (ListTN_append hopTN hTNr)
        · exact ih (sizeOf rest) hr rest (Nat.le_refl _) _ (by exact hB) hTNr
      case singlePayloadEnumFN f sub skipBytes =>
        rw [OpTN] at hopTN
        have hsr : sizeOf (sub ++ rest) < N := by
          have hA := sizeOf_list_append sub rest
          simp only [List.cons.sizeOf_spec, Prod.mk.sizeOf_spec,
            Op.singlePayloadEnumFN.sizeOf_spec] at hsz
          omega
        rw [handleRefCountsAssignWithCopy]
        simp only [hq, memcpy_self]
        split
        · exact ih (sizeOf (sub ++ rest)) hsr (sub ++ rest) (Nat.le_refl _) _ (by exact hB)
            (ListTN_append hopTN hTNr)
        · exact ih (sizeOf rest) hr rest (Nat.le_refl _) _ (by exact hB) hTNr
      case singlePayloadEnumFNResolved f sub skipBytes =>
        rw [OpTN] at hopTN
        have hsr : sizeOf (sub ++ rest) < N := by
          have hA := sizeOf_list_append sub rest
          simp only [List.cons.sizeOf_spec, Prod.mk.sizeOf_spec,
            Op.singlePayloadEnumFNResolved.sizeOf_spec] at hsz
          omega
        rw [handleRefCountsAssignWithCopy]
        simp only [hq, memcpy_self]
        split
        · exact ih (sizeOf (sub ++ rest)) hsr (sub ++ rest) (Nat.le_refl _) _ (by exact hB)
            (ListTN_append hopTN hTNr)
        · exact ih (sizeOf rest) hr rest (Nat.le_refl _) _ (by exact hB) hTNr
      case singlePayloadEnumGeneric tbo pS xiT nec sub skipBytes =>
        rw [OpTN] at hopTN
        have hsr : sizeOf (sub ++ rest) < N := by
          have hA := sizeOf_list_append sub rest
          simp only [List.cons.sizeOf_spec, Prod.mk.sizeOf_spec,
            Op.singlePayloadEnumGeneric.sizeOf_spec] at hsz
          omega
        rw [handleRefCountsAssignWithCopy]
        simp only [hq, memcpy_self]
        split
        · exact ih (sizeOf (sub ++ rest)) hsr (sub ++ rest) (Nat.le_refl _) _ (by exact hB)
            (ListTN_append hopTN hTNr)
        · exact ih (sizeOf rest) hr rest (Nat.le_refl _) _ (by exact hB) hTNr
      case multiPayloadEnumFN f ps sz =>
        rw [OpTN] at hopTN
        rw [handleRefCountsAssignWithCopy]
        simp only [hq, memcpy_self]
        by_cases htag : f s.mem (c.src + (s.addrOffset + g)) < ps.length
        · rw [dif_pos htag, dif_pos htag]
          have hplt : sizeOf (ps.get ⟨f s.mem (c.src + (s.addrOffset + g)), htag⟩) < N := by
            have := sizeOf_list_get_lt ps ⟨f s.mem (c.src + (s.addrOffset + g)), htag⟩
            simp only [List.cons.sizeOf_spec, Prod.mk.sizeOf_spec,
              Op.multiPayloadEnumFN.sizeOf_spec] at hsz
            omega
          have hdm : (handleRefCountsDestroy c (ps.get ⟨f s.mem (c.src + (s.addrOffset + g)), htag⟩) ⟨s.addrOffset + g, s.mem, s.events⟩).mem = s.mem :=
            handleRefCountsDestroy_mem c _ _
          rw [hdm]
          have hcm : (handleRefCountsInitWithCopy c (ps.get ⟨f s.mem (c.src + (s.addrOffset + g)), htag⟩)
              ⟨s.addrOffset + g, s.mem,
                (handleRefCountsDestroy c (ps.get ⟨f s.mem (c.src + (s.addrOffset + g)), htag⟩) ⟨s.addrOffset + g, s.mem, s.events⟩).events⟩).mem = s.mem :=
            copySelfMemAux c hq hrt (sizeOf (ps.get ⟨f s.mem (c.src + (s.addrOffset + g)), htag⟩)) _ (Nat.le_refl _) _ (by exact hB)
              (PayloadsTN_get hopTN _ htag)
          rw [hcm]
          refine ⟨(ih (sizeOf rest) hr rest (Nat.le_refl _) _ (by exact hB) hTNr).1, ?_⟩
          intro cat w
          rw [(ih (sizeOf rest) hr rest (Nat.le_refl _) _ (by exact hB) hTNr).2 cat w]
          have hc := destroyCopyCancel c hq hrt (sizeOf (ps.get ⟨f s.mem (c.src + (s.addrOffset + g)), htag⟩)) _ (Nat.le_refl _)
            (s.addrOffset + g) s.mem
            (handleRefCountsDestroy c (ps.get ⟨f s.mem (c.src + (s.addrOffset + g)), htag⟩) ⟨s.addrOffset + g, s.mem, s.events⟩).events s.events hB
            (PayloadsTN_get hopTN _ htag) cat w
          try dsimp only
          try dsimp only at hc
          omega
        · rw [dif_neg htag, dif_neg htag]
          exact ih (sizeOf rest) hr rest (Nat.le_refl _) _ (by exact hB) hTNr
      case multiPayloadEnumFNResolved f ps sz =>
        rw [OpTN] at hopTN
        rw [handleRefCountsAssignWithCopy]
        simp only [hq, memcpy_self]
        by_cases htag : f s.mem (c.src + (s.addrOffset + g)) < ps.length
        · rw [dif_pos htag, dif_pos htag]
          have hplt : sizeOf (ps.get ⟨f s.mem (c.src + (s.addrOffset + g)), htag⟩) < N := by
            have := sizeOf_list_get_lt ps ⟨f s.mem (c.src + (s.addrOffset + g)), htag⟩
            simp only [List.cons.sizeOf_spec, Prod.mk.sizeOf_spec,
              Op.multiPayloadEnumFNResolved.sizeOf_spec] at hsz
            omega
          have hdm : (handleRefCountsDestroy c (ps.get ⟨f s.mem (c.src + (s.addrOffset + g)), htag⟩) ⟨s.addrOffset + g, s.mem, s.events⟩).mem = s.mem :=
            handleRefCountsDestroy_mem c _ _
          rw [hdm]
          have hcm : (handleRefCountsInitWithCopy c (ps.get ⟨f s.mem (c.src + (s.addrOffset + g)), htag⟩)
              ⟨s.addrOffset + g, s.mem,
                (handleRefCountsDestroy c (ps.get ⟨f s.mem (c.src + (s.addrOffset + g)), htag⟩) ⟨s.addrOffset + g, s.mem, s.events⟩).events⟩).mem = s.mem :=
            copySelfMemAux c hq hrt (sizeOf (ps.get ⟨f s.mem (c.src + (s.addrOffset + g)), htag⟩)) _ (Nat.le_refl _) _ (by exact hB)
              (PayloadsTN_get hopTN _ htag)
          rw [hcm]
          refine ⟨(ih (sizeOf rest) hr rest (Nat.le_refl _) _ (by exact hB) hTNr).1, ?_⟩
          intro cat w
          rw [(ih (sizeOf rest) hr rest (Nat.le_refl _) _ (by exact hB) hTNr).2 cat w]
          have hc := destroyCopyCancel c hq hrt (sizeOf (ps.get ⟨f s.mem (c.src + (s.addrOffset + g)), htag⟩)) _ (Nat.le_refl _)
            (s.addrOffset + g) s.mem
            (handleRefCountsDestroy c (ps.get ⟨f s.mem (c.src + (s.addrOffset + g)), htag⟩) ⟨s.addrOffset + g, s.mem, s.events⟩).events s.events hB
            (PayloadsTN_get hopTN _ htag) cat w
          try dsimp only
          try dsimp only at hc
          omega
        · rw [dif_neg htag, dif_neg htag]
          exact ih (sizeOf rest) hr rest (Nat.le_refl _) _ (by exact hB) hTNr
      case multiPayloadEnumGeneric tb ps sz =>
        rw [OpTN] at hopTN
        rw [handleRefCountsAssignWithCopy]
        simp only [hq, memcpy_self]
        by_cases htag : readTagBytes s.mem (c.src + (s.addrOffset + g) + (sz - tb)) tb < ps.length
        · rw [dif_pos htag, dif_pos htag]
          have hplt : sizeOf (ps.get ⟨readTagBytes s.mem (c.src + (s.addrOffset + g) + (sz - tb)) tb, htag⟩) < N := by
            have := sizeOf_list_get_lt ps ⟨readTagBytes s.mem (c.src + (s.addrOffset + g) + (sz - tb)) tb, htag⟩
            simp only [List.cons.sizeOf_spec, Prod.mk.sizeOf_spec,
              Op.multiPayloadEnumGeneric.sizeOf_spec] at hsz
            omega
          have hdm : (handleRefCountsDestroy c (ps.get ⟨readTagBytes s.mem (c.src + (s.addrOffset + g) + (sz - tb)) tb, htag⟩) ⟨s.addrOffset + g, s.mem, s.events⟩).mem = s.mem :=
            handleRefCountsDestroy_mem c _ _
          rw [hdm]
          have hcm : (handleRefCountsInitWithCopy c (ps.get ⟨readTagBytes s.mem (c.src + (s.addrOffset + g) + (sz - tb)) tb, htag⟩)
              ⟨s.addrOffset + g, s.mem,
                (handleRefCountsDestroy c (ps.get ⟨readTagBytes s.mem (c.src + (s.addrOffset + g) + (sz - tb)) tb, htag⟩) ⟨s.addrOffset + g, s.mem, s.events⟩).events⟩).mem = s.mem :=
            copySelfMemAux c hq hrt (sizeOf (ps.get ⟨readTagBytes s.mem (c.src + (s.addrOffset + g) + (sz - tb)) tb, htag⟩)) _ (Nat.le_refl _) _ (by exact hB)
              (PayloadsTN_get hopTN _ htag)
          rw [hcm]
          refine ⟨(ih (sizeOf rest) hr rest (Nat.le_refl _) _ (by exact hB) hTNr).1, ?_⟩
          intro cat w
          rw [(ih (sizeOf rest) hr rest (Nat.le_refl _) _ (by exact hB) hTNr).2 cat w]
          have hc := destroyCopyCancel c hq hrt (sizeOf (ps.get ⟨readTagBytes s.mem (c.src + (s.addrOffset + g) + (sz - tb)) tb, htag⟩)) _ (Nat.le_refl _)
            (s.addrOffset + g) s.mem
            (handleRefCountsDestroy c (ps.get ⟨readTagBytes s.mem (c.src + (s.addrOffset + g) + (sz - tb)) tb, htag⟩) ⟨s.addrOffset + g, s.mem, s.events⟩).events s.events hB
            (PayloadsTN_get hopTN _ htag) cat w
          try dsimp only
          try dsimp only at hc
          omega
        · rw [dif_neg htag, dif_neg htag]
          exact ih (sizeOf rest) hr rest (Nat.le_refl _) _ (by exact hB) hTNr

end BL

namespace BL

set_option maxHeartbeats 1600000
set_option maxRecDepth 200000

/-- C4: self-assignment is safe.  For every layout and with byte-valued
memory and self-neutral collaborators (each delegated witness and
runtime slot primitive leaves memory unchanged on a self-call),
`assignWithCopy(p, p)` returns the memory unchanged and a trace whose
net refcount change is zero for every reference family and word: each
field's destination retire precedes and cancels the source retain of
the same masked word, and a multi-payload reassignment's destroy pass
(including an out-of-line existential's box release) is cancelled by
its copy pass (whose buffer-copy witness retains that box). -/
theorem C4_self_assignment (abi : ABI) (rt : RT) (md : Metadata) (m : Mem) (p : Nat)
    (hB : Bytes m) (hrt : RTSelfNeutral rt) (hTN : ListTN md.layout) :
    (swift_generic_assignWithCopy abi rt md m p p).mem = m ∧
    ∀ (cat : RefCat) (w : Nat),
      rcDelta (swift_generic_assignWithCopy abi rt md m p p).events cat w = 0 := by
  have h := assignSelfAux ⟨abi, rt, p, p⟩ rfl hrt (sizeOf md.layout) md.layout
    (Nat.le_refl _) ⟨0, m, []⟩ hB hTN
  rw [swift_generic_assignWithCopy]
  refine ⟨h.1, ?_⟩
  intro cat w
  rw [h.2 cat w]
  simp [rcDelta]

theorem C4_self_assignment_witness :
    Bytes mem0 ∧ RTSelfNeutral rt0 ∧ ListTN mdNS.layout ∧
    ((swift_generic_assignWithCopy abi0 rt0 mdNS mem0 0 0).mem = mem0 ∧
     ∀ (cat : RefCat) (w : Nat),
       rcDelta (swift_generic_assignWithCopy abi0 rt0 mdNS mem0 0 0).events cat w = 0) := by
  have hB : Bytes mem0 := fun _ => by simp [mem0]
  have hrt : RTSelfNeutral rt0 :=
    ⟨fun _ _ => rfl, fun _ _ => rfl, fun _ _ => rfl, fun _ _ => rfl, fun _ _ => rfl,
     fun _ _ => rfl, fun _ => rfl, fun _ _ _ => rfl, fun _ _ _ => rfl, fun _ _ _ => rfl⟩
  have hTN : ListTN mdNS.layout := by
    simp [mdNS, ListTN, OpTN]
  exact ⟨hB, hrt, hTN, C4_self_assignment abi0 rt0 mdNS mem0 0 hB hrt hTN⟩

end BL

namespace BL

set_option maxHeartbeats 1600000
set_option maxRecDepth 200000

theorem pow256 (n : Nat) : (256 : Nat) ^ n = 2 ^ (8 * n) := by
  rw [show (256 : Nat) = 2 ^ 8 from rfl, ← pow_mul]

theorem and_two_pow_sub_one (c k : Nat) : c &&& (2 ^ k - 1) = c % 2 ^ k := by
  apply Nat.eq_of_testBit_eq
  intro i
  rw [Nat.testBit_land, Nat.testBit_two_pow_sub_one, Nat.testBit_mod_two_pow]
  rw [Bool.and_comm]

theorem orRecomb (c k : Nat) : ((c >>> k) <<< k) ||| (c &&& (2 ^ k - 1)) = c := by
  apply Nat.eq_of_testBit_eq
  intro i
  rw [Nat.testBit_lor, Nat.testBit_shiftLeft, Nat.testBit_shiftRight,
    Nat.testBit_land, Nat.testBit_two_pow_sub_one]
  by_cases hik : k ≤ i
  · have h1 : k + (i - k) = i := by omega
    have h2 : ¬(i < k) := by omega
    simp [hik, h1, h2]
  · have h2 : i < k := by omega
    simp [hik, h2]

theorem shiftRecomb_le (c k : Nat) : (c >>> k) <<< k ≤ c := by
  rw [Nat.shiftLeft_eq, Nat.shiftRight_eq_div_pow]
  exact Nat.div_mul_le_self c (2 ^ k)

theorem and_two_pow_lt (c k : Nat) : c &&& (2 ^ k - 1) < 2 ^ k := by
  rw [and_two_pow_sub_one]
  exact Nat.mod_lt _ (Nat.pos_pow_of_pos _ (by omega))

/-- Round trip for the generic multi-payload enum entry points. -/
theorem mpGeneric_roundtrip (tb nP sz : Nat) (m : Mem) (addr tag : Nat)
    (htb1 : 1 ≤ tb) (htb4 : tb ≤ 4) (htbsz : tb ≤ sz)
    (htag32 : tag < 2 ^ 32) (hnP1 : 1 ≤ nP)
    (hfit1 : tag < nP → tag < 256 ^ tb)
    (hfit2 : nP ≤ tag → sz - tb < 4 →
      nP + ((tag - nP) >>> ((sz - tb) * 8)) < 256 ^ tb)
    (hfit3 : nP ≤ tag → 4 ≤ sz - tb → nP < 256 ^ tb) :
    swift_multiPayloadEnumGeneric_getEnumTag tb nP sz
      (swift_multiPayloadEnumGeneric_destructiveInjectEnumTag tb nP sz m addr tag)
      addr = tag := by
  have h256tb : (256 : Nat) ^ tb ≤ 2 ^ 32 := by
    rw [pow256]
    exact Nat.pow_le_pow_right (by omega) (by omega)
  have hmintb : min tb 4 = tb := Nat.min_eq_left htb4
  simp only [swift_multiPayloadEnumGeneric_getEnumTag,
    swift_multiPayloadEnumGeneric_destructiveInjectEnumTag,
    storeEnumElement, loadEnumElement, readTagBytes, hmintb]
  by_cases h1 : tag < nP
  · rw [if_pos h1, readLE_writeLE]
    have hlt : tag < 256 ^ tb := hfit1 h1
    rw [Nat.mod_eq_of_lt hlt, Nat.mod_eq_of_lt (show tag < 2 ^ 32 from htag32)]
    rw [if_pos h1]
  · rw [if_neg h1]
    have hnP : nP ≤ tag := by omega
    by_cases hpS4 : 4 ≤ sz - tb
    · rw [if_pos hpS4, if_pos hpS4, if_pos hpS4]
      have hnPlt : nP < 256 ^ tb := hfit3 hnP hpS4
      have hminp : min (sz - tb) 4 = 4 := Nat.min_eq_right hpS4
      rw [hminp]
      rw [readLE_writeLE_disjoint (Or.inr (by omega)), readLE_writeLE]
      rw [Nat.mod_eq_of_lt (show nP < 2 ^ 32 by omega)]
      rw [Nat.mod_eq_of_lt hnPlt]
      rw [Nat.mod_eq_of_lt (show nP < 2 ^ 32 by omega)]
      rw [if_neg (by omega)]
      rw [readLE_writeLE]
      rw [sub64_exact hnP (by omega)]
      rw [Nat.mod_eq_of_lt (show tag - nP < 2 ^ 32 by omega)]
      rw [Nat.mod_eq_of_lt (show tag - nP < 256 ^ 4 by rw [pow256]; omega)]
      rw [Nat.mod_eq_of_lt (show nP + (tag - nP) < 2 ^ 32 by omega)]
      omega
    · rw [if_neg hpS4, if_neg hpS4, if_neg hpS4]
      have hfit := hfit2 hnP (by omega)
      have hminp : min (sz - tb) 4 = sz - tb := Nat.min_eq_left (by omega)
      rw [hminp]
      rw [sub64_exact hnP (by omega)]
      rw [Nat.mod_eq_of_lt (show tag - nP < 2 ^ 32 by omega)]
      generalize hX : (tag - nP) >>> ((sz - tb) * 8) = X at hfit ⊢
      rw [readLE_writeLE_disjoint (Or.inr (by omega)), readLE_writeLE]
      rw [Nat.mod_eq_of_lt (show nP + X < 2 ^ 32 by omega)]
      rw [Nat.mod_eq_of_lt hfit]
      rw [Nat.mod_eq_of_lt (show nP + X < 2 ^ 32 by omega)]
      rw [if_neg (by omega)]
      rw [readLE_writeLE]
      have hplt : (tag - nP) &&& (1 <<< ((sz - tb) * 8)) - 1 < 256 ^ (sz - tb) := by
        rw [Nat.one_shiftLeft, pow256, Nat.mul_comm 8 (sz - tb)]
        exact and_two_pow_lt _ _
      rw [Nat.mod_eq_of_lt hplt]
      have hsub : sub64 (nP + X) nP = X := by
        rw [sub64_exact (by omega) (by omega)]
        omega
      rw [hsub]
      have hshle : X <<< ((sz - tb) * 8) ≤ tag - nP := by
        rw [← hX]
        exact shiftRecomb_le (tag - nP) ((sz - tb) * 8)
      have hor : ((tag - nP) &&& (1 <<< ((sz - tb) * 8)) - 1) |||
          X <<< ((sz - tb) * 8) = tag - nP := by
        rw [← hX, Nat.lor_comm, Nat.one_shiftLeft]
        exact orRecomb (tag - nP) ((sz - tb) * 8)
      rw [hor]
      rw [Nat.mod_eq_of_lt (show tag - nP + nP < 2 ^ 32 by omega)]
      omega


/-- Round trip for the `swift_enumSimple` entry points. -/
theorem enumSimple_roundtrip (bco pS zv numXI : Nat) (m : Mem) (addr tag : Nat)
    (hbco : bco < 2 ^ 64)
    (hetp : bco >>> 62 ≠ 0)
    (hxtp : (bco >>> 59) &&& 7 ≠ 0)
    (hxtp3 : (bco >>> 59) &&& 7 ≤ 3)
    (hxi : (bco &&& (2 ^ 32 - 1)) + 1 <<< ((bco >>> 59 &&& 7) - 1) ≤ pS)
    (hzv : zv < 2 ^ 64)
    (htag32 : tag < 2 ^ 32)
    (hfitB : 1 ≤ tag → tag ≤ numXI →
      tag - 1 + zv < 256 ^ (1 <<< ((bco >>> 59 &&& 7) - 1)))
    (hpay0 : tag = 0 →
      numXI ≤ sub64 (readTagBytes m (addr + (bco &&& (2 ^ 32 - 1)))
        (1 <<< ((bco >>> 59 &&& 7) - 1))) zv)
    (hfitC : numXI < tag → pS < 4 →
      1 + ((tag - 1 - numXI) >>> (pS * 8)) < 256 ^ (1 <<< (bco >>> 62 - 1))) :
    swift_enumSimple_getEnumTag bco pS zv numXI
      (swift_enumSimple_destructiveInjectEnumTag bco pS zv numXI m addr tag) addr
      = tag := by
  have hshr : bco >>> 62 < 4 := by
    rw [Nat.shiftRight_eq_div_pow]
    omega
  have hnETB4 : 1 <<< (bco >>> 62 - 1) ≤ 4 := by
    rw [Nat.one_shiftLeft]
    exact le_trans (Nat.pow_le_pow_right (by omega) (show bco >>> 62 - 1 ≤ 2 by omega))
      (by norm_num)
  have hnETBpos : 0 < 1 <<< (bco >>> 62 - 1) := by
    rw [Nat.one_shiftLeft]
    positivity
  have hxtp2 : (bco >>> 59 &&& 7) - 1 ≤ 2 := by omega
  have hxiB4 : 1 <<< ((bco >>> 59 &&& 7) - 1) ≤ 4 := by
    rw [Nat.one_shiftLeft]
    exact le_trans (Nat.pow_le_pow_right (by omega) hxtp2) (by norm_num)
  have hxiBpos : 0 < 1 <<< ((bco >>> 59 &&& 7) - 1) := by
    rw [Nat.one_shiftLeft]
    positivity
  have h256N : (256 : Nat) ^ (1 <<< (bco >>> 62 - 1)) ≤ 2 ^ 32 := by
    rw [pow256]
    exact Nat.pow_le_pow_right (by omega) (by omega)
  have h256X : (256 : Nat) ^ (1 <<< ((bco >>> 59 &&& 7) - 1)) ≤ 2 ^ 32 := by
    rw [pow256]
    exact Nat.pow_le_pow_right (by omega) (by omega)
  have hminN : min (1 <<< (bco >>> 62 - 1)) 4 = 1 <<< (bco >>> 62 - 1) :=
    Nat.min_eq_left hnETB4
  have hminX : min (1 <<< ((bco >>> 59 &&& 7) - 1)) 4 = 1 <<< ((bco >>> 59 &&& 7) - 1) :=
    Nat.min_eq_left hxiB4
  simp only [swift_enumSimple_getEnumTag, swift_enumSimple_destructiveInjectEnumTag,
    storeEnumElement, loadEnumElement, readTagBytes, hminN, hminX]
  by_cases hC : numXI < tag
  · rw [if_pos (show bco >>> 62 ≠ 0 ∧ numXI < tag from ⟨hetp, hC⟩),
      if_pos hnETBpos.ne']
    have hci : sub64 (sub32 tag 1) numXI % 2 ^ 32 = tag - 1 - numXI := by
      rw [sub32_exact (by omega) htag32, sub64_exact (by omega) (by omega),
        Nat.mod_eq_of_lt (by omega)]
    rw [hci]
    by_cases hpS4 : 4 ≤ pS
    · rw [if_pos hpS4, if_pos hpS4, if_pos hpS4]
      rw [if_pos (show pS ≠ 0 by omega)]
      rw [Nat.min_eq_right hpS4]
      rw [if_pos hetp]
      rw [readLE_writeLE]
      rw [Nat.mod_eq_of_lt (Nat.one_lt_pow hnETBpos.ne' (by omega))]
      rw [if_pos (by omega : (1 : Nat) ≠ 0)]
      dsimp only
      rw [readLE_writeLE_disjoint (Or.inl (show addr + 4 ≤ addr + pS by omega)),
        readLE_writeLE]
      rw [Nat.mod_eq_of_lt (show tag - 1 - numXI < 256 ^ 4 by rw [pow256]; omega)]
      rw [Nat.zero_or]
      rw [Nat.mod_eq_of_lt (show tag - 1 - numXI + numXI < 2 ^ 32 by omega)]
      rw [Nat.mod_eq_of_lt (show tag - 1 - numXI + numXI + 1 < 2 ^ 32 by omega)]
      omega
    · rw [if_neg hpS4, if_neg hpS4, if_neg hpS4]
      have hfitC2 := hfitC hC (by omega)
      generalize hY : (tag - 1 - numXI) >>> (pS * 8) = Y at hfitC2 ⊢
      by_cases hp0 : pS ≠ 0
      · rw [if_pos hp0]
        rw [Nat.min_eq_left (by omega : pS ≤ 4)]
        rw [if_pos hetp]
        rw [readLE_writeLE]
        rw [Nat.mod_eq_of_lt (show (1 + Y) % 2 ^ 32 < 256 ^ (1 <<< (bco >>> 62 - 1)) by
          rw [Nat.mod_eq_of_lt (by omega)]; exact hfitC2)]
        rw [Nat.mod_eq_of_lt (show 1 + Y < 2 ^ 32 by omega)]
        rw [if_pos (by omega : 1 + Y ≠ 0)]
        dsimp only
        rw [sub64_exact (by omega) (by omega)]
        have hY1 : 1 + Y - 1 = Y := by omega
        rw [hY1]
        rw [readLE_writeLE_disjoint (Or.inl (show addr + pS ≤ addr + pS by omega)),
          readLE_writeLE]
        rw [Nat.mod_eq_of_lt (show (tag - 1 - numXI) &&& (1 <<< (pS * 8)) - 1
            < 256 ^ pS by
          rw [Nat.one_shiftLeft, pow256, Nat.mul_comm 8 pS]
          exact and_two_pow_lt _ _)]
        have hYle : Y <<< (pS * 8) ≤ tag - 1 - numXI := by
          rw [← hY]
          exact shiftRecomb_le _ _
        rw [Nat.mod_eq_of_lt (show Y <<< (pS * 8) < 2 ^ 32 by omega)]
        have hor : (Y <<< (pS * 8)) ||| ((tag - 1 - numXI) &&& (1 <<< (pS * 8)) - 1)
            = tag - 1 - numXI := by
          rw [← hY, Nat.one_shiftLeft]
          exact orRecomb _ _
        rw [hor]
        rw [Nat.mod_eq_of_lt (show tag - 1 - numXI + numXI < 2 ^ 32 by omega)]
        rw [Nat.mod_eq_of_lt (show tag - 1 - numXI + numXI + 1 < 2 ^ 32 by omega)]
        omega
      · rw [if_neg hp0]
        have hps8 : pS * 8 = 0 := by omega
        rw [hps8] at hY
        rw [Nat.shiftRight_zero] at hY
        rw [if_pos hetp]
        rw [readLE_writeLE]
        rw [Nat.mod_eq_of_lt (show (1 + Y) % 2 ^ 32 < 256 ^ (1 <<< (bco >>> 62 - 1)) by
          rw [Nat.mod_eq_of_lt (by omega)]; exact hfitC2)]
        rw [Nat.mod_eq_of_lt (show 1 + Y < 2 ^ 32 by omega)]
        rw [if_pos (by omega : 1 + Y ≠ 0)]
        dsimp only
        rw [hps8, Nat.shiftLeft_zero]
        rw [sub64_exact (by omega) (by omega)]
        have hY1 : 1 + Y - 1 = Y := by omega
        rw [hY1]
        have hmin0 : min pS 4 = 0 := by omega
        rw [hmin0]
        rw [show ∀ (mm : Mem) (a : Nat), readLE mm a 0 = 0 from fun _ _ => rfl]
        rw [Nat.or_zero]
        rw [Nat.mod_eq_of_lt (show Y < 2 ^ 32 by omega)]
        rw [Nat.mod_eq_of_lt (show Y + numXI < 2 ^ 32 by omega)]
        rw [Nat.mod_eq_of_lt (show Y + numXI + 1 < 2 ^ 32 by omega)]
        omega
  · rw [if_neg (show ¬(bco >>> 62 ≠ 0 ∧ numXI < tag) from fun h => hC h.2)]
    rw [if_pos (show (bco >>> 59) &&& 7 ≠ 0 ∧ tag ≤ numXI from ⟨hxtp, by omega⟩)]
    rw [if_pos hnETBpos.ne']
    by_cases h0 : tag = 0
    · rw [if_pos h0]
      rw [if_pos hetp]
      rw [readLE_writeLE, Nat.zero_mod]
      rw [if_neg (by omega : ¬(0 : Nat) ≠ 0)]
      dsimp only
      rw [if_pos hxtp]
      rw [readLE_writeLE_disjoint (Or.inl (show
        addr + (bco &&& (2 ^ 32 - 1)) + 1 <<< ((bco >>> 59 &&& 7) - 1) ≤ addr + pS
        by omega))]
      have hp := hpay0 h0
      simp only [readTagBytes] at hp
      rw [if_neg (show ¬ sub64 (readLE m (addr + (bco &&& (2 ^ 32 - 1)))
        (1 <<< ((bco >>> 59 &&& 7) - 1))) zv < numXI by omega)]
      omega
    · rw [if_neg h0]
      have hst : sub32 tag 1 = tag - 1 := sub32_exact (by omega) htag32
      rw [hst]
      rw [if_pos hetp]
      rw [readLE_writeLE_disjoint (Or.inr (show
        addr + (bco &&& (2 ^ 32 - 1)) + 1 <<< ((bco >>> 59 &&& 7) - 1) ≤ addr + pS
        by omega))]
      rw [readLE_writeLE, Nat.zero_mod]
      rw [if_neg (by omega : ¬(0 : Nat) ≠ 0)]
      dsimp only
      rw [if_pos hxtp]
      rw [readLE_writeLE]
      have hfit := hfitB (by omega) (by omega)
      rw [Nat.mod_eq_of_lt hfit]
      rw [sub64_exact (by omega) (by omega)]
      have ht1 : tag - 1 + zv - zv = tag - 1 := by omega
      rw [ht1]
      rw [if_pos (show tag - 1 < numXI by omega)]
      rw [Nat.mod_eq_of_lt (show tag - 1 + 1 < 2 ^ 32 by omega)]
      omega


/-- Round trip for the `swift_singlePayloadEnumGeneric` entry points with
an extra-inhabitant type present.  The XI witness pair is a black box:
the hypotheses state its contract (the store does not disturb the extra
tag bytes, get undoes store, and the payload stored in the value reads
back as tag `0` once the extra tag bytes are cleared). -/
theorem spGeneric_roundtrip (tbo pS : Nat) (t : TypeMeta) (nec : Nat) (m : Mem)
    (addr tag : Nat)
    (htbo : tbo < 2 ^ 64)
    (hetp : tbo >>> 62 ≠ 0)
    (htag32 : tag < 2 ^ 32)
    (hnum32 : t.numXI < 2 ^ 32)
    (hfitC : t.numXI < tag → pS < 4 →
      1 + ((tag - 1 - t.numXI) >>> (pS * 8)) < 256 ^ (1 <<< (tbo >>> 62 - 1)))
    (hframe : 1 ≤ tag → tag ≤ t.numXI → ∀ i, i < 1 <<< (tbo >>> 62 - 1) →
      t.storeEnumTagSP (writeLE m (addr + pS) (1 <<< (tbo >>> 62 - 1)) 0)
        (addr + (tbo &&& (2 ^ 32 - 1))) tag nec (addr + pS + i)
        = writeLE m (addr + pS) (1 <<< (tbo >>> 62 - 1)) 0 (addr + pS + i))
    (hget : 1 ≤ tag → tag ≤ t.numXI →
      t.getEnumTagSP (t.storeEnumTagSP (writeLE m (addr + pS) (1 <<< (tbo >>> 62 - 1)) 0)
        (addr + (tbo &&& (2 ^ 32 - 1))) tag nec) (addr + (tbo &&& (2 ^ 32 - 1))) nec
        = tag)
    (hget0 : tag = 0 →
      t.getEnumTagSP (writeLE m (addr + pS) (1 <<< (tbo >>> 62 - 1)) 0)
        (addr + (tbo &&& (2 ^ 32 - 1))) nec = 0) :
    swift_singlePayloadEnumGeneric_getEnumTag tbo pS (some t) nec
      (swift_singlePayloadEnumGeneric_destructiveInjectEnumTag tbo pS (some t) nec
        m addr tag) addr = tag := by
  have hshr : tbo >>> 62 < 4 := by
    rw [Nat.shiftRight_eq_div_pow]
    omega
  have hnETB4 : 1 <<< (tbo >>> 62 - 1) ≤ 4 := by
    rw [Nat.one_shiftLeft]
    exact le_trans (Nat.pow_le_pow_right (by omega) (show tbo >>> 62 - 1 ≤ 2 by omega))
      (by norm_num)
  have hnETBpos : 0 < 1 <<< (tbo >>> 62 - 1) := by
    rw [Nat.one_shiftLeft]
    positivity
  have h256N : (256 : Nat) ^ (1 <<< (tbo >>> 62 - 1)) ≤ 2 ^ 32 := by
    rw [pow256]
    exact Nat.pow_le_pow_right (by omega) (by omega)
  have hminN : min (1 <<< (tbo >>> 62 - 1)) 4 = 1 <<< (tbo >>> 62 - 1) :=
    Nat.min_eq_left hnETB4
  simp only [swift_singlePayloadEnumGeneric_getEnumTag,
    swift_singlePayloadEnumGeneric_destructiveInjectEnumTag,
    storeEnumElement, loadEnumElement, readTagBytes, hminN]
  try dsimp only
  by_cases hC : t.numXI < tag
  · rw [if_pos (show tbo >>> 62 ≠ 0 ∧ t.numXI < tag from ⟨hetp, hC⟩),
      if_pos hnETBpos.ne']
    have hci : sub64 (sub32 tag 1) t.numXI % 2 ^ 32 = tag - 1 - t.numXI := by
      rw [sub32_exact (by omega) htag32, sub64_exact (by omega) (by omega),
        Nat.mod_eq_of_lt (by omega)]
    rw [hci]
    by_cases hpS4 : 4 ≤ pS
    · rw [if_pos hpS4, if_pos hpS4, if_pos hpS4]
      rw [if_pos (show pS ≠ 0 by omega)]
      rw [Nat.min_eq_right hpS4]
      rw [if_pos hetp]
      rw [readLE_writeLE]
      rw [Nat.mod_eq_of_lt (Nat.one_lt_pow hnETBpos.ne' (by omega))]
      rw [if_pos (by omega : (1 : Nat) ≠ 0)]
      dsimp only
      rw [readLE_writeLE_disjoint (Or.inl (show addr + 4 ≤ addr + pS by omega)),
        readLE_writeLE]
      rw [Nat.mod_eq_of_lt (show tag - 1 - t.numXI < 256 ^ 4 by rw [pow256]; omega)]
      rw [Nat.zero_or]
      rw [Nat.mod_eq_of_lt (show tag - 1 - t.numXI + t.numXI < 2 ^ 32 by omega)]
      rw [Nat.mod_eq_of_lt (show tag - 1 - t.numXI + t.numXI + 1 < 2 ^ 32 by omega)]
      omega
    · rw [if_neg hpS4, if_neg hpS4, if_neg hpS4]
      have hfitC2 := hfitC hC (by omega)
      generalize hY : (tag - 1 - t.numXI) >>> (pS * 8) = Y at hfitC2 ⊢
      by_cases hp0 : pS ≠ 0
      · rw [if_pos hp0]
        rw [Nat.min_eq_left (by omega : pS ≤ 4)]
        rw [if_pos hetp]
        rw [readLE_writeLE]
        rw [Nat.mod_eq_of_lt
          (show (1 + Y) % 2 ^ 32 < 256 ^ (1 <<< (tbo >>> 62 - 1)) by
            rw [Nat.mod_eq_of_lt (by omega)]; exact hfitC2)]
        rw [Nat.mod_eq_of_lt (show 1 + Y < 2 ^ 32 by omega)]
        rw [if_pos (by omega : 1 + Y ≠ 0)]
        dsimp only
        rw [sub64_exact (by omega) (by omega)]
        have hY1 : 1 + Y - 1 = Y := by omega
        rw [hY1]
        rw [readLE_writeLE_disjoint (Or.inl (show addr + pS ≤ addr + pS by omega)),
          readLE_writeLE]
        rw [Nat.mod_eq_of_lt (show (tag - 1 - t.numXI) &&& (1 <<< (pS * 8)) - 1
            < 256 ^ pS by
          rw [Nat.one_shiftLeft, pow256, Nat.mul_comm 8 pS]
          exact and_two_pow_lt _ _)]
        have hYle : Y <<< (pS * 8) ≤ tag - 1 - t.numXI := by
          rw [← hY]
          exact shiftRecomb_le _ _
        rw [Nat.mod_eq_of_lt (show Y <<< (pS * 8) < 2 ^ 32 by omega)]
        have hor : (Y <<< (pS * 8)) ||| ((tag - 1 - t.numXI) &&& (1 <<< (pS * 8)) - 1)
            = tag - 1 - t.numXI := by
          rw [← hY, Nat.one_shiftLeft]
          exact orRecomb _ _
        rw [hor]
        rw [Nat.mod_eq_of_lt (show tag - 1 - t.numXI + t.numXI < 2 ^ 32 by omega)]
        rw [Nat.mod_eq_of_lt (show tag - 1 - t.numXI + t.numXI + 1 < 2 ^ 32 by omega)]
        omega
      · rw [if_neg hp0]
        have hps8 : pS * 8 = 0 := by omega
        rw [hps8] at hY
        rw [Nat.shiftRight_zero] at hY
        rw [if_pos hetp]
        rw [readLE_writeLE]
        rw [Nat.mod_eq_of_lt
          (show (1 + Y) % 2 ^ 32 < 256 ^ (1 <<< (tbo >>> 62 - 1)) by
            rw [Nat.mod_eq_of_lt (by omega)]; exact hfitC2)]
        rw [Nat.mod_eq_of_lt (show 1 + Y < 2 ^ 32 by omega)]
        rw [if_pos (by omega : 1 + Y ≠ 0)]
        dsimp only
        rw [hps8, Nat.shiftLeft_zero]
        rw [sub64_exact (by omega) (by omega)]
        have hY1 : 1 + Y - 1 = Y := by omega
        rw [hY1]
        have hmin0 : min pS 4 = 0 := by omega
        rw [hmin0]
        rw [show ∀ (mm : Mem) (a : Nat), readLE mm a 0 = 0 from fun _ _ => rfl]
        rw [Nat.or_zero]
        rw [Nat.mod_eq_of_lt (show Y < 2 ^ 32 by omega)]
        rw [Nat.mod_eq_of_lt (show Y + t.numXI < 2 ^ 32 by omega)]
        rw [Nat.mod_eq_of_lt (show Y + t.numXI + 1 < 2 ^ 32 by omega)]
        omega
  · rw [if_neg (show ¬(tbo >>> 62 ≠ 0 ∧ t.numXI < tag) from fun h => hC h.2)]
    rw [if_pos (show tag ≤ t.numXI by omega)]
    rw [if_pos hnETBpos.ne']
    by_cases h0 : tag = 0
    · rw [if_pos h0]
      rw [if_pos hetp]
      rw [readLE_writeLE, Nat.zero_mod]
      rw [if_neg (by omega : ¬(0 : Nat) ≠ 0)]
      dsimp only
      rw [hget0 h0, h0]
    · rw [if_neg h0]
      try dsimp only
      rw [if_pos hetp]
      rw [readLE_congr (fun i hi => hframe (by omega) (by omega) i hi)]
      rw [readLE_writeLE, Nat.zero_mod]
      rw [if_neg (by omega : ¬(0 : Nat) ≠ 0)]
      dsimp only
      exact hget (by omega) (by omega)
end BL

namespace BL

set_option maxHeartbeats 1600000
set_option maxRecDepth 200000

/-- An extra-inhabitant type for exercising the generic single-payload
entry points: five extra inhabitants, tag stored as four bytes at the XI
offset. -/
def tmXI : TypeMeta :=
  ⟨1, 8, 5, true, fun m a _ => readLE m a 4, fun m a tag _ => writeLE m a 4 tag,
    fun m _ _ => m, fun m _ _ => m, fun m _ _ => m, fun m _ _ => m⟩

/-- C2: inject-then-get returns the injected tag on all four enum
shapes, under the well-formedness side conditions of each encoding
(field widths at most four bytes, XI bytes inside the payload, indices
that fit their byte counts, a payload-case value for tag `0`, and for
the generic shape the XI witness contract). -/
theorem C2_enum_tag_roundtrip :
    (∀ (m : Mem) (addr tag : Nat), tag < 1 →
      swift_singletonEnum_getEnumTag
        (swift_singletonEnum_destructiveInjectEnumTag m addr tag) addr = tag) ∧
    (∀ (bco pS zv numXI : Nat) (m : Mem) (addr tag : Nat),
      bco < 2 ^ 64 → bco >>> 62 ≠ 0 →
      (bco >>> 59) &&& 7 ≠ 0 → (bco >>> 59) &&& 7 ≤ 3 →
      (bco &&& (2 ^ 32 - 1)) + 1 <<< ((bco >>> 59 &&& 7) - 1) ≤ pS →
      zv < 2 ^ 64 → tag < 2 ^ 32 →
      (1 ≤ tag → tag ≤ numXI →
        tag - 1 + zv < 256 ^ (1 <<< ((bco >>> 59 &&& 7) - 1))) →
      (tag = 0 →
        numXI ≤ sub64 (readTagBytes m (addr + (bco &&& (2 ^ 32 - 1)))
          (1 <<< ((bco >>> 59 &&& 7) - 1))) zv) →
      (numXI < tag → pS < 4 →
        1 + ((tag - 1 - numXI) >>> (pS * 8)) < 256 ^ (1 <<< (bco >>> 62 - 1))) →
      swift_enumSimple_getEnumTag bco pS zv numXI
        (swift_enumSimple_destructiveInjectEnumTag bco pS zv numXI m addr tag) addr
        = tag) ∧
    (∀ (tbo pS : Nat) (t : TypeMeta) (nec : Nat) (m : Mem) (addr tag : Nat),
      tbo < 2 ^ 64 → tbo >>> 62 ≠ 0 → tag < 2 ^ 32 → t.numXI < 2 ^ 32 →
      (t.numXI < tag → pS < 4 →
        1 + ((tag - 1 - t.numXI) >>> (pS * 8)) < 256 ^ (1 <<< (tbo >>> 62 - 1))) →
      (1 ≤ tag → tag ≤ t.numXI → ∀ i, i < 1 <<< (tbo >>> 62 - 1) →
        t.storeEnumTagSP (writeLE m (addr + pS) (1 <<< (tbo >>> 62 - 1)) 0)
          (addr + (tbo &&& (2 ^ 32 - 1))) tag nec (addr + pS + i)
          = writeLE m (addr + pS) (1 <<< (tbo >>> 62 - 1)) 0 (addr + pS + i)) →
      (1 ≤ tag → tag ≤ t.numXI →
        t.getEnumTagSP
          (t.storeEnumTagSP (writeLE m (addr + pS) (1 <<< (tbo >>> 62 - 1)) 0)
            (addr + (tbo &&& (2 ^ 32 - 1))) tag nec)
          (addr + (tbo &&& (2 ^ 32 - 1))) nec = tag) →
      (tag = 0 →
        t.getEnumTagSP (writeLE m (addr + pS) (1 <<< (tbo >>> 62 - 1)) 0)
          (addr + (tbo &&& (2 ^ 32 - 1))) nec = 0) →
      swift_singlePayloadEnumGeneric_getEnumTag tbo pS (some t) nec
        (swift_singlePayloadEnumGeneric_destructiveInjectEnumTag tbo pS (some t) nec
          m addr tag) addr = tag) ∧
    (∀ (tb nP sz : Nat) (m : Mem) (addr tag : Nat),
      1 ≤ tb → tb ≤ 4 → tb ≤ sz → tag < 2 ^ 32 → 1 ≤ nP →
      (tag < nP → tag < 256 ^ tb) →
      (nP ≤ tag → sz - tb < 4 →
        nP + ((tag - nP) >>> ((sz - tb) * 8)) < 256 ^ tb) →
      (nP ≤ tag → 4 ≤ sz - tb → nP < 256 ^ tb) →
      swift_multiPayloadEnumGeneric_getEnumTag tb nP sz
        (swift_multiPayloadEnumGeneric_destructiveInjectEnumTag tb nP sz m addr tag)
        addr = tag) := by
  refine ⟨?_, ?_, ?_, ?_⟩
  · intro m addr tag h
    have : tag = 0 := by omega
    subst this
    rfl
  · intro bco pS zv numXI m addr tag h1 h2 h3 h4 h5 h6 h7 h8 h9 h10
    exact enumSimple_roundtrip bco pS zv numXI m addr tag h1 h2 h3 h4 h5 h6 h7 h8 h9 h10
  · intro tbo pS t nec m addr tag h1 h2 h3 h4 h5 h6 h7 h8
    exact spGeneric_roundtrip tbo pS t nec m addr tag h1 h2 h3 h4 h5 h6 h7 h8
  · intro tb nP sz m addr tag h1 h2 h3 h4 h5 h6 h7 h8
    exact mpGeneric_roundtrip tb nP sz m addr tag h1 h2 h3 h4 h5 h6 h7 h8

theorem C2_enum_tag_roundtrip_witness :
    (swift_singletonEnum_getEnumTag
      (swift_singletonEnum_destructiveInjectEnumTag mem0 0 0) 0 = 0) ∧
    (swift_enumSimple_getEnumTag (2 ^ 62 + 2 ^ 59) 8 0 5
      (swift_enumSimple_destructiveInjectEnumTag (2 ^ 62 + 2 ^ 59) 8 0 5 mem0 0 3) 0
      = 3) ∧
    (swift_singlePayloadEnumGeneric_getEnumTag (2 ^ 62) 8 (some tmXI) 0
      (swift_singlePayloadEnumGeneric_destructiveInjectEnumTag (2 ^ 62) 8 (some tmXI) 0
        mem0 0 3) 0 = 3) ∧
    (swift_multiPayloadEnumGeneric_getEnumTag 1 2 9
      (swift_multiPayloadEnumGeneric_destructiveInjectEnumTag 1 2 9 mem0 0 5) 0
      = 5) := by
  refine ⟨C2_enum_tag_roundtrip.1 mem0 0 0 (by decide), ?_, ?_, ?_⟩
  · exact C2_enum_tag_roundtrip.2.1 (2 ^ 62 + 2 ^ 59) 8 0 5 mem0 0 3
      (by decide) (by decide) (by decide) (by decide) (by decide) (by decide)
      (by decide) (fun _ _ => by decide) (fun h => absurd h (by decide))
      (fun h _ => absurd h (by decide))
  · have hfr : ∀ i, i < 1 <<< ((2 ^ 62 : Nat) >>> 62 - 1) →
        tmXI.storeEnumTagSP (writeLE mem0 (0 + 8) (1 <<< ((2 ^ 62 : Nat) >>> 62 - 1)) 0)
          (0 + (2 ^ 62 &&& (2 ^ 32 - 1))) 3 0 (0 + 8 + i)
          = writeLE mem0 (0 + 8) (1 <<< ((2 ^ 62 : Nat) >>> 62 - 1)) 0 (0 + 8 + i) := by
      intro i hi
      have hb : (1 : Nat) <<< (2 ^ 62 >>> 62 - 1) = 1 := by decide
      rw [hb] at hi
      have h0 : i = 0 := by omega
      subst h0
      decide
    have hg : tmXI.getEnumTagSP
        (tmXI.storeEnumTagSP (writeLE mem0 (0 + 8) (1 <<< ((2 ^ 62 : Nat) >>> 62 - 1)) 0)
          (0 + (2 ^ 62 &&& (2 ^ 32 - 1))) 3 0)
        (0 + (2 ^ 62 &&& (2 ^ 32 - 1))) 0 = 3 := by decide
    exact C2_enum_tag_roundtrip.2.2.1 (2 ^ 62) 8 tmXI 0 mem0 0 3
      (by decide) (by decide) (by decide) (by decide)
      (fun h _ => absurd h (by decide))
      (fun _ _ => hfr)
      (fun _ _ => hg)
      (fun h => absurd h (by decide))
  · exact C2_enum_tag_roundtrip.2.2.2 1 2 9 mem0 0 5
      (by decide) (by decide) (by decide) (by decide) (by decide)
      (fun h => absurd h (by decide)) (fun _ h => absurd h (by decide))
      (fun _ _ => by decide)

end BL

